import Mathlib

/-!
# Initialization ordering and intern pools of the script-to-C++ compiler

A shallow embedding of `src/script_opt/CPP/Inits.cc`, `RuntimeGlobals.h` and
`Driver.cc`, and theorems about it.

* `unordered_map<K, V>` is an association list `List (K × V)`; the order of the
  list stands for the (unspecified) iteration order of the container.
* `unordered_set<K>` is a `List K`; a set has no repeated element, which the
  theorems ask for as `List.Nodup`.
* A run that ends in `exit(1)`, a failed `ASSERT` or the dereference of an
  `end()` iterator is an `Except.error`.
-/

namespace Zeek

/-! ## Definitions -/

deriving instance DecidableEq for Except

/-- An object identity (`const Obj*`): only equality of identities is used. -/
abbrev Obj := Nat

/-- The abnormal ends of a run. -/
inductive Fatal where
  /-- `CheckInitConsistency`: "object not in to_do: o", then `exit(1)`. -/
  | objNotInToDo (o : Obj)
  /-- `CheckInitConsistency`: "dep object for o not in to_do: d", then `exit(1)`. -/
  | depNotInToDo (o d : Obj)
  /-- A failed `ASSERT`. -/
  | assertFailed
  /-- `obj_inits.find(o)` is `end()` and is dereferenced. -/
  | noInits (o : Obj)
  /-- The constructor: "can't open C++ target file", then `exit(1)`. -/
  | cantOpenTarget
  /-- The constructor: "fstat failed", then `exit(1)`. -/
  | fstatFailed
  /-- The constructor: "can't open C++ additional file", then `exit(1)`. -/
  | cantOpenAddl
  /-- `reporter->InternalError(...)`, which the spec calls a fatal internal
  error. -/
  | internalError
  deriving DecidableEq, Repr

/-- What `GenDependentInits` writes: one entry per call of `Emit` or `NL`. The
object whose statement is emitted is recorded next to the text, the text alone
being what reaches the file. -/
inductive Ev where
  /-- `Emit("%s", i)` for statement `i` of object `o`. -/
  | stmt (o : Obj) (i : String)
  /-- `NL()`. -/
  | nl
  deriving DecidableEq, Repr

/-- The text an entry of the output stands for. -/
def Ev.text : Ev → String
  | .stmt _ i => i
  | .nl => ""

/-- `m.find(o)`: the value stored under `o`, `none` standing for `end()`. -/
def mapFind {β : Type} : List (Obj × β) → Obj → Option β
  | [], _ => none
  | (k, v) :: rest, o => if k = o then some v else mapFind rest o

/-- `m[o] = f(m[o])`: `operator[]` creates the entry with the value `dflt` when
`o` is absent, and the entry is then updated by `f`. -/
def mapModify {β : Type} : List (Obj × β) → Obj → β → (β → β) → List (Obj × β)
  | [], o, dflt, f => [(o, f dflt)]
  | (k, v) :: rest, o, dflt, f =>
    if k = o then (k, f v) :: rest else (k, v) :: mapModify rest o dflt f

/-- `s.emplace(d)` / `s.insert(d)` on an `unordered_set`. -/
def setInsert (d : Obj) (s : List Obj) : List Obj :=
  if d ∈ s then s else s ++ [d]

/-- The two maps of `CPPCompile` that drive the ordering of initializations. -/
structure Inits where
  /-- `obj_inits`: object to its initialization statements. -/
  obj_inits : List (Obj × List String)
  /-- `obj_deps`: object to the set of objects it depends on. -/
  obj_deps : List (Obj × List Obj)
  deriving DecidableEq, Repr

/-- The maps of a freshly constructed compiler. -/
def Inits.empty : Inits := ⟨[], []⟩

/-- `AddInit(o, init)`: `obj_inits[o].emplace_back(init)`. -/
def AddInit (c : Inits) (o : Obj) (init : String) : Inits :=
  { c with obj_inits := mapModify c.obj_inits o [] (fun v => v ++ [init]) }

/-- `AddInit(o)`: when `obj_inits.count(o) == 0`, `obj_inits[o] = empty`. -/
def AddInitEmpty (c : Inits) (o : Obj) : Inits :=
  if (mapFind c.obj_inits o).isNone then
    { c with obj_inits := mapModify c.obj_inits o [] (fun _ => []) }
  else c

/-- `NoteInitDependency(o1, o2)`: `obj_deps[o1].emplace(o2)`. -/
def NoteInitDependency (c : Inits) (o1 o2 : Obj) : Inits :=
  { c with obj_deps := mapModify c.obj_deps o1 [] (setInsert o2) }

/-- A call of one of the two overloads of `AddInit`. -/
inductive InitCall where
  /-- `AddInit(o, init)`. -/
  | withStmt (o : Obj) (init : String)
  /-- `AddInit(o)`. -/
  | noStmt (o : Obj)
  deriving DecidableEq, Repr

/-- The effect of one call of `AddInit`. -/
def InitCall.run (c : Inits) : InitCall → Inits
  | .withStmt o init => AddInit c o init
  | .noStmt o => AddInitEmpty c o

/-- A sequence of calls of `AddInit`, run in order. -/
def runInitCalls (c : Inits) (calls : List InitCall) : Inits :=
  calls.foldl InitCall.run c

/-- The statements a sequence of calls passes to `AddInit(o, _)`, in call order. -/
def stmtsFor (o : Obj) : List InitCall → List String
  | [] => []
  | .withStmt o2 init :: rest => if o2 = o then init :: stmtsFor o rest else stmtsFor o rest
  | .noStmt _ :: rest => stmtsFor o rest

/-- Whether a call names the object `o`. -/
def InitCall.names (o : Obj) : InitCall → Bool
  | .withStmt o2 _ => decide (o2 = o)
  | .noStmt o2 => decide (o2 = o)

/-- A sequence of calls of `NoteInitDependency`, run in order from the empty maps. -/
def recordDeps (notes : List (Obj × Obj)) : Inits :=
  notes.foldl (fun c p => NoteInitDependency c p.1 p.2) Inits.empty

/-- The inner loop of `CheckInitConsistency`: the first dependency of `o` that
is not in `to_do` ends the run. -/
def checkDepSet (to_do : List Obj) (o : Obj) : List Obj → Except Fatal Unit
  | [] => .ok ()
  | d :: rest =>
    if d ∈ to_do then checkDepSet to_do o rest else .error (.depNotInToDo o d)

/-- The outer loop of `CheckInitConsistency` over the entries of `obj_deps`. -/
def checkEntries (to_do : List Obj) : List (Obj × List Obj) → Except Fatal Unit
  | [] => .ok ()
  | (o, ds) :: rest =>
    if o ∈ to_do then
      match checkDepSet to_do o ds with
      | .error e => .error e
      | .ok () => checkEntries to_do rest
    else .error (.objNotInToDo o)

/-- `CheckInitConsistency(to_do)`. On a normal return the maps and the to-do
set (passed by reference) are handed back as the call leaves them. -/
def CheckInitConsistency (c : Inits) (to_do : List Obj) : Except Fatal (Inits × List Obj) :=
  match checkEntries to_do c.obj_deps with
  | .error e => .error e
  | .ok () => .ok (c, to_do)

/-- The flag `has_pending_dep` that `GenDependentInits` computes for `o`: some
dependency recorded for `o` is still in `to_do`. -/
def has_pending_dep (c : Inits) (to_do : List Obj) (o : Obj) : Bool :=
  match mapFind c.obj_deps o with
  | none => false
  | some ds => ds.any (fun d => decide (d ∈ to_do))

/-- The `for ( const auto& o : to_do )` loop of one pass: `objs` is what is left
to visit, `out` the statements emitted so far on this pass and `done` the set
`done`. The membership tests look at the whole `to_do`, which the loop does not
change. -/
def scanToDo (c : Inits) (to_do : List Obj) :
    List Obj → List Ev → List Obj → Except Fatal (List Ev × List Obj)
  | [], out, done => .ok (out, done)
  | o :: rest, out, done =>
    if has_pending_dep c to_do o then scanToDo c to_do rest out done
    else
      match mapFind c.obj_inits o with
      | none => .error (.noInits o)
      | some is => scanToDo c to_do rest (out ++ is.map (Ev.stmt o)) (setInsert o done)

/-- Modelled from the spec: the macro `ASSERT`, which is defined outside the
files at hand, in a build that has it active. The spec calls a failed progress
assertion a fatal internal error, so a failed `ASSERT` ends the run. In a build
in which the macro expands to nothing the assertions are not there at all: for
`GenDependentInits` that is `GenDependentInits_noAssert`. -/
def ASSERT (cond : Bool) : Except Fatal Unit :=
  if cond then .ok () else .error .assertFailed

/-- The `for ( const auto& o : done )` loop: `ASSERT(to_do.count(o) > 0)`, then
`to_do.erase(o)`. -/
def eraseDone : List Obj → List Obj → Except Fatal (List Obj)
  | [], to_do => .ok to_do
  | o :: rest, to_do =>
    match ASSERT (decide (to_do.count o > 0)) with
    | .error e => .error e
    | .ok () => eraseDone rest (to_do.erase o)

/-- `GenDependentInits(to_do)`: the `while ( to_do.size() > 0 )` loop, one pass
per unit of `fuel`; `out` is the output so far. `none` means that the fuel ran
out, otherwise the result is the abnormal end, or the output together with the
`to_do` the loop leaves behind. -/
def GenDependentInits (c : Inits) :
    Nat → List Obj → List Ev → Option (Except Fatal (List Ev × List Obj))
  | fuel, to_do, out =>
    if to_do.length > 0 then
      match fuel with
      | 0 => none
      | fuel + 1 =>
        match scanToDo c to_do to_do [] [] with
        | .error e => some (.error e)
        | .ok (emitted, done) =>
          match ASSERT (decide (done.length > 0)) with
          | .error e => some (.error e)
          | .ok () =>
            match eraseDone done to_do with
            | .error e => some (.error e)
            | .ok to_do2 => GenDependentInits c fuel to_do2 (out ++ emitted ++ [Ev.nl])
    else some (.ok (out, to_do))

/-- The `for ( const auto& o : done )` loop in a build in which `ASSERT` expands
to nothing: `to_do.erase(o)` for every `o` of `done`. -/
def eraseDone_noAssert : List Obj → List Obj → List Obj
  | [], to_do => to_do
  | o :: rest, to_do => eraseDone_noAssert rest (to_do.erase o)

/-- `GenDependentInits(to_do)` in a build in which `ASSERT` expands to nothing:
the same loop without `ASSERT(done.size() > 0)` and `ASSERT(to_do.count(o) > 0)`.
As in `GenDependentInits`, `none` means that the fuel ran out. -/
def GenDependentInits_noAssert (c : Inits) :
    Nat → List Obj → List Ev → Option (Except Fatal (List Ev × List Obj))
  | fuel, to_do, out =>
    if to_do.length > 0 then
      match fuel with
      | 0 => none
      | fuel + 1 =>
        match scanToDo c to_do to_do [] [] with
        | .error e => some (.error e)
        | .ok (emitted, done) =>
          GenDependentInits_noAssert c fuel (eraseDone_noAssert done to_do)
            (out ++ emitted ++ [Ev.nl])
    else some (.ok (out, to_do))

/-- The object an entry of the output belongs to. -/
def Ev.obj : Ev → Option Obj
  | .stmt o _ => some o
  | .nl => none

/-- The statements of `o`, as entries of the output. -/
def stmtsOf (c : Inits) (o : Obj) : List Ev :=
  ((mapFind c.obj_inits o).getD []).map (Ev.stmt o)

/-- The objects of `to_do` that a pass emits: those without pending dependency. -/
def readyObjs (c : Inits) (to_do : List Obj) : List Obj :=
  to_do.filter (fun o => !has_pending_dep c to_do o)

/-- The objects of `to_do` that a pass leaves in the set. -/
def pendingObjs (c : Inits) (to_do : List Obj) : List Obj :=
  to_do.filter (fun o => has_pending_dep c to_do o)

/-- The output of `n` passes written as a function of the to-do set: the
statements of the ready objects, a blank line, then the passes on what is left. -/
def passOutput (c : Inits) : Nat → List Obj → List Ev
  | 0, _ => []
  | n + 1, to_do =>
    if to_do = [] then []
    else (readyObjs c to_do).flatMap (stmtsOf c) ++ [Ev.nl] ++ passOutput c n (pendingObjs c to_do)

/-- A dependency recorded in `obj_deps`: `o2` is in the set found under `o1`. -/
def DependsOn (c : Inits) (o1 o2 : Obj) : Prop :=
  ∃ ds, mapFind c.obj_deps o1 = some ds ∧ o2 ∈ ds

/-- The dependency graph has no cycle: no object reaches itself along one or
more recorded dependencies. -/
def Acyclic (c : Inits) : Prop :=
  ∀ o, ¬ Relation.TransGen (DependsOn c) o o

/-- Every object of `to_do` has an entry, possibly empty, in `obj_inits`. -/
def AllHaveInits (c : Inits) (to_do : List Obj) : Prop :=
  ∀ o ∈ to_do, (mapFind c.obj_inits o).isSome

instance (c : Inits) (to_do : List Obj) : Decidable (AllHaveInits c to_do) :=
  inferInstanceAs (Decidable (∀ o ∈ to_do, (mapFind c.obj_inits o).isSome))

/-- Three objects in a chain: 1 depends on 2, which depends on 3. -/
def chainInits : Inits :=
  ⟨[(1, ["a", "b"]), (2, ["c"]), (3, [])], [(1, [2]), (2, [3])]⟩

/-- What the entries of `obj_deps` have to do with the calls of
`NoteInitDependency` that built them: every entry lists only noted
dependencies, no entry is empty, and every noted dependency is in an entry. -/
def DepsRecord (m : List (Obj × List Obj)) (notes : List (Obj × Obj)) : Prop :=
  (∀ p ∈ m, ∀ d ∈ p.2, (p.1, d) ∈ notes) ∧ (∀ p ∈ m, p.2 ≠ []) ∧
  (∀ q ∈ notes, ∃ ds, (q.1, ds) ∈ m ∧ q.2 ∈ ds)

/-! ### Intern pools (`RuntimeGlobals.h`) -/

/-- An initializer as a pool sees it, `CPP_Global<T>`: the two virtual
functions the pool calls, as the object at hand resolves them. `V` is the type
`T` of the pool's values, its `default` being the `T` made from `nullptr`; `σ`
is the state of the program the functions may read and change. -/
structure CPP_Global (σ V : Type) where
  /-- `PreInit()`. -/
  PreInit : σ → V × σ
  /-- `Generate(global_vec, offset)`. -/
  Generate : List V → Nat → σ → V × σ

/-- An object of the class `CPP_Global<T>` itself: `PreInit()` returns
`nullptr`, and `Generate(global_vec, offset)` calls `Generate(global_vec)`,
which calls `Generate()`, which returns `nullptr`. -/
def CPP_Global.base {σ V : Type} [Inhabited V] : CPP_Global σ V where
  PreInit := fun s => (default, s)
  Generate := fun _ _ s => (default, s)

/-- The data members of `CPP_Globals<T>`. -/
structure CPP_Globals (σ V : Type) where
  /-- `global_vec`, the vector the pool fills. -/
  global_vec : List V
  /-- `inits`, indexed by cohort. -/
  inits : List (List (CPP_Global σ V))
  /-- `cohort_offsets`. -/
  cohort_offsets : List Nat

/-- The first loop of the constructor: `cohort_offsets.push_back(num_globals)`,
then `num_globals += cohort.size()`. The counts are taken unbounded. -/
def cohortOffsetsLoop {α : Type} : List (List α) → List Nat → Nat → List Nat × Nat
  | [], cohort_offsets, num_globals => (cohort_offsets, num_globals)
  | cohort :: rest, cohort_offsets, num_globals =>
    cohortOffsetsLoop rest (cohort_offsets ++ [num_globals]) (num_globals + cohort.length)

/-- `v.resize(n)`: the vector cut or filled with value-initialized elements. -/
def resize {V : Type} [Inhabited V] (v : List V) (n : Nat) : List V :=
  v.take n ++ List.replicate (n - v.length) default

/-- The inner loop of `DoPreInits`: `global_vec[offset++] = i.PreInit()`. A
write past the end of the vector is `none`. -/
def preInitCohort {σ V : Type} :
    List (CPP_Global σ V) → List V → Nat → σ → Option (List V × Nat × σ)
  | [], global_vec, offset, s => some (global_vec, offset, s)
  | i :: rest, global_vec, offset, s =>
    if offset < global_vec.length then
      preInitCohort rest (global_vec.set offset (i.PreInit s).1) (offset + 1) (i.PreInit s).2
    else none

/-- The outer loop of `DoPreInits`, over the cohorts. -/
def preInitLoop {σ V : Type} :
    List (List (CPP_Global σ V)) → List V → Nat → σ → Option (List V × Nat × σ)
  | [], global_vec, offset, s => some (global_vec, offset, s)
  | cohort :: rest, global_vec, offset, s =>
    match preInitCohort cohort global_vec offset s with
    | none => none
    | some (global_vec2, offset2, s2) => preInitLoop rest global_vec2 offset2 s2

/-- `DoPreInits()`. -/
def CPP_Globals.DoPreInits {σ V : Type} (g : CPP_Globals σ V) (s : σ) :
    Option (CPP_Globals σ V × σ) :=
  match preInitLoop g.inits g.global_vec 0 s with
  | none => none
  | some (global_vec, _, s2) => some ({ g with global_vec := global_vec }, s2)

/-- The constructor `CPP_Globals(_global_vec, _inits)`. -/
def CPP_Globals.new {σ V : Type} [Inhabited V] (_global_vec : List V)
    (_inits : List (List (CPP_Global σ V))) (s : σ) : Option (CPP_Globals σ V × σ) :=
  let r := cohortOffsetsLoop _inits [] 0
  CPP_Globals.DoPreInits
    { global_vec := resize _global_vec r.2, inits := _inits, cohort_offsets := r.1 } s

/-- The loop of `InitializeCohort`:
`global_vec[offset] = i.Generate(global_vec, offset); ++offset`. A write past
the end of the vector is `none`. -/
def generateLoop {σ V : Type} :
    List (CPP_Global σ V) → List V → Nat → σ → Option (List V × σ)
  | [], global_vec, _, s => some (global_vec, s)
  | i :: rest, global_vec, offset, s =>
    if offset < global_vec.length then
      generateLoop rest (global_vec.set offset (i.Generate global_vec offset s).1) (offset + 1)
        (i.Generate global_vec offset s).2
    else none

/-- `InitializeCohort(cohort)`; an index outside `cohort_offsets` or `inits` is
`none`. -/
def CPP_Globals.InitializeCohort {σ V : Type} (g : CPP_Globals σ V) (cohort : Nat) (s : σ) :
    Option (CPP_Globals σ V × σ) :=
  match g.cohort_offsets[cohort]?, g.inits[cohort]? with
  | some offset, some elems =>
    match generateLoop elems g.global_vec offset s with
    | none => none
    | some (global_vec, s2) => some ({ g with global_vec := global_vec }, s2)
  | _, _ => none

/-- The sum of the sizes of the cohorts before cohort `k`. -/
def cohortOffset {α : Type} (inits : List (List α)) (k : Nat) : Nat :=
  ((inits.take k).map List.length).sum

/-- The state of the program after the `PreInit` calls of a list of
initializers, made in order. -/
def afterPreInits {σ V : Type} (l : List (CPP_Global σ V)) (s : σ) : σ :=
  l.foldl (fun s i => (i.PreInit s).2) s

/-- The layout a constructed pool has and keeps: the offsets are the running
sums of the cohort sizes and the vector has one slot per initializer. -/
def CPP_Globals.WF {σ V : Type} (g : CPP_Globals σ V) : Prop :=
  g.cohort_offsets = (List.range g.inits.length).map (cohortOffset g.inits) ∧
  g.global_vec.length = (g.inits.map List.length).sum

instance {σ V : Type} (g : CPP_Globals σ V) : Decidable g.WF :=
  inferInstanceAs (Decidable (_ ∧ _))

/-- The value a `CPP_PortConst` generates, a `PortVal` given by its port number;
`none` is the null pointer. -/
abbrev PortValPtr := Option Nat

/-- A `CPP_PortConst` object: it overrides `Generate()` only, which returns
`make_intrusive<PortVal>(raw_p)`. -/
def CPP_PortConst {σ : Type} (raw_p : Nat) : CPP_Global σ PortValPtr :=
  { (CPP_Global.base : CPP_Global σ PortValPtr) with
    Generate := fun _ _ s => (some raw_p, s) }

/-- Copy-construction of a `CPP_Global<T>` from an initializer. This is what
putting an initializer into `inits` does: `inits` is a
`std::vector<std::vector<CPP_Global<T>>>`, which holds its elements by value,
so an element is an object of the class `CPP_Global<T>` itself, whatever the
class of the initializer it was copied from, and the virtual calls on it run
the functions of `CPP_Global<T>`. -/
def CPP_Global.copy {σ V : Type} [Inhabited V] (_i : CPP_Global σ V) : CPP_Global σ V :=
  CPP_Global.base

/-- A `TypePtr`: the address of a type object, `none` for the null pointer. -/
abbrev TypePtr := Option Nat

/-- The type objects; only the members of a `TypeList` are looked into. -/
inductive TypeObj where
  /-- A `TypeList` and its member types, in order. -/
  | TypeList (types : List TypePtr)
  /-- A type object of another class. -/
  | other (tag : Nat)
  deriving DecidableEq, Repr

/-- The type objects allocated so far, by address; `none` once the program has
dereferenced a null or dangling pointer or indexed a vector out of range, after
which nothing is said about it. -/
abbrev Heap := Option (List TypeObj)

/-- The loop of `CPP_TypeList::DoGenerate`: `tl->Append(global_vec[t])` for
every `t` of `types`, `tl` being the `TypeList` at address `a`. -/
def appendTypes (a : Nat) : List Nat → List TypePtr → List TypeObj → Option (List TypeObj)
  | [], _, h => some h
  | t :: rest, global_vec, h =>
    match global_vec[t]?, h[a]? with
    | some p, some (.TypeList ms) =>
      appendTypes a rest global_vec (h.set a (.TypeList (ms ++ [p])))
    | _, _ => none

/-- A `CPP_TypeList` object with member offsets `types`. `PreInit()` returns
`make_intrusive<TypeList>()`, a new empty list. `Generate(global_vec, offset)`
is that of `CPP_AbstractType`: it returns `DoGenerate(global_vec, offset)`, the
name being empty for a type list, and `DoGenerate` appends to the list found
in `global_vec[offset]` the values of the slots `types` and returns that list. -/
def CPP_TypeList (types : List Nat) : CPP_Global Heap TypePtr where
  PreInit := fun s =>
    match s with
    | none => (none, none)
    | some h => (some h.length, some (h ++ [TypeObj.TypeList []]))
  Generate := fun global_vec offset s =>
    match s, global_vec[offset]? with
    | some h, some (some a) =>
      match appendTypes a types global_vec h with
      | some h2 => (some a, some h2)
      | none => (none, none)
    | _, _ => (none, none)

/-- Three port constants in three cohorts, the second one empty, as copied
into a pool. -/
def portInits : List (List (CPP_Global Unit PortValPtr)) :=
  [[(CPP_PortConst 1).copy, (CPP_PortConst 2).copy], [], [(CPP_PortConst 3).copy]]

/-- The last cohort of `portInits`. -/
def portCohort : List (CPP_Global Unit PortValPtr) := [(CPP_PortConst 3).copy]

/-- An initializer whose `Generate(global_vec, offset)` reads the vector: it
returns the port `raw_p` above the port found in the slot before its own
(`raw_p` itself when that slot is null), and counts the call in the state of
the program. -/
def portAfter (raw_p : Nat) : CPP_Global Nat PortValPtr where
  PreInit := fun s => (none, s)
  Generate := fun global_vec offset s =>
    (some (match global_vec[offset - 1]? with
      | some (some p) => p + raw_p
      | _ => raw_p), s + 1)

/-- The middle cohort of `chainPool`. -/
def chainCohort : List (CPP_Global Nat PortValPtr) :=
  [portAfter 10, portAfter 20, portAfter 30]

/-- A pool of three cohorts of sizes 1, 3 and 1, with the port 7 in the slot of
the first cohort and the port 9 in the slot of the last. -/
def chainPool : CPP_Globals Nat PortValPtr :=
  { global_vec := [some 7, none, none, none, some 9],
    inits := [[portAfter 1], chainCohort, [portAfter 5]],
    cohort_offsets := [0, 1, 4] }

/-! ### The unit tag (`Driver.cc`) -/

/-- What the constructor of `CPPCompile` meets when it opens its files. -/
structure FileEnv where
  /-- Whether `fopen(target_name, mode)` succeeds. -/
  target_opens : Bool
  /-- The `st_size` that `fstat` reports for the target, `none` when `fstat`
  fails. -/
  st_size : Option Nat
  /-- Whether `fopen(addl_name, "w")` succeeds. -/
  addl_opens : Bool
  deriving DecidableEq, Repr

/-- Modelled from the spec: the declaration of `addl_tag`, which is in
`Compile.h` and not in the files at hand. The spec calls the unit tag an
integer that is 0 for a build from scratch; the member is an `int`, 32 bits
wide, and starts at 0. -/
def addl_tag_initial : Int := 0

/-- The conversion to `int` that the assignment `addl_tag = st.st_size + 1`
makes of its 64-bit right-hand side: the value modulo `2^32`, taken between
`-2^31` and `2^31 - 1`. -/
def toInt32 (x : Int) : Int := (x + 2147483648) % 4294967296 - 2147483648

/-- The opening of the files in the constructor of `CPPCompile`, up to the
value of `addl_tag` it leaves; `is_addl` is `hm.IsAppend()`. The sum
`st.st_size + 1` is made in the 64 bits of `st_size`, where it does not
overflow for the size of a file, and is then stored in the `int`. -/
def CPPCompile_ctor (is_addl : Bool) (env : FileEnv) : Except Fatal Int :=
  if env.target_opens then
    if is_addl then
      match env.st_size with
      | none => .error .fstatFailed
      | some st_size => .ok (toInt32 ((st_size : Int) + 1))
    else
      if env.addl_opens then .ok addl_tag_initial else .error .cantOpenAddl
  else .error .cantOpenTarget

/-! ### Triage of the functions (`Driver.cc`) -/

/-- The flavors of a function. -/
inductive FunctionFlavor where
  | FUNC_FLAVOR_FUNCTION
  | FUNC_FLAVOR_EVENT
  | FUNC_FLAVOR_HOOK
  deriving DecidableEq, Repr

/-- What the calls on a `Func*` return: `f->Name()`, `f->Flavor()` and
`GenTypeName(f->GetType())`, by identity of `f`. -/
structure FuncTable where
  /-- `f->Name()`. -/
  Name : Obj → String
  /-- `f->Flavor()`. -/
  Flavor : Obj → FunctionFlavor
  /-- `GenTypeName(f->GetType())`. -/
  TypeName : Obj → String

/-- A `FuncInfo`, one per function body: what its accessors return. -/
structure FuncInfo where
  /-- `func.Func()`, a `Func*`. -/
  Func : Obj
  /-- `func.Profile()`, a `ProfileFunc*`. -/
  Profile : Obj
  /-- `func.Profile()->HashVal()`. -/
  HashVal : Nat
  /-- `func.ShouldSkip()`. -/
  ShouldSkip : Bool
  /-- `BodyName(func)`, a function that is not in the files at hand. -/
  BodyName : String
  deriving DecidableEq, Repr

/-- The function `is_CPP_compilable(pf, reason)`, which is not in the files at
hand, taken as given: the value it returns for a profile, and what it leaves in
`*reason` as a function of what was there. -/
structure FeatureCheck where
  /-- The value returned for the profile. -/
  passes : Obj → Bool
  /-- The content of `*reason` after the call, from the content before. -/
  report : Obj → Option String → Option String

/-- The hash manager `hm`, which is not in the files at hand, taken as given. -/
structure CPPHashManager where
  /-- `hm.HasHash(h)`. -/
  HasHash : Nat → Bool
  /-- `hm.FuncBodyName(h)`. -/
  FuncBodyName : Nat → String

/-- `IsCompilable(func, reason)`. The pointer `reason` is `none` when null and
otherwise holds the content of `*reason`, `none` for a null `const char*`; the
result is the value returned and `reason` after the call. -/
def IsCompilable (chk : FeatureCheck) (hm : CPPHashManager) (func : FuncInfo)
    (reason : Option (Option String)) : Bool × Option (Option String) :=
  if chk.passes func.Profile then
    let reason2 := reason.map (fun _ => (none : Option String))
    if func.ShouldSkip then (false, reason2)
    else if hm.HasHash func.HashVal then (false, reason2)
    else (true, reason2)
  else (false, reason.map (chk.report func.Profile))

/-- `s.insert(x)` on an `unordered_set<string>`. -/
def strSetInsert (x : String) (s : List String) : List String :=
  if x ∈ s then s else s ++ [x]

/-- `m[k] = v` on an `unordered_map<string, string>`. -/
def strMapSet : List (String × String) → String → String → List (String × String)
  | [], k, v => [(k, v)]
  | (k2, v2) :: rest, k, v => if k2 = k then (k2, v) :: rest else (k2, v2) :: strMapSet rest k v

/-- `m.find(k)` on an `unordered_map<string, string>`. -/
def strMapFind : List (String × String) → String → Option String
  | [], _ => none
  | (k2, v2) :: rest, k => if k2 = k then some v2 else strMapFind rest k

/-- What the triage loop of `Compile` writes to. -/
structure Triage where
  /-- `compilable_funcs`. -/
  compilable_funcs : List String
  /-- `not_fully_compilable`. -/
  not_fully_compilable : List String
  /-- `hashed_funcs`. -/
  hashed_funcs : List (String × String)
  /-- What is written to `stderr`: the name and the reason of each
  "cannot be compiled to C++ due to" message. -/
  diagnostics : List (String × String)
  deriving DecidableEq, Repr

/-- The body of the loop `for ( const auto& func : funcs )` that opens
`Compile`. `uninit` is what the uninitialized local `reason` happens to hold. -/
def triageStep (ft : FuncTable) (chk : FeatureCheck) (hm : CPPHashManager)
    (report_uncompilable : Bool) (uninit : Option String) (t : Triage) (func : FuncInfo) :
    Triage :=
  if ft.Flavor func.Func ≠ FunctionFlavor.FUNC_FLAVOR_FUNCTION then t
  else
    let r := IsCompilable chk hm func (some uninit)
    let t2 : Triage :=
      if r.1 then { t with compilable_funcs := strSetInsert func.BodyName t.compilable_funcs }
      else
        let diag :=
          match r.2 with
          | some (some why) =>
            if report_uncompilable then t.diagnostics ++ [(ft.Name func.Func, why)]
            else t.diagnostics
          | _ => t.diagnostics
        { t with diagnostics := diag,
                 not_fully_compilable := strSetInsert (ft.Name func.Func) t.not_fully_compilable }
    if hm.HasHash func.HashVal then
      { t2 with hashed_funcs :=
          strMapSet t2.hashed_funcs (ft.Name func.Func) (hm.FuncBodyName func.HashVal) }
    else t2

/-- The triage loop of `Compile` over `funcs`. -/
def triage (ft : FuncTable) (chk : FeatureCheck) (hm : CPPHashManager)
    (report_uncompilable : Bool) (uninit : Option String) (t : Triage) (funcs : List FuncInfo) :
    Triage :=
  funcs.foldl (triageStep ft chk hm report_uncompilable uninit) t

/-- The functions of `funcs` of the plain-function flavor. -/
def plainFuncs (ft : FuncTable) (funcs : List FuncInfo) : List FuncInfo :=
  funcs.filter (fun func => decide (ft.Flavor func.Func = FunctionFlavor.FUNC_FLAVOR_FUNCTION))

/-- Four functions: 1, 2 and 4 are plain functions, 3 is an event. -/
def fourFuncTable : FuncTable where
  Name := fun f => if f = 1 then "fn1" else if f = 2 then "fn2" else if f = 3 then "fn3" else "fn4"
  Flavor := fun f =>
    if f = 3 then FunctionFlavor.FUNC_FLAVOR_EVENT else FunctionFlavor.FUNC_FLAVOR_FUNCTION
  TypeName := fun f => if f = 3 then "event_type" else "func_type"

/-- A feature check that only the profile 4 fails, for its use of "when". -/
def fourCheck : FeatureCheck where
  passes := fun pf => decide (pf ≠ 4)
  report := fun pf old => if pf = 4 then some "use of when" else old

/-- A ledger that holds the hash 20 alone, under the body name "old_fn2". -/
def fourLedger : CPPHashManager where
  HasHash := fun h => decide (h = 20)
  FuncBodyName := fun _ => "old_fn2"

/-- The bodies of the four functions. -/
def fourFuncs : List FuncInfo :=
  [⟨1, 1, 10, false, "fn1"⟩, ⟨2, 2, 20, false, "fn2"⟩, ⟨3, 3, 30, false, "fn3"⟩,
   ⟨4, 4, 40, false, "fn4"⟩]

/-- The empty sets the triage loop starts from. -/
def Triage.empty : Triage := ⟨[], [], [], []⟩

/-! ### Registration of the compiled bodies (`Driver.cc`) -/

/-- The maps of `CPPCompile`, keyed by the name of a compiled body, that
`RegisterCompiledBody` and `GenStandaloneActivation` read. -/
structure BodyTables where
  /-- `body_hashes.find(f)`; `body_hashes[f]` is the value found, or 0. -/
  body_hashes : String → Option Nat
  /-- `body_priorities[f]`. -/
  body_priorities : String → Int
  /-- `body_events.find(f)`, `none` when `body_events.count(f) == 0`. -/
  body_events : String → Option (List String)
  /-- `cf_locs[f]`. -/
  cf_locs : String → String

/-- A registration record, by the arguments of the constructor call
`std::make_shared<CPP_RegisterBodyT<cls>>(name, priority, hash, events)` that is
emitted. -/
structure RegisterRecord where
  cls : String
  name : String
  priority : Int
  hash : Nat
  events : List String
  deriving DecidableEq, Repr

/-- A record written to the hash file: the kind, the name and the hash. -/
structure LedgerRecord where
  kind : String
  name : String
  hash : Nat
  deriving DecidableEq, Repr

/-- `RegisterCompiledBody(f)`: the record it emits and what it writes to the
hash file. The functions `p_hash`, `merge_p_hashes` and `scope_prefix` are not
in the files at hand and are taken as given. -/
def RegisterCompiledBody (tb : BodyTables) (p_hash : String → Nat)
    (merge_p_hashes : Nat → Nat → Nat) ( scope_prefix : Int → String) (addl_tag : Int)
    (update : Bool) (f : String) : RegisterRecord × List LedgerRecord :=
  let h := (tb.body_hashes f).getD 0
  let p := tb.body_priorities f
  let events := match tb.body_events f with
    | some es => es
    | none => []
  let h2 := if addl_tag > 0 then merge_p_hashes h (p_hash (tb.cf_locs f)) else h
  (⟨f ++ "_cl", f, p, h2, events⟩,
   if update then [⟨"func", ( scope_prefix addl_tag) ++ f, h2⟩] else [])

/-- The loop `for ( const auto& f : compiled_funcs ) RegisterCompiledBody(f)` of
`Compile`: the records emitted between the braces of
`CPP__bodies_to_register`, and what is written to the hash file. -/
def registerCompiledBodies (tb : BodyTables) (p_hash : String → Nat)
    (merge_p_hashes : Nat → Nat → Nat) ( scope_prefix : Int → String) (addl_tag : Int)
    (update : Bool) : List String → List RegisterRecord × List LedgerRecord
  | [] => ([], [])
  | f :: rest =>
    let r := RegisterCompiledBody tb p_hash merge_p_hashes scope_prefix addl_tag update f
    let rs := registerCompiledBodies tb p_hash merge_p_hashes scope_prefix addl_tag update rest
    (r.1 :: rs.1, r.2 ++ rs.2)

/-- Three compiled bodies with the hashes 1, 1 and 2 and the events a, a and b. -/
def threeBodies : BodyTables where
  body_hashes := fun f => if f = "b3" then some 2 else some 1
  body_priorities := fun _ => 0
  body_events := fun f => if f = "b3" then some ["b"] else some ["a"]
  cf_locs := fun _ => "here"

/-! ### Field and enum mappings (the statements that `Inits.cc` emits) -/

/-- A `TypeDecl`: the name `id` of a field, and its type. -/
structure TypeDecl where
  id : String
  type : Nat
  deriving DecidableEq, Repr

/-- A record type at run time, by the declarations of its fields in order. -/
abbrev RecordType := List TypeDecl

/-- Modelled from the spec: `RecordType::FieldOffset(field)`, which is not in
the files at hand: the offset of the first field of that name, and -1 when the
record type has no such field. -/
def FieldOffset : RecordType → String → Int
  | [], _ => -1
  | d :: rest, field =>
    if d.id = field then 0
    else if FieldOffset rest field < 0 then -1 else FieldOffset rest field + 1

/-- Modelled from the spec: `RecordType::NumFields()`, the number of fields. -/
def NumFields (rt : RecordType) : Int := rt.length

/-- Modelled from the spec: `RecordType::AddFieldsDirectly(tl)`, which appends
the declarations of `tl` to the fields. -/
def AddFieldsDirectly (rt : RecordType) (tl : List TypeDecl) : RecordType := rt ++ tl

/-- The statements `InitializeFieldMappings` emits for one mapping
`(rt, td)`, run on the record type `rt` stands for:
`fm_offset = rt->FieldOffset(td->id)`, and when that is negative
`fm_offset = rt->NumFields()` followed by `rt->AddFieldsDirectly(tl)`, where
the text of `GenTypeDecl(td)`, a function that is not in the files at hand, has
put the declaration `td` in `tl`. The result is the `fm_offset` that is pushed
and the record type as the statements leave it. -/
def resolveField (rt : RecordType) (td : TypeDecl) : Int × RecordType :=
  if FieldOffset rt td.id < 0 then (NumFields rt, AddFieldsDirectly rt [td])
  else (FieldOffset rt td.id, rt)

/-- The record types at run time, by the object `GenTypeName` names, and the
vector `field_mapping`. -/
structure FieldState where
  types : Obj → RecordType
  field_mapping : List Int

/-- The statements emitted for one mapping, with
`field_mapping.push_back(fm_offset)` at their end. -/
def runFieldMapping (st : FieldState) (mapping : Obj × TypeDecl) : FieldState :=
  { types := Function.update st.types mapping.1
      (resolveField (st.types mapping.1) mapping.2).2,
    field_mapping := st.field_mapping ++ [(resolveField (st.types mapping.1) mapping.2).1] }

/-- The statements `InitializeFieldMappings` emits for `field_decls`, had they
been run one after the other in the order of their emission. This is what the
statements say, not what the unit does: `GenEpilog` has them emitted outside
`init__CPP`, and `init__CPP` pushes to `field_mapping` on its own. -/
def runFieldMappings (field_decls : List (Obj × TypeDecl)) (st : FieldState) :
    FieldState :=
  field_decls.foldl runFieldMapping st

/-- An enum type at run time: its names and their values. -/
abbrev EnumType := List (String × Nat)

/-- The value recorded for a name of an enum type. -/
def enumFind : EnumType → String → Option Nat
  | [], _ => none
  | (n, v) :: rest, name => if n = name then some v else enumFind rest name

/-- Modelled from the spec: `EnumType::Lookup(name)`, which is not in the files
at hand: the value of the name, and -1 when the type has no such name. -/
def EnumLookup (et : EnumType) (name : String) : Int :=
  match enumFind et name with
  | some v => v
  | none => -1

/-- Modelled from the spec: `EnumType::Lookup(value)`, the name of a member
with that value, null (`none`) when no member has it. -/
def EnumLookupValue : EnumType → Int → Option String
  | [], _ => none
  | (n, v) :: rest, value => if (v : Int) = value then some n else EnumLookupValue rest value

/-- Modelled from the spec: `EnumType::AddNameInternal(name, value)`, which
records the value under the name. -/
def AddNameInternal : EnumType → String → Int → EnumType
  | [], name, value => [(name, value.toNat)]
  | (n, v) :: rest, name, value =>
    if n = name then (n, value.toNat) :: rest else (n, v) :: AddNameInternal rest name value

/-- The statements `InitializeEnumMappings` emits for one mapping
`(et, e_name)`, run on the enum type `et` stands for:
`em_offset = et->Lookup(e_name)`, and when that is negative
`em_offset = et->Names().size()`, the internal error when
`et->Lookup(em_offset)` is not null, and `et->AddNameInternal(e_name, em_offset)`.
The result is the `em_offset` that is pushed and the enum type as the
statements leave it. -/
def resolveEnum (et : EnumType) (e_name : String) : Except Fatal (Int × EnumType) :=
  if EnumLookup et e_name < 0 then
    if (EnumLookupValue et (et.length : Int)).isSome then .error .internalError
    else .ok ((et.length : Int), AddNameInternal et e_name (et.length : Int))
  else .ok (EnumLookup et e_name, et)

/-- Two record types: number 0 has the fields a and b, number 1 has none. -/
def twoRecordTypes : FieldState where
  types := fun rt => if rt = 0 then [⟨"a", 0⟩, ⟨"b", 0⟩] else []
  field_mapping := []

/-- Field references to b and c of type 0, to x of type 1, and again to c of
type 0. -/
def fourFieldDecls : List (Obj × TypeDecl) :=
  [(0, ⟨"b", 0⟩), (0, ⟨"c", 0⟩), (1, ⟨"x", 0⟩), (0, ⟨"c", 0⟩)]

/-! ### The epilog of the generated unit (`Driver.cc`, `Inits.cc`) -/

/-- A line of the generated unit, by the call of `Emit`, `NL`, `StartBlock` or
`EndBlock` that writes it. -/
inductive Line where
  /-- `Emit` of a text, with its arguments filled in when it has some. -/
  | text (s : String)
  /-- `StartBlock()`. -/
  | startBlock
  /-- `EndBlock()`, or `EndBlock(true)` for a block closed with a semicolon. -/
  | endBlock (semi : Bool)
  /-- `NL()`. -/
  | nl
  /-- `Emit("activate_bodies__CPP(\"%s\", %s, %s);", fn, GenTypeName(ft), hashes)`. -/
  | activate (fn : String) (type : String) (hashes : List Nat)
  /-- `Emit("%s.InitializeCohort(%s);", gi->InitializersName(), Fmt(c))`. -/
  | cohortCall (name : String) (c : Nat)
  /-- `Emit("register_scripts__CPP(%s, standalone_init__CPP);", Fmt(total_hash))`. -/
  | registerScripts (total_hash : Nat)
  /-- The line that closes the namespace, with `scope_prefix(addl_tag)` in its
  comment. -/
  | closeNamespace (scope : String)
  /-- The `#include` of `addl_name`. -/
  | includeAddl (addl_name : String)
  deriving DecidableEq, Repr

/-- The name under which `GenStandaloneActivation` looks a body up in
`compiled_funcs`: `Canonicalize(BodyName(func)) + "_zf"`; `Canonicalize` is not
in the files at hand and is taken as given. -/
def bodyZfName (canonicalize : String → String) (func : FuncInfo) : String :=
  canonicalize func.BodyName ++ "_zf"

/-- The first loop of `GenStandaloneActivation`, which fills `func_bodies`. -/
def collectFuncBodies (ft : FuncTable) (canonicalize : String → String)
    (compiled_funcs : List String) (body_hashes : String → Option Nat) :
    List FuncInfo → List (Obj × List Nat) → Except Fatal (List (Obj × List Nat))
  | [], func_bodies => .ok func_bodies
  | func :: rest, func_bodies =>
    if ft.Flavor func.Func = FunctionFlavor.FUNC_FLAVOR_FUNCTION then
      collectFuncBodies ft canonicalize compiled_funcs body_hashes rest func_bodies
    else if bodyZfName canonicalize func ∈ compiled_funcs then
      match ASSERT (body_hashes (bodyZfName canonicalize func)).isSome with
      | .error e => .error e
      | .ok () =>
        collectFuncBodies ft canonicalize compiled_funcs body_hashes rest
          (mapModify func_bodies func.Func []
            (fun v => v ++ [(body_hashes (bodyZfName canonicalize func)).getD 0]))
    else collectFuncBodies ft canonicalize compiled_funcs body_hashes rest func_bodies

/-- The line that opens the definition of the standalone activation hook. -/
def standaloneInitDef : Line := Line.text "void standalone_init__CPP()"

/-- `GenStandaloneActivation()`: the lines it emits. -/
def GenStandaloneActivation (ft : FuncTable) (canonicalize : String → String)
    (funcs : List FuncInfo) (compiled_funcs : List String) (body_hashes : String → Option Nat) :
    Except Fatal (List Line) :=
  match collectFuncBodies ft canonicalize compiled_funcs body_hashes funcs [] with
  | .error e => .error e
  | .ok func_bodies =>
    .ok ([standaloneInitDef, Line.startBlock] ++
      func_bodies.map (fun fb => Line.activate (ft.Name fb.1) (ft.TypeName fb.1) fb.2) ++
      [Line.endBlock false, Line.nl])

/-- Whether a body is one `GenStandaloneActivation` lists: its function is an
event or a hook, and the body has been compiled. -/
def isActivated (ft : FuncTable) (canonicalize : String → String) (compiled_funcs : List String)
    (func : FuncInfo) : Bool :=
  decide (ft.Flavor func.Func ≠ FunctionFlavor.FUNC_FLAVOR_FUNCTION) &&
    decide (bodyZfName canonicalize func ∈ compiled_funcs)

/-- The hashes of the activated bodies of the function `f`, in the order of
`funcs`. -/
def activatedHashes (ft : FuncTable) (canonicalize : String → String)
    (compiled_funcs : List String) (body_hashes : String → Option Nat) (f : Obj)
    (funcs : List FuncInfo) : List Nat :=
  (funcs.filter (fun func =>
      decide (func.Func = f) && isActivated ft canonicalize compiled_funcs func)).map
    (fun func => (body_hashes (bodyZfName canonicalize func)).getD 0)

/-- `func_bodies[f].push_back(body_hashes[bname])` for a body of `f`. -/
def addFuncBody (canonicalize : String → String) (body_hashes : String → Option Nat)
    (func_bodies : List (Obj × List Nat)) (func : FuncInfo) : List (Obj × List Nat) :=
  mapModify func_bodies func.Func []
    (fun v => v ++ [(body_hashes (bodyZfName canonicalize func)).getD 0])

/-- A `CPP_GlobalsInfo`, a class that is not in the files at hand, by what its
functions return. -/
structure CPP_GlobalsInfo where
  /-- `gi->InitializersName()`. -/
  InitializersName : String
  /-- `gi->MaxCohort()`. -/
  MaxCohort : Int
  /-- `gi->CohortSize(c)`. -/
  CohortSize : Nat → Nat

/-- The loop that computes `max_cohort`, from 0. -/
def maxCohort (all_global_info : List CPP_GlobalsInfo) : Int :=
  all_global_info.foldl (fun max_cohort gi => max max_cohort gi.MaxCohort) 0

/-- The inner loop over `all_global_info` for the cohort `c`. -/
def cohortCallsOf (all_global_info : List CPP_GlobalsInfo) (c : Nat) : List Line :=
  (all_global_info.filter (fun gi => decide (gi.CohortSize c > 0))).map
    (fun gi => Line.cohortCall gi.InitializersName c)

/-- The loop `for ( auto c = 0; c <= max_cohort; ++c )` of `GenEpilog`. -/
def cohortCalls (all_global_info : List CPP_GlobalsInfo) : List Line :=
  (List.range ((maxCohort all_global_info).toNat + 1)).flatMap (cohortCallsOf all_global_info)

/-- The cohort of a line that calls `InitializeCohort`. -/
def Line.cohort : Line → Option Nat
  | .cohortCall _ c => some c
  | _ => none

/-- `GenLoad()`: the line it emits into the unit; `total_hash` is the hash after
the merge with the hash of the current time. -/
def GenLoad (total_hash : Nat) : List Line := [Line.registerScripts total_hash]

/-- `GenInitHook()`: `activation` is what `GenStandaloneActivation()` emits. -/
def GenInitHook (standalone : Bool) (activation : List Line) (total_hash : Nat) : List Line :=
  [Line.nl] ++ (if standalone then activation else []) ++
  [Line.text "int hook_in_init()", Line.startBlock,
   Line.text "CPP_init_funcs.push_back(init__CPP);"] ++
  (if standalone then GenLoad total_hash else []) ++
  [Line.text "return 0;", Line.endBlock false, Line.nl,
   Line.text "static int dummy = hook_in_init();\n"]

/-- `InitializeFieldMappings()`: the lines it emits for `field_decls`.
`GenTypeName` and `GenTypeDecl` are not in the files at hand and are taken as
given. -/
def InitializeFieldMappings (GenTypeName : Obj → String) (GenTypeDecl : TypeDecl → String)
    (field_decls : List (Obj × TypeDecl)) : List Line :=
  [Line.text "int fm_offset;"] ++
  field_decls.flatMap (fun mapping =>
    [Line.text ("fm_offset = " ++ (GenTypeName mapping.1 ++ "->AsRecordType()") ++
       "->FieldOffset(\"" ++ mapping.2.id ++ "\");"),
     Line.text "if ( fm_offset < 0 )",
     Line.startBlock,
     Line.text "// field does not exist, create it",
     Line.text ("fm_offset = " ++ (GenTypeName mapping.1 ++ "->AsRecordType()") ++
       "->NumFields();"),
     Line.text "type_decl_list tl;",
     Line.text (GenTypeDecl mapping.2),
     Line.text ((GenTypeName mapping.1 ++ "->AsRecordType()") ++ "->AddFieldsDirectly(tl);"),
     Line.endBlock false,
     Line.text "field_mapping.push_back(fm_offset);"])

/-- What the emitters that `GenEpilog` calls and that are not modelled write:
the loop over `init_infos`, `GenerateInitializers` of every `CPP_GlobalsInfo`,
`InitializeEnumMappings`, `InitializeFieldMappings` and `InitializeBiFs`. -/
structure EpilogParts where
  initExprs : List Line
  initializers : List Line
  enumMappings : List Line
  fieldMappings : List Line
  bifs : List Line

/-- What `GenEpilog` emits before it opens `init__CPP`; `activation` is what
`GenStandaloneActivation()` emits. -/
def epilogBeforeInit (parts : EpilogParts) (standalone : Bool) (activation : List Line) :
    List Line :=
  [Line.nl] ++ parts.initExprs ++ [Line.nl] ++ parts.initializers ++
  (if standalone then activation else []) ++
  [Line.nl] ++ parts.enumMappings ++ [Line.nl] ++ parts.fieldMappings ++
  [Line.nl] ++ parts.bifs ++ [Line.nl]

/-- What `GenEpilog` emits after the calls of `InitializeCohort`: the rest of
`init__CPP`, the lines of `GenInitHook()` and the end of the unit. -/
def epilogAfterCohorts (standalone : Bool) (activation : List Line) (addl_tag : Int)
    (scope addl_name : String) (total_hash : Nat) : List Line :=
  [Line.nl, Line.text "for ( auto& b : CPP__BiF_lookups__ )", Line.text "\tb.ResolveBiF();",
   Line.nl, Line.text "for ( auto& em : CPP__enum_mappings__ )",
   Line.text "\tenum_mapping.push_back(em.ComputeOffset());",
   Line.nl, Line.text "for ( auto& fm : CPP__field_mappings__ )",
   Line.text "\tfield_mapping.push_back(fm.ComputeOffset());"] ++
  (if standalone then [Line.text "standalone_init__CPP();"] else []) ++
  [Line.endBlock true] ++
  GenInitHook standalone activation total_hash ++
  [Line.closeNamespace scope] ++
  (if addl_tag > 0 then [] else [Line.includeAddl addl_name, Line.text "\x7d // zeek::detail"])

/-- `GenEpilog()`: the lines it emits into the unit. `scope` is
`scope_prefix(addl_tag)`. -/
def GenEpilog (parts : EpilogParts) (ft : FuncTable) (canonicalize : String → String)
    (funcs : List FuncInfo) (compiled_funcs : List String) (body_hashes : String → Option Nat)
    (all_global_info : List CPP_GlobalsInfo) (standalone : Bool) (addl_tag : Int)
    (scope addl_name : String) (total_hash : Nat) : Except Fatal (List Line) :=
  match (if standalone
      then GenStandaloneActivation ft canonicalize funcs compiled_funcs body_hashes
      else .ok []) with
  | .error e => .error e
  | .ok activation =>
    .ok (epilogBeforeInit parts standalone activation ++
      [Line.text "void init__CPP()", Line.startBlock,
       Line.text "for ( auto& b : CPP__bodies_to_register )", Line.text "\tb->Register();",
       Line.nl] ++
      cohortCalls all_global_info ++
      epilogAfterCohorts standalone activation addl_tag scope addl_name total_hash)

/-- An epilog in which the emitters that are not modelled write nothing. -/
def noParts : EpilogParts := ⟨[], [], [], [], []⟩

/-- Bodies of two events and a plain function: the event 3 has the bodies
"ev3_a" and "ev3_b", the event 5 the body "ev5", the function 1 the body "fn1". -/
def eventFuncs : List FuncInfo :=
  [⟨3, 1, 11, false, "ev3_a"⟩, ⟨1, 2, 12, false, "fn1"⟩, ⟨5, 3, 13, false, "ev5"⟩,
   ⟨3, 4, 14, false, "ev3_b"⟩]

/-- The functions of `eventFuncs`: 1 is a plain function, the others events. -/
def eventFuncTable : FuncTable where
  Name := fun f => if f = 1 then "fn1" else if f = 3 then "ev3" else "ev5"
  Flavor := fun f =>
    if f = 1 then FunctionFlavor.FUNC_FLAVOR_FUNCTION else FunctionFlavor.FUNC_FLAVOR_EVENT
  TypeName := fun f => if f = 1 then "func_type" else "event_type"

/-- The hashes of the compiled bodies of `eventFuncs`. -/
def eventHashes : String → Option Nat :=
  fun b => if b = "ev3_a_zf" then some 11 else if b = "ev3_b_zf" then some 14
    else if b = "fn1_zf" then some 12 else none

/-- An epilog in which `InitializeFieldMappings` writes the lines of one
recorded reference, to the field "c" of the record type 0, and the other
emitters that are not modelled write nothing; the type is named "rt0" and the
declaration of the field is the text "tl.append(c);". -/
def oneFieldParts : EpilogParts :=
  { noParts with
    fieldMappings := InitializeFieldMappings (fun _ => "rt0") (fun _ => "tl.append(c);")
      [(0, ⟨"c", 0⟩)] }

/-- Two pools: "A" has the cohorts 0 and 2, "B" the cohort 1. -/
def twoPools : List CPP_GlobalsInfo :=
  [⟨"A", 2, fun c => if c = 0 then 3 else if c = 2 then 1 else 0⟩,
   ⟨"B", 1, fun c => if c = 1 then 2 else 0⟩]

/-! ### The lambdas of the unit (`Driver.cc`) -/

/-- A `LambdaExpr` as `Compile` uses it: the expression object and `l->Name()`,
the internal name of the underlying lambda. Two different expressions can carry
the same name. -/
structure LambdaExpr where
  /-- The address of the expression. -/
  expr : Obj
  /-- The value of `l->Name()`. -/
  Name : String
  deriving DecidableEq, Repr

/-- The calls `Compile` makes between the declaration of the lambdas and the
end of the lambda bodies. `DeclareLambda`, `CompileFunc` and `CompileLambda` are
defined outside the files at hand, so a call is recorded and not run. -/
inductive CompileCall where
  /-- `DeclareLambda(l, pfs.ExprProf(l).get())`. -/
  | DeclareLambda (l : LambdaExpr)
  /-- `NL()`. -/
  | NL
  /-- `CompileFunc(func)`. -/
  | CompileFunc (func : Obj)
  /-- `CompileLambda(l, pfs.ExprProf(l).get())`. -/
  | CompileLambda (l : LambdaExpr)
  deriving DecidableEq, Repr

/-- The first `for ( const auto& l : pfs.Lambdas() )` loop of `Compile`, from the
set `lambda_names` it has reached: a lambda whose name is in the set is skipped,
any other one is declared and its name inserted. -/
def declareLambdas : List String → List LambdaExpr → List CompileCall
  | _, [] => []
  | lambda_names, l :: rest =>
    if lambda_names.count l.Name > 0 then declareLambdas lambda_names rest
    else CompileCall.DeclareLambda l :: declareLambdas (strSetInsert l.Name lambda_names) rest

/-- The second `for ( const auto& l : pfs.Lambdas() )` loop of `Compile`, which
calls `CompileLambda`. -/
def compileLambdas : List String → List LambdaExpr → List CompileCall
  | _, [] => []
  | lambda_names, l :: rest =>
    if lambda_names.count l.Name > 0 then compileLambdas lambda_names rest
    else CompileCall.CompileLambda l :: compileLambdas (strSetInsert l.Name lambda_names) rest

/-- The part of `Compile` from `unordered_set<string> lambda_names;` to the end
of the second lambda loop, over `pfs.Lambdas()` in its iteration order:
`lambda_names` starts empty, and `lambda_names.clear()` empties it again before
the second loop. -/
def compileLambdaPasses (funcs : List Obj) (lambdas : List LambdaExpr) : List CompileCall :=
  declareLambdas [] lambdas ++ [CompileCall.NL] ++ funcs.map CompileCall.CompileFunc ++
    compileLambdas [] lambdas

/-- The lambdas `DeclareLambda` was called for, in call order. -/
def declaredLambdas (calls : List CompileCall) : List LambdaExpr :=
  calls.filterMap (fun c => match c with
    | CompileCall.DeclareLambda l => some l
    | _ => none)

/-- The lambdas `CompileLambda` was called for, in call order. -/
def compiledLambdas (calls : List CompileCall) : List LambdaExpr :=
  calls.filterMap (fun c => match c with
    | CompileCall.CompileLambda l => some l
    | _ => none)

/-- The loop body of both lambda loops seen from outside: the lambdas of the
list that the loop does not skip, from the set of names it has reached. -/
def keptLambdas : List String → List LambdaExpr → List LambdaExpr
  | _, [] => []
  | lambda_names, l :: rest =>
    if lambda_names.count l.Name > 0 then keptLambdas lambda_names rest
    else l :: keptLambdas (strSetInsert l.Name lambda_names) rest

/-- Four lambda expressions over two names: the second and the fourth repeat the
name of the first. -/
def fourLambdas : List LambdaExpr :=
  [⟨10, "lambda_a"⟩, ⟨11, "lambda_a"⟩, ⟨12, "lambda_b"⟩, ⟨13, "lambda_a"⟩]

/-! ### Confirmation of a packet analyzer (`packet_analysis/Analyzer.cc`) -/

/-- A `zeek::Tag`, by its number. The class is defined outside the files at
hand; what `Analyzer.cc` uses of it is the conversion to `bool`, which is false
for the empty tag `Tag()` only. The empty tag is the number 0 here. -/
abbrev Tag := Nat

/-- The conversion `operator bool` of a tag. -/
def Tag.toBool (t : Tag) : Bool := t != 0

/-- The values of `session::AnalyzerConfirmationState`. -/
inductive AnalyzerConfirmationState where
  | UNKNOWN
  | CONFIRMED
  | VIOLATED
  deriving DecidableEq, Repr

/-- The members of `session::Session` that `AnalyzerConfirmation` calls. The
class is defined outside the files at hand, so they are parameters, over any
type `σ` of session states. -/
structure SessionOps (σ : Type) where
  /-- The value of `session->AnalyzerState(tag)`. -/
  AnalyzerState : σ → Tag → AnalyzerConfirmationState
  /-- The session after `session->SetAnalyzerState(tag, value)`. -/
  SetAnalyzerState : σ → Tag → AnalyzerConfirmationState → σ
  /-- The value of `session->GetVal()`. -/
  GetVal : σ → Obj

/-- An `analyzer_confirmation` event in the queue of `event_mgr`: the session
value and the tag value it carries (the third argument is always
`val_mgr->Count(0)`). -/
structure ConfirmationEvent where
  session : Obj
  tval : Tag
  deriving DecidableEq, Repr

/-- The function `Analyzer::GetAnalyzerTag`: `assert(tag)`, then the tag of the
analyzer. The failed `assert` ends the run. -/
def GetAnalyzerTag (tag : Tag) : Except Fatal Tag :=
  if Tag.toBool tag then .ok tag else .error .assertFailed

/-- The function `Analyzer::AnalyzerConfirmation` of the analyzer with tag `tag`,
on a session and the queue of `event_mgr`; `handler` tells whether the event
`analyzer_confirmation` has a handler. -/
def AnalyzerConfirmation {σ : Type} (ops : SessionOps σ) (tag : Tag) (handler : Bool)
    (session : σ) (queue : List ConfirmationEvent) (arg_tag : Tag) :
    Except Fatal (σ × List ConfirmationEvent) :=
  if ops.AnalyzerState session arg_tag = AnalyzerConfirmationState.CONFIRMED then
    .ok (session, queue)
  else
    match GetAnalyzerTag tag with
    | .error e => .error e
    | .ok own =>
      let session2 := ops.SetAnalyzerState session own AnalyzerConfirmationState.CONFIRMED
      if !handler then .ok (session2, queue)
      else
        let tval := if Tag.toBool arg_tag then arg_tag else tag
        .ok (session2, queue ++ [⟨ops.GetVal session2, tval⟩])

/-- Setting the state of one tag leaves the state of every other tag as it was,
and the session value too. -/
def SessionOps.Frame {σ : Type} (ops : SessionOps σ) : Prop :=
  ∀ (s : σ) (t u : Tag) (v : AnalyzerConfirmationState),
    (u ≠ t → ops.AnalyzerState (ops.SetAnalyzerState s t v) u = ops.AnalyzerState s u) ∧
    ops.GetVal (ops.SetAnalyzerState s t v) = ops.GetVal s

/-- The state set for a tag is the state read for it afterwards. -/
def SessionOps.ReadsBack {σ : Type} (ops : SessionOps σ) : Prop :=
  ∀ (s : σ) (t : Tag) (v : AnalyzerConfirmationState),
    ops.AnalyzerState (ops.SetAnalyzerState s t v) t = v

/-- A session that keeps the states in a map from tag to state and reads
`UNKNOWN` for a tag without entry; its value is the number 100. -/
def mapSession : SessionOps (List (Obj × AnalyzerConfirmationState)) where
  AnalyzerState := fun s t => (mapFind s t).getD AnalyzerConfirmationState.UNKNOWN
  SetAnalyzerState := fun s t v => mapModify s t AnalyzerConfirmationState.UNKNOWN (fun _ => v)
  GetVal := fun _ => 100

/-! ## Theorems -/

theorem has_pending_dep_iff (c : Inits) (T : List Obj) (o : Obj) :
    has_pending_dep c T o = true ↔ ∃ d, DependsOn c o d ∧ d ∈ T := by
  unfold has_pending_dep DependsOn
  cases h : mapFind c.obj_deps o with
  | none => simp
  | some ds =>
    simp only [List.any_eq_true, decide_eq_true_eq, Option.some.injEq]
    constructor
    · rintro ⟨d, hd, hT⟩
      exact ⟨d, ⟨ds, rfl, hd⟩, hT⟩
    · rintro ⟨d, ⟨ds2, rfl, hd⟩, hT⟩
      exact ⟨d, hd, hT⟩

theorem mem_readyObjs (c : Inits) (T : List Obj) (o : Obj) :
    o ∈ readyObjs c T ↔ o ∈ T ∧ has_pending_dep c T o = false := by
  simp [readyObjs]

theorem mem_pendingObjs (c : Inits) (T : List Obj) (o : Obj) :
    o ∈ pendingObjs c T ↔ o ∈ T ∧ has_pending_dep c T o = true := by
  simp [pendingObjs]

theorem setInsert_of_not_mem (d : Obj) (s : List Obj) (h : d ∉ s) : setInsert d s = s ++ [d] := by
  simp [setInsert, h]

theorem mem_setInsert (d x : Obj) (s : List Obj) : x ∈ setInsert d s ↔ x = d ∨ x ∈ s := by
  unfold setInsert
  split
  · constructor
    · exact Or.inr
    · rintro (h | h)
      · subst h; assumption
      · exact h
  · simp [or_comm]

/-- The scan of a pass emits the statements of the objects without pending
dependency, in the order of the scan, and collects these objects. -/
theorem scanToDo_eq (c : Inits) (T : List Obj) :
    ∀ (objs : List Obj) (out : List Ev) (done : List Obj),
      objs.Nodup → (∀ o ∈ objs, o ∉ done) → AllHaveInits c objs →
      scanToDo c T objs out done =
        .ok (out ++ (objs.filter (fun o => !has_pending_dep c T o)).flatMap (stmtsOf c),
             done ++ objs.filter (fun o => !has_pending_dep c T o)) := by
  intro objs
  induction objs with
  | nil => intro out done _ _ _; simp [scanToDo]
  | cons o rest ih =>
    intro out done hnd hdis hall
    have hnd2 : rest.Nodup := (List.nodup_cons.mp hnd).2
    have ho : o ∉ rest := (List.nodup_cons.mp hnd).1
    have hall2 : AllHaveInits c rest := fun x hx => hall x (List.mem_cons_of_mem _ hx)
    unfold scanToDo
    by_cases hp : has_pending_dep c T o = true
    · simp only [hp, if_true]
      rw [ih out done hnd2 (fun x hx => hdis x (List.mem_cons_of_mem _ hx)) hall2]
      simp [List.filter_cons, hp]
    · have hp2 : has_pending_dep c T o = false := by simpa using hp
      have hso := hall o (List.mem_cons_self _ _)
      obtain ⟨is, his⟩ := Option.isSome_iff_exists.mp hso
      simp only [hp2, his]
      rw [setInsert_of_not_mem o done (hdis o (List.mem_cons_self _ _))]
      rw [ih (out ++ is.map (Ev.stmt o)) (done ++ [o]) hnd2 ?_ hall2]
      · simp [List.filter_cons, hp2, stmtsOf, his, List.flatMap_cons]
      · intro x hx hmem
        rcases List.mem_append.mp hmem with h | h
        · exact hdis x (List.mem_cons_of_mem _ hx) h
        · have : x = o := by simpa using h
          exact ho (this ▸ hx)

/-- Erasing a set of distinct members of `T` from `T` leaves the other members. -/
theorem eraseDone_eq :
    ∀ (done T : List Obj), done.Nodup → T.Nodup → (∀ o ∈ done, o ∈ T) →
      eraseDone done T = .ok (T.filter (fun x => decide (x ∉ done))) := by
  intro done
  induction done with
  | nil => intro T _ _ _; simp [eraseDone]
  | cons o rest ih =>
    intro T hnd hT hsub
    have hoT : o ∈ T := hsub o (List.mem_cons_self _ _)
    have hcount : T.count o > 0 := List.count_pos_iff.mpr hoT
    have hnd2 : rest.Nodup := (List.nodup_cons.mp hnd).2
    have ho : o ∉ rest := (List.nodup_cons.mp hnd).1
    unfold eraseDone
    simp only [ASSERT, hcount, decide_True, if_true]
    rw [ih (T.erase o) hnd2 (hT.erase o) ?_]
    · rw [hT.erase_eq_filter o, List.filter_filter]
      congr 1
      apply List.filter_congr
      intro x _
      by_cases hx : x = o
      · subst hx; simp
      · simp [hx]
    · intro x hx
      have hne : x ≠ o := fun h => ho (h ▸ hx)
      exact (List.mem_erase_of_ne hne).mpr (hsub x (List.mem_cons_of_mem _ hx))

theorem filter_not_mem_readyObjs (c : Inits) (T : List Obj) :
    T.filter (fun x => decide (x ∉ readyObjs c T)) = pendingObjs c T := by
  unfold pendingObjs
  apply List.filter_congr
  intro x hx
  simp [mem_readyObjs, hx]

/-- An acyclic graph leaves, in every non-empty set, an object none of whose
dependencies is in the set. -/
theorem exists_ready (c : Inits) (T : List Obj) (hac : Acyclic c) (hne : T ≠ []) :
    ∃ o, o ∈ readyObjs c T := by
  let r : {x // x ∈ T} → {x // x ∈ T} → Prop :=
    fun a b => Relation.TransGen (DependsOn c) b.1 a.1
  haveI : IsTrans {x // x ∈ T} r := ⟨fun a b d hab hbd => Relation.TransGen.trans hbd hab⟩
  haveI : IsIrrefl {x // x ∈ T} r := ⟨fun a h => hac a.1 h⟩
  have wf : WellFounded r := Finite.wellFounded_of_trans_of_irrefl r
  obtain ⟨m, -, hm⟩ := wf.has_min Set.univ ⟨⟨T.head hne, List.head_mem hne⟩, trivial⟩
  refine ⟨m.1, (mem_readyObjs c T m.1).mpr ⟨m.2, ?_⟩⟩
  by_contra h
  have h2 : has_pending_dep c T m.1 = true := by simpa using h
  obtain ⟨d, hd, hdT⟩ := (has_pending_dep_iff c T m.1).mp h2
  exact hm ⟨d, hdT⟩ trivial (Relation.TransGen.single hd)

/-- One pass of the loop, when some object is ready. -/
theorem GenDependentInits_step (c : Inits) (fuel : Nat) (T : List Obj) (out : List Ev)
    (hnd : T.Nodup) (hall : AllHaveInits c T) (hne : T ≠ []) (hr : readyObjs c T ≠ []) :
    GenDependentInits c (fuel + 1) T out =
      GenDependentInits c fuel (pendingObjs c T)
        (out ++ (readyObjs c T).flatMap (stmtsOf c) ++ [Ev.nl]) := by
  have hlen : T.length > 0 := List.length_pos.mpr hne
  have hrlen : (readyObjs c T).length > 0 := List.length_pos.mpr hr
  rw [GenDependentInits]
  simp only [hlen, if_true]
  rw [scanToDo_eq c T T [] [] hnd (fun _ _ => List.not_mem_nil _) hall]
  simp only [List.nil_append]
  rw [show List.filter (fun o => !has_pending_dep c T o) T = readyObjs c T from rfl]
  simp only [ASSERT, hrlen, decide_True, if_true]
  rw [eraseDone_eq (readyObjs c T) T (hnd.filter _) hnd
    (fun o ho => ((mem_readyObjs c T o).mp ho).1), filter_not_mem_readyObjs]

theorem length_pending_add_ready (c : Inits) (T : List Obj) :
    (pendingObjs c T).length + (readyObjs c T).length = T.length :=
  (List.length_eq_length_filter_add (fun o => has_pending_dep c T o)).symm

theorem length_pendingObjs_le (c : Inits) (T : List Obj) (n : Nat) (hac : Acyclic c)
    (hne : T ≠ []) (hlen : T.length ≤ n + 1) : (pendingObjs c T).length ≤ n := by
  obtain ⟨o, ho⟩ := exists_ready c T hac hne
  have h1 : 0 < (readyObjs c T).length := List.length_pos_of_mem ho
  have h2 := length_pending_add_ready c T
  omega

theorem allHaveInits_pendingObjs (c : Inits) (T : List Obj) (hall : AllHaveInits c T) :
    AllHaveInits c (pendingObjs c T) :=
  fun o ho => hall o ((mem_pendingObjs c T o).mp ho).1

/-- On an acyclic graph the loop returns, with the to-do set empty, and what it
has written is `passOutput`. -/
theorem GenDependentInits_eq_passOutput (c : Inits) (hac : Acyclic c) :
    ∀ (fuel : Nat) (T : List Obj) (out : List Ev),
      T.Nodup → AllHaveInits c T → T.length ≤ fuel →
      GenDependentInits c fuel T out = some (.ok (out ++ passOutput c fuel T, [])) := by
  intro fuel
  induction fuel with
  | zero =>
    intro T out _ _ hlen
    have hT : T = [] := List.length_eq_zero.mp (Nat.le_zero.mp hlen)
    subst hT
    simp [GenDependentInits, passOutput]
  | succ n ih =>
    intro T out hnd hall hlen
    by_cases hT : T = []
    · subst hT
      simp [GenDependentInits, passOutput]
    · obtain ⟨o, ho⟩ := exists_ready c T hac hT
      rw [GenDependentInits_step c n T out hnd hall hT (List.ne_nil_of_mem ho)]
      rw [ih (pendingObjs c T) _ (hnd.filter _) (allHaveInits_pendingObjs c T hall)
        (length_pendingObjs_le c T n hac hT hlen)]
      simp [passOutput, hT]

theorem obj_of_mem_stmtsOf (c : Inits) (x : Obj) (e : Ev) (h : e ∈ stmtsOf c x) :
    e.obj = some x := by
  unfold stmtsOf at h
  obtain ⟨s, -, rfl⟩ := List.mem_map.mp h
  rfl

/-- Only statements of objects of the to-do set are written. -/
theorem passOutput_obj_mem (c : Inits) :
    ∀ (n : Nat) (T : List Obj) (e : Ev) (o : Obj),
      e ∈ passOutput c n T → e.obj = some o → o ∈ T := by
  intro n
  induction n with
  | zero => intro T e o h; simp [passOutput] at h
  | succ n ih =>
    intro T e o h ho
    unfold passOutput at h
    by_cases hT : T = []
    · simp [hT] at h
    · simp only [hT, if_false, List.mem_append, List.mem_flatMap, List.mem_singleton] at h
      rcases h with (⟨x, hx, hex⟩ | rfl) | h
      · have := obj_of_mem_stmtsOf c x e hex
        rw [this] at ho
        have hxo : x = o := Option.some.inj ho
        exact hxo ▸ ((mem_readyObjs c T x).mp hx).1
      · cases ho
      · exact ((mem_pendingObjs c T o).mp (ih _ e o h ho)).1

/-- No statement of an object comes before a statement of one of its
dependencies. -/
theorem passOutput_pairwise (c : Inits) (o1 o2 : Obj) (hdep : DependsOn c o1 o2) :
    ∀ (n : Nat) (T : List Obj),
      (passOutput c n T).Pairwise (fun a b => ¬ (a.obj = some o1 ∧ b.obj = some o2)) := by
  intro n
  induction n with
  | zero => intro T; simp [passOutput]
  | succ n ih =>
    intro T
    unfold passOutput
    by_cases hT : T = []
    · simp [hT]
    · simp only [hT, if_false]
      by_cases h2 : o2 ∈ T
      · -- `o1` is not ready on this pass
        have hnot : ∀ a ∈ (readyObjs c T).flatMap (stmtsOf c) ++ [Ev.nl], a.obj ≠ some o1 := by
          intro a ha h
          simp only [List.mem_append, List.mem_flatMap, List.mem_singleton] at ha
          rcases ha with ⟨x, hx, hax⟩ | rfl
          · have := obj_of_mem_stmtsOf c x a hax
            rw [this] at h
            have hxo : x = o1 := Option.some.inj h
            have hr := ((mem_readyObjs c T x).mp hx).2
            have hp := (has_pending_dep_iff c T x).mpr ⟨o2, hxo ▸ hdep, h2⟩
            rw [hr] at hp
            cases hp
          · cases h
        rw [List.pairwise_append]
        refine ⟨?_, ih _, ?_⟩
        · exact List.pairwise_of_forall_mem_list (fun a ha _ _ h => hnot a ha h.1)
        · intro a ha b _ h
          exact hnot a ha h.1
      · -- no statement of `o2` is written at all
        apply List.pairwise_of_forall_mem_list
        intro a _ b hb h
        apply h2
        have hb2 : b ∈ passOutput c (n + 1) T := by
          unfold passOutput
          simpa [hT] using hb
        exact passOutput_obj_mem c (n + 1) T b o2 hb2 h.2

theorem nl_not_mem_flatMap_stmtsOf (c : Inits) (l : List Obj) :
    Ev.nl ∉ l.flatMap (stmtsOf c) := by
  intro h
  obtain ⟨x, -, hx⟩ := List.mem_flatMap.mp h
  have := obj_of_mem_stmtsOf c x Ev.nl hx
  cases this

/-- There are at most as many passes as objects in the to-do set. -/
theorem passOutput_count_nl (c : Inits) (hac : Acyclic c) :
    ∀ (n : Nat) (T : List Obj), (passOutput c n T).count Ev.nl ≤ T.length := by
  intro n
  induction n with
  | zero => intro T; simp [passOutput]
  | succ n ih =>
    intro T
    unfold passOutput
    by_cases hT : T = []
    · simp [hT]
    · simp only [hT, if_false, List.count_append]
      have h0 : List.count Ev.nl ((readyObjs c T).flatMap (stmtsOf c)) = 0 :=
        List.count_eq_zero.mpr (nl_not_mem_flatMap_stmtsOf c _)
      obtain ⟨o, ho⟩ := exists_ready c T hac hT
      have h1 : 0 < (readyObjs c T).length := List.length_pos_of_mem ho
      have h2 := length_pending_add_ready c T
      have h3 := ih (pendingObjs c T)
      have h4 : List.count Ev.nl [Ev.nl] = 1 := by simp
      omega

/-- The statements of every object of the to-do set are written as one block,
and nowhere else. -/
theorem passOutput_block (c : Inits) (hac : Acyclic c) :
    ∀ (n : Nat) (T : List Obj), T.Nodup → T.length ≤ n → ∀ o ∈ T,
      ∃ pre post, passOutput c n T = pre ++ stmtsOf c o ++ post ∧
        (∀ e ∈ pre, e.obj ≠ some o) ∧ (∀ e ∈ post, e.obj ≠ some o) := by
  intro n
  induction n with
  | zero =>
    intro T _ hlen o ho
    have hT : T = [] := List.length_eq_zero.mp (Nat.le_zero.mp hlen)
    subst hT
    cases ho
  | succ n ih =>
    intro T hnd hlen o ho
    have hT : T ≠ [] := List.ne_nil_of_mem ho
    have hout : passOutput c (n + 1) T =
        (readyObjs c T).flatMap (stmtsOf c) ++ [Ev.nl] ++ passOutput c n (pendingObjs c T) := by
      rw [passOutput]; simp [hT]
    by_cases hp : has_pending_dep c T o = true
    · -- `o` waits for a later pass
      have hop : o ∈ pendingObjs c T := (mem_pendingObjs c T o).mpr ⟨ho, hp⟩
      obtain ⟨pre, post, heq, hpre, hpost⟩ :=
        ih (pendingObjs c T) (hnd.filter _) (length_pendingObjs_le c T n hac hT hlen) o hop
      refine ⟨(readyObjs c T).flatMap (stmtsOf c) ++ [Ev.nl] ++ pre, post, ?_, ?_, hpost⟩
      · rw [hout, heq]; simp [List.append_assoc]
      · intro e he h
        simp only [List.mem_append, List.mem_flatMap, List.mem_singleton] at he
        rcases he with (⟨x, hx, hex⟩ | rfl) | he
        · have := obj_of_mem_stmtsOf c x e hex
          rw [this] at h
          have hxo : x = o := Option.some.inj h
          have hr := ((mem_readyObjs c T x).mp hx).2
          rw [hxo, hp] at hr
          cases hr
        · cases h
        · exact hpre e he h
    · -- `o` is written on this pass
      have hp2 : has_pending_dep c T o = false := by simpa using hp
      have hor : o ∈ readyObjs c T := (mem_readyObjs c T o).mpr ⟨ho, hp2⟩
      obtain ⟨r1, r2, hr⟩ := List.append_of_mem hor
      have hrnd : (r1 ++ o :: r2).Nodup := hr ▸ (hnd.filter _ : (readyObjs c T).Nodup)
      have ho1 : o ∉ r1 := fun h =>
        (List.nodup_append.mp hrnd).2.2 h (List.mem_cons_self _ _)
      have ho2 : o ∉ r2 := (List.nodup_cons.mp (List.nodup_append.mp hrnd).2.1).1
      refine ⟨r1.flatMap (stmtsOf c),
        r2.flatMap (stmtsOf c) ++ [Ev.nl] ++ passOutput c n (pendingObjs c T), ?_, ?_, ?_⟩
      · rw [hout, hr]; simp [List.flatMap_append, List.flatMap_cons, List.append_assoc]
      · intro e he h
        obtain ⟨x, hx, hex⟩ := List.mem_flatMap.mp he
        have := obj_of_mem_stmtsOf c x e hex
        rw [this] at h
        exact ho1 (Option.some.inj h ▸ hx)
      · intro e he h
        simp only [List.mem_append, List.mem_flatMap, List.mem_singleton] at he
        rcases he with (⟨x, hx, hex⟩ | rfl) | he
        · have := obj_of_mem_stmtsOf c x e hex
          rw [this] at h
          exact ho2 (Option.some.inj h ▸ hx)
        · cases h
        · have := passOutput_obj_mem c n _ e o he h
          have hp3 := ((mem_pendingObjs c T o).mp this).2
          rw [hp2] at hp3
          cases hp3

/-- A graph whose dependencies all go down along some rank has no cycle. -/
theorem acyclic_of_rank (c : Inits) (rank : Obj → Nat)
    (h : ∀ o d, DependsOn c o d → rank d < rank o) : Acyclic c := by
  have key : ∀ a b, Relation.TransGen (DependsOn c) a b → rank b < rank a := by
    intro a b hab
    induction hab with
    | single h1 => exact h _ _ h1
    | tail _ h2 ih => exact lt_trans (h _ _ h2) ih
  intro o ho
  exact lt_irrefl _ (key o o ho)

theorem eraseDone_noAssert_eq :
    ∀ (done T T2 : List Obj), eraseDone done T = .ok T2 → eraseDone_noAssert done T = T2 := by
  intro done
  induction done with
  | nil =>
    intro T T2 h
    simp only [eraseDone] at h
    injection h
  | cons o rest ih =>
    intro T T2 h
    unfold eraseDone at h
    split at h
    next => cases h
    next => exact ih _ _ h

/-- A run that returns with the assertions active returns the same without
them. -/
theorem GenDependentInits_noAssert_of_ok (c : Inits) :
    ∀ (fuel : Nat) (T : List Obj) (out : List Ev) (r : List Ev × List Obj),
      GenDependentInits c fuel T out = some (.ok r) →
      GenDependentInits_noAssert c fuel T out = some (.ok r) := by
  intro fuel
  induction fuel with
  | zero =>
    intro T out r h
    rw [GenDependentInits] at h
    rw [GenDependentInits_noAssert]
    split at h
    · cases h
    next hlen => simpa [hlen] using h
  | succ n ih =>
    intro T out r h
    rw [GenDependentInits] at h
    rw [GenDependentInits_noAssert]
    split at h
    next hlen =>
      simp only [hlen, if_true]
      cases hscan : scanToDo c T T [] [] with
      | error e =>
        rw [hscan] at h
        simp at h
      | ok p =>
        obtain ⟨em, done⟩ := p
        rw [hscan] at h
        simp only at h ⊢
        cases hass : ASSERT (decide (done.length > 0)) with
        | error e =>
          rw [hass] at h
          simp at h
        | ok u =>
          rw [hass] at h
          simp only at h
          cases herase : eraseDone done T with
          | error e =>
            rw [herase] at h
            simp at h
          | ok T2 =>
            rw [herase] at h
            rw [eraseDone_noAssert_eq done T T2 herase]
            exact ih _ _ _ h
    next hlen => simpa [hlen] using h

/-- C1: on an acyclic dependency graph, with a to-do set whose objects all have
a statement list, `GenDependentInits` returns with the to-do set empty, and the
same with the assertions compiled out; every statement of every object of the
set is in what it has emitted; and for every recorded dependency `o1 -> o2`
between objects of the to-do set every statement of `o2` is emitted before
every statement of `o1`. -/
theorem GenDependentInits_dependency_order (c : Inits) (to_do : List Obj) (fuel : Nat)
    (hac : Acyclic c) (hnd : to_do.Nodup) (hall : AllHaveInits c to_do)
    (hfuel : to_do.length ≤ fuel) :
    ∃ tr, GenDependentInits c fuel to_do [] = some (.ok (tr, [])) ∧
      GenDependentInits_noAssert c fuel to_do [] = some (.ok (tr, [])) ∧
      (∀ o ∈ to_do, ∀ ss, mapFind c.obj_inits o = some ss →
        ∀ s ∈ ss, ∃ i : Nat, tr[i]? = some (Ev.stmt o s)) ∧
      ∀ o1 o2, DependsOn c o1 o2 → o1 ∈ to_do → o2 ∈ to_do →
        ∀ (i j : Nat) (s1 s2 : String),
          tr[i]? = some (Ev.stmt o1 s1) → tr[j]? = some (Ev.stmt o2 s2) → j < i := by
  refine ⟨passOutput c fuel to_do, ?_, ?_, ?_, ?_⟩
  · simpa using GenDependentInits_eq_passOutput c hac fuel to_do [] hnd hall hfuel
  · apply GenDependentInits_noAssert_of_ok
    simpa using GenDependentInits_eq_passOutput c hac fuel to_do [] hnd hall hfuel
  · intro o ho ss hss s hs
    obtain ⟨pre, post, h, -, -⟩ := passOutput_block c hac fuel to_do hnd hfuel o ho
    apply List.getElem?_of_mem
    rw [h]
    have hst : stmtsOf c o = ss.map (Ev.stmt o) := by simp [stmtsOf, hss]
    rw [hst]
    exact List.mem_append_left _ (List.mem_append_right _ (List.mem_map_of_mem _ hs))
  · intro o1 o2 hdep _ _ i j s1 s2 hi hj
    have hpw := passOutput_pairwise c o1 o2 hdep fuel to_do
    by_contra hlt
    have hle : i ≤ j := Nat.le_of_not_lt hlt
    rcases Nat.lt_or_eq_of_le hle with hij | hij
    · obtain ⟨hi1, hi2⟩ := List.getElem?_eq_some_iff.mp hi
      obtain ⟨hj1, hj2⟩ := List.getElem?_eq_some_iff.mp hj
      have := List.pairwise_iff_getElem.mp hpw i j hi1 hj1 hij
      rw [hi2, hj2] at this
      exact this ⟨rfl, rfl⟩
    · subst hij
      rw [hi] at hj
      have ho : o1 = o2 := by injection hj with h; injection h
      subst ho
      exact hac o1 (Relation.TransGen.single hdep)

theorem acyclic_chainInits : Acyclic chainInits := by
  apply acyclic_of_rank chainInits (fun o => 10 - o)
  rintro o d ⟨ds, hds, hd⟩
  simp only [chainInits, mapFind] at hds
  split at hds
  next h1 =>
    cases hds; simp at hd; subst hd; subst h1; decide
  next h1 =>
    split at hds
    next h2 =>
      cases hds; simp at hd; subst hd; subst h2; decide
    next h2 => cases hds

theorem GenDependentInits_dependency_order_witness :
    Acyclic chainInits ∧ [1, 2, 3].Nodup ∧ AllHaveInits chainInits [1, 2, 3] ∧
    GenDependentInits chainInits 3 [1, 2, 3] [] =
      some (.ok ([Ev.nl, Ev.stmt 2 "c", Ev.nl, Ev.stmt 1 "a", Ev.stmt 1 "b", Ev.nl], [])) ∧
    ∃ tr, GenDependentInits chainInits 3 [1, 2, 3] [] = some (.ok (tr, [])) ∧
      GenDependentInits_noAssert chainInits 3 [1, 2, 3] [] = some (.ok (tr, [])) ∧
      (∀ o ∈ [1, 2, 3], ∀ ss, mapFind chainInits.obj_inits o = some ss →
        ∀ s ∈ ss, ∃ i : Nat, tr[i]? = some (Ev.stmt o s)) ∧
      ∀ o1 o2, DependsOn chainInits o1 o2 → o1 ∈ [1, 2, 3] → o2 ∈ [1, 2, 3] →
        ∀ (i j : Nat) (s1 s2 : String),
          tr[i]? = some (Ev.stmt o1 s1) → tr[j]? = some (Ev.stmt o2 s2) → j < i :=
  ⟨acyclic_chainInits, by decide, by decide, by decide,
    GenDependentInits_dependency_order chainInits [1, 2, 3] 3 acyclic_chainInits
      (by decide) (by decide) (by decide)⟩

/-- C2: on an acyclic dependency graph, with a to-do set whose objects all have
a statement list, the progress assertion never fails and the loop ends, after at
most as many passes as there are objects, with the to-do set empty; the
statement list of every object of the set is in the output as one block, in the
order in which the statements were added, and no statement of the object is
anywhere else in the output. -/
theorem GenDependentInits_emits_each_once (c : Inits) (to_do : List Obj) (fuel : Nat)
    (hac : Acyclic c) (hnd : to_do.Nodup) (hall : AllHaveInits c to_do)
    (hfuel : to_do.length ≤ fuel) :
    ∃ tr, GenDependentInits c fuel to_do [] = some (.ok (tr, [])) ∧
      tr.count Ev.nl ≤ to_do.length ∧
      ∀ o ∈ to_do, ∀ ss, mapFind c.obj_inits o = some ss →
        ∃ pre post, tr = pre ++ ss.map (Ev.stmt o) ++ post ∧
          (∀ e ∈ pre, e.obj ≠ some o) ∧ (∀ e ∈ post, e.obj ≠ some o) := by
  refine ⟨passOutput c fuel to_do, ?_, passOutput_count_nl c hac fuel to_do, ?_⟩
  · simpa using GenDependentInits_eq_passOutput c hac fuel to_do [] hnd hall hfuel
  · intro o ho ss hss
    have := passOutput_block c hac fuel to_do hnd hfuel o ho
    simpa [stmtsOf, hss] using this

theorem GenDependentInits_emits_each_once_witness :
    Acyclic chainInits ∧ [3, 1, 2].Nodup ∧ AllHaveInits chainInits [3, 1, 2] ∧
    ∃ tr, GenDependentInits chainInits 3 [3, 1, 2] [] = some (.ok (tr, [])) ∧
      tr.count Ev.nl ≤ [3, 1, 2].length ∧
      ∀ o ∈ [3, 1, 2], ∀ ss, mapFind chainInits.obj_inits o = some ss →
        ∃ pre post, tr = pre ++ ss.map (Ev.stmt o) ++ post ∧
          (∀ e ∈ pre, e.obj ≠ some o) ∧ (∀ e ∈ post, e.obj ≠ some o) :=
  ⟨acyclic_chainInits, by decide, by decide,
    GenDependentInits_emits_each_once chainInits [3, 1, 2] 3 acyclic_chainInits
      (by decide) (by decide) (by decide)⟩

theorem mapFind_mapModify_self {β : Type} (m : List (Obj × β)) (o : Obj) (dflt : β)
    (f : β → β) : mapFind (mapModify m o dflt f) o = some (f ((mapFind m o).getD dflt)) := by
  induction m with
  | nil => simp [mapModify, mapFind]
  | cons p rest ih =>
    obtain ⟨k, v⟩ := p
    by_cases hk : k = o
    · simp [mapModify, mapFind, hk]
    · simp [mapModify, mapFind, hk, ih]

theorem mapFind_mapModify_ne {β : Type} (m : List (Obj × β)) (o o2 : Obj) (dflt : β)
    (f : β → β) (h : o2 ≠ o) : mapFind (mapModify m o dflt f) o2 = mapFind m o2 := by
  induction m with
  | nil => simp [mapModify, mapFind, Ne.symm h]
  | cons p rest ih =>
    obtain ⟨k, v⟩ := p
    have h2 : ¬ o = o2 := fun e => h e.symm
    by_cases hk : k = o
    · subst hk
      simp [mapModify, mapFind, h2]
    · by_cases hk2 : k = o2
      · subst hk2
        simp [mapModify, mapFind, hk]
      · simp [mapModify, mapFind, hk, hk2, ih]

/-- What `obj_inits` holds for `o` after a sequence of `AddInit` calls, from any
starting maps. -/
theorem mapFind_runInitCalls (o : Obj) :
    ∀ (calls : List InitCall) (c : Inits),
      mapFind (runInitCalls c calls).obj_inits o =
        match mapFind c.obj_inits o with
        | some v => some (v ++ stmtsFor o calls)
        | none => if calls.any (InitCall.names o) then some (stmtsFor o calls) else none := by
  intro calls
  induction calls with
  | nil =>
    intro c
    show mapFind c.obj_inits o = _
    cases h : mapFind c.obj_inits o <;> simp [stmtsFor]
  | cons call rest ih =>
    intro c
    have hrun : runInitCalls c (call :: rest) = runInitCalls (InitCall.run c call) rest := rfl
    rw [hrun, ih]
    cases call with
    | withStmt o2 init =>
      by_cases ho : o2 = o
      · subst ho
        simp only [InitCall.run, AddInit, mapFind_mapModify_self, stmtsFor, if_true]
        cases h : mapFind c.obj_inits o2 <;> simp [InitCall.names]
      · simp only [InitCall.run, AddInit, stmtsFor, if_neg ho]
        rw [mapFind_mapModify_ne _ _ _ _ _ (Ne.symm ho)]
        cases h : mapFind c.obj_inits o <;> simp [InitCall.names, ho]
    | noStmt o2 =>
      by_cases ho : o2 = o
      · subst ho
        cases h : mapFind c.obj_inits o2 with
        | none =>
          simp [InitCall.run, AddInitEmpty, h, mapFind_mapModify_self, stmtsFor, InitCall.names]
        | some v =>
          simp [InitCall.run, AddInitEmpty, h, stmtsFor]
      · have hsame : mapFind (InitCall.run c (InitCall.noStmt o2)).obj_inits o
            = mapFind c.obj_inits o := by
          show mapFind (AddInitEmpty c o2).obj_inits o = _
          unfold AddInitEmpty
          split
          · exact mapFind_mapModify_ne _ _ _ _ _ (Ne.symm ho)
          · rfl
        rw [hsame]
        cases h : mapFind c.obj_inits o <;> simp [InitCall.names, ho, stmtsFor]

theorem AddInitEmpty_of_some (c : Inits) (o : Obj) (v : List String)
    (h : mapFind c.obj_inits o = some v) : AddInitEmpty c o = c := by
  simp [AddInitEmpty, h]

/-- C4: after any sequence of `AddInit` calls on a fresh compiler, the list
recorded for an object is the statements passed to `AddInit(o, statement)` for
it, in call order, and the object has an entry exactly when some call named it;
`AddInit(o)` gives an absent object an empty list and leaves the other objects
as they are, changes nothing when the object is present, and calling it twice
is the same as calling it once. -/
theorem AddInit_records (calls : List InitCall) (o : Obj) :
    mapFind (runInitCalls Inits.empty calls).obj_inits o =
        (if calls.any (InitCall.names o) then some (stmtsFor o calls) else none) ∧
    (∀ c : Inits, mapFind c.obj_inits o = none →
        mapFind (AddInitEmpty c o).obj_inits o = some [] ∧
        (∀ o2, o2 ≠ o → mapFind (AddInitEmpty c o).obj_inits o2 = mapFind c.obj_inits o2) ∧
        (AddInitEmpty c o).obj_deps = c.obj_deps) ∧
    (∀ c : Inits, mapFind c.obj_inits o ≠ none → AddInitEmpty c o = c) ∧
    (∀ c : Inits, AddInitEmpty (AddInitEmpty c o) o = AddInitEmpty c o) := by
  refine ⟨?_, ?_, ?_, ?_⟩
  · rw [mapFind_runInitCalls]
    simp [Inits.empty, mapFind]
  · intro c hc
    refine ⟨?_, ?_, ?_⟩
    · simp [AddInitEmpty, hc, mapFind_mapModify_self]
    · intro o2 ho2
      simp [AddInitEmpty, hc, mapFind_mapModify_ne _ _ _ _ _ ho2]
    · simp [AddInitEmpty, hc]
  · intro c hc
    obtain ⟨v, hv⟩ := Option.ne_none_iff_exists'.mp hc
    exact AddInitEmpty_of_some c o v hv
  · intro c
    cases hc : mapFind c.obj_inits o with
    | none =>
      have h1 : mapFind (AddInitEmpty c o).obj_inits o = some [] := by
        simp [AddInitEmpty, hc, mapFind_mapModify_self]
      exact AddInitEmpty_of_some _ o [] h1
    | some v =>
      rw [AddInitEmpty_of_some c o v hc, AddInitEmpty_of_some c o v hc]

theorem AddInit_records_witness :
    mapFind (runInitCalls Inits.empty
        [.withStmt 1 "a", .noStmt 1, .withStmt 2 "x", .withStmt 1 "b", .noStmt 3]).obj_inits 1 =
        (if [InitCall.withStmt 1 "a", .noStmt 1, .withStmt 2 "x", .withStmt 1 "b", .noStmt 3].any
              (InitCall.names 1)
          then some (stmtsFor 1 [.withStmt 1 "a", .noStmt 1, .withStmt 2 "x", .withStmt 1 "b",
            .noStmt 3])
          else none) ∧
    (∀ c : Inits, mapFind c.obj_inits 1 = none →
        mapFind (AddInitEmpty c 1).obj_inits 1 = some [] ∧
        (∀ o2, o2 ≠ 1 → mapFind (AddInitEmpty c 1).obj_inits o2 = mapFind c.obj_inits o2) ∧
        (AddInitEmpty c 1).obj_deps = c.obj_deps) ∧
    (∀ c : Inits, mapFind c.obj_inits 1 ≠ none → AddInitEmpty c 1 = c) ∧
    (∀ c : Inits, AddInitEmpty (AddInitEmpty c 1) 1 = AddInitEmpty c 1) :=
  AddInit_records [.withStmt 1 "a", .noStmt 1, .withStmt 2 "x", .withStmt 1 "b", .noStmt 3] 1

example : mapFind (runInitCalls Inits.empty
    [.withStmt 1 "a", .noStmt 1, .withStmt 2 "x", .withStmt 1 "b", .noStmt 3]).obj_inits 1
    = some ["a", "b"] := by decide

theorem mem_mapModify {β : Type} (m : List (Obj × β)) (o : Obj) (dflt : β) (f : β → β)
    (p : Obj × β) (h : p ∈ mapModify m o dflt f) :
    p ∈ m ∨ (p.1 = o ∧ ∃ v, (v = dflt ∨ (o, v) ∈ m) ∧ p.2 = f v) := by
  induction m with
  | nil =>
    simp only [mapModify, List.mem_singleton] at h
    subst h
    exact Or.inr ⟨rfl, dflt, Or.inl rfl, rfl⟩
  | cons q rest ih =>
    obtain ⟨k, v⟩ := q
    by_cases hk : k = o
    · subst hk
      simp only [mapModify, if_true, List.mem_cons] at h
      rcases h with h | h
      · subst h
        exact Or.inr ⟨rfl, v, Or.inr (List.mem_cons_self _ _), rfl⟩
      · exact Or.inl (List.mem_cons_of_mem _ h)
    · simp only [mapModify, if_neg hk, List.mem_cons] at h
      rcases h with h | h
      · exact Or.inl (h ▸ List.mem_cons_self _ _)
      · rcases ih h with h2 | ⟨h2, w, hw, h3⟩
        · exact Or.inl (List.mem_cons_of_mem _ h2)
        · refine Or.inr ⟨h2, w, ?_, h3⟩
          rcases hw with hw | hw
          · exact Or.inl hw
          · exact Or.inr (List.mem_cons_of_mem _ hw)

theorem mem_mapModify_of_ne {β : Type} (m : List (Obj × β)) (o : Obj) (dflt : β) (f : β → β)
    (q : Obj × β) (hq : q ∈ m) (hne : q.1 ≠ o) : q ∈ mapModify m o dflt f := by
  induction m with
  | nil => cases hq
  | cons r rest ih =>
    obtain ⟨k, v⟩ := r
    by_cases hk : k = o
    · subst hk
      simp only [mapModify, if_true]
      rcases List.mem_cons.mp hq with h | h
      · subst h; exact absurd rfl hne
      · exact List.mem_cons_of_mem _ h
    · simp only [mapModify, if_neg hk]
      rcases List.mem_cons.mp hq with h | h
      · exact h ▸ List.mem_cons_self _ _
      · exact List.mem_cons_of_mem _ (ih h)

theorem mem_mapModify_of_key {β : Type} (m : List (Obj × β)) (o : Obj) (dflt : β) (f : β → β)
    (v : β) (hv : (o, v) ∈ m) :
    (o, v) ∈ mapModify m o dflt f ∨ (o, f v) ∈ mapModify m o dflt f := by
  induction m with
  | nil => cases hv
  | cons r rest ih =>
    obtain ⟨k, w⟩ := r
    by_cases hk : k = o
    · subst hk
      simp only [mapModify, if_true]
      rcases List.mem_cons.mp hv with h | h
      · have hw : v = w := by injection h
        subst hw
        exact Or.inr (List.mem_cons_self _ _)
      · exact Or.inl (List.mem_cons_of_mem _ h)
    · simp only [mapModify, if_neg hk]
      rcases List.mem_cons.mp hv with h | h
      · have : o = k := by injection h
        exact absurd this.symm hk
      · rcases ih h with h2 | h2
        · exact Or.inl (List.mem_cons_of_mem _ h2)
        · exact Or.inr (List.mem_cons_of_mem _ h2)

theorem exists_mem_mapModify {β : Type} (m : List (Obj × β)) (o : Obj) (dflt : β) (f : β → β) :
    ∃ v, (o, f v) ∈ mapModify m o dflt f := by
  induction m with
  | nil => exact ⟨dflt, by simp [mapModify]⟩
  | cons r rest ih =>
    obtain ⟨k, w⟩ := r
    by_cases hk : k = o
    · subst hk
      exact ⟨w, by simp [mapModify]⟩
    · obtain ⟨v, hv⟩ := ih
      exact ⟨v, by simp only [mapModify, if_neg hk]; exact List.mem_cons_of_mem _ hv⟩

/-- One call of `NoteInitDependency` keeps `obj_deps` a record of the calls. -/
theorem depsRecord_note (m : List (Obj × List Obj)) (notes : List (Obj × Obj)) (o d : Obj)
    (h : DepsRecord m notes) :
    DepsRecord (mapModify m o [] (setInsert d)) (notes ++ [(o, d)]) := by
  obtain ⟨h1, h2, h3⟩ := h
  refine ⟨?_, ?_, ?_⟩
  · intro p hp x hx
    rcases mem_mapModify m o [] (setInsert d) p hp with hm | ⟨hk, v, hv, hpv⟩
    · exact List.mem_append_left _ (h1 p hm x hx)
    · rw [hpv, mem_setInsert] at hx
      rcases hx with hx | hx
      · subst hx
        apply List.mem_append_right
        rw [← hk]
        simp
      · rcases hv with hv | hv
        · subst hv; cases hx
        · apply List.mem_append_left
          rw [hk]
          exact h1 (o, v) hv x hx
  · intro p hp
    rcases mem_mapModify m o [] (setInsert d) p hp with hm | ⟨_, v, _, hpv⟩
    · exact h2 p hm
    · rw [hpv]
      intro he
      have : d ∈ setInsert d v := (mem_setInsert d d v).mpr (Or.inl rfl)
      rw [he] at this
      cases this
  · intro q hq
    rcases List.mem_append.mp hq with hq | hq
    · obtain ⟨ds, hds, hqd⟩ := h3 q hq
      by_cases hk : q.1 = o
      · rw [hk] at hds ⊢
        rcases mem_mapModify_of_key m o [] (setInsert d) ds hds with h | h
        · exact ⟨ds, h, hqd⟩
        · exact ⟨setInsert d ds, h, (mem_setInsert d q.2 ds).mpr (Or.inr hqd)⟩
      · exact ⟨ds, mem_mapModify_of_ne m o [] (setInsert d) (q.1, ds) hds hk, hqd⟩
    · have hq2 : q = (o, d) := by simpa using hq
      subst hq2
      obtain ⟨v, hv⟩ := exists_mem_mapModify m o [] (setInsert d)
      exact ⟨setInsert d v, hv, (mem_setInsert d d v).mpr (Or.inl rfl)⟩

theorem depsRecord_foldl :
    ∀ (notes : List (Obj × Obj)) (c : Inits) (notes0 : List (Obj × Obj)),
      DepsRecord c.obj_deps notes0 →
      DepsRecord (notes.foldl (fun c p => NoteInitDependency c p.1 p.2) c).obj_deps
        (notes0 ++ notes) := by
  intro notes
  induction notes with
  | nil => intro c notes0 h; simpa using h
  | cons q rest ih =>
    intro c notes0 h
    have := ih (NoteInitDependency c q.1 q.2) (notes0 ++ [q])
      (depsRecord_note c.obj_deps notes0 q.1 q.2 h)
    simpa [List.append_assoc] using this

theorem depsRecord_recordDeps (notes : List (Obj × Obj)) :
    DepsRecord (recordDeps notes).obj_deps notes := by
  have := depsRecord_foldl notes Inits.empty [] ⟨by simp [Inits.empty], by simp [Inits.empty],
    by simp⟩
  simpa [recordDeps] using this

theorem checkDepSet_ok_iff (T : List Obj) (o : Obj) (ds : List Obj) :
    checkDepSet T o ds = .ok () ↔ ∀ d ∈ ds, d ∈ T := by
  induction ds with
  | nil => simp [checkDepSet]
  | cons d rest ih =>
    by_cases hd : d ∈ T
    · simp [checkDepSet, hd, ih]
    · simp [checkDepSet, hd]

theorem checkEntries_ok_iff (T : List Obj) (m : List (Obj × List Obj)) :
    checkEntries T m = .ok () ↔ ∀ p ∈ m, p.1 ∈ T ∧ ∀ d ∈ p.2, d ∈ T := by
  induction m with
  | nil => simp [checkEntries]
  | cons q rest ih =>
    obtain ⟨o, ds⟩ := q
    by_cases ho : o ∈ T
    · cases hc : checkDepSet T o ds with
      | error e =>
        have : ¬ ∀ d ∈ ds, d ∈ T := fun h => by
          rw [(checkDepSet_ok_iff T o ds).mpr h] at hc
          cases hc
        simp [checkEntries, ho, hc, this]
      | ok u =>
        have := (checkDepSet_ok_iff T o ds).mp hc
        simp only [checkEntries, ho, hc, if_true, ih, List.mem_cons, forall_eq_or_imp, true_and]
        constructor
        · intro h
          exact ⟨this, h⟩
        · intro h
          exact h.2
    · simp [checkEntries, ho]

/-- C5: on the dependencies recorded by any sequence of `NoteInitDependency`
calls, `CheckInitConsistency` ends the run exactly when some recorded
dependency `o -> d` has `o` or `d` outside the to-do set; otherwise it returns
normally, with the maps and the to-do set as they were. -/
theorem CheckInitConsistency_aborts_iff (notes : List (Obj × Obj)) (to_do : List Obj) :
    ((∃ e, CheckInitConsistency (recordDeps notes) to_do = .error e) ↔
      ∃ q ∈ notes, q.1 ∉ to_do ∨ q.2 ∉ to_do) ∧
    ((∀ q ∈ notes, q.1 ∈ to_do ∧ q.2 ∈ to_do) →
      CheckInitConsistency (recordDeps notes) to_do = .ok (recordDeps notes, to_do)) := by
  obtain ⟨h1, h2, h3⟩ := depsRecord_recordDeps notes
  have hok : checkEntries to_do (recordDeps notes).obj_deps = .ok () ↔
      ∀ q ∈ notes, q.1 ∈ to_do ∧ q.2 ∈ to_do := by
    rw [checkEntries_ok_iff]
    constructor
    · intro h q hq
      obtain ⟨ds, hds, hqd⟩ := h3 q hq
      exact ⟨(h _ hds).1, (h _ hds).2 _ hqd⟩
    · intro h p hp
      refine ⟨?_, fun d hd => (h _ (h1 p hp d hd)).2⟩
      obtain ⟨d, hd⟩ := List.exists_mem_of_ne_nil _ (h2 p hp)
      exact (h _ (h1 p hp d hd)).1
  constructor
  · constructor
    · rintro ⟨e, he⟩
      by_contra hcon
      have hall : ∀ q ∈ notes, q.1 ∈ to_do ∧ q.2 ∈ to_do := by
        intro q hq
        by_contra hq2
        exact hcon ⟨q, hq, by tauto⟩
      simp [CheckInitConsistency, hok.mpr hall] at he
    · rintro ⟨q, hq, hbad⟩
      have hne : checkEntries to_do (recordDeps notes).obj_deps ≠ .ok () := by
        intro h
        have := hok.mp h q hq
        tauto
      cases hc : checkEntries to_do (recordDeps notes).obj_deps with
      | error e => exact ⟨e, by simp [CheckInitConsistency, hc]⟩
      | ok u => exact absurd hc hne
  · intro hall
    simp [CheckInitConsistency, hok.mpr hall]

theorem CheckInitConsistency_aborts_iff_witness :
    ((∃ e, CheckInitConsistency (recordDeps [(1, 2), (2, 3), (1, 2)]) [1, 2, 3] = .error e) ↔
      ∃ q ∈ [((1 : Obj), (2 : Obj)), (2, 3), (1, 2)], q.1 ∉ [1, 2, 3] ∨ q.2 ∉ [1, 2, 3]) ∧
    ((∀ q ∈ [((1 : Obj), (2 : Obj)), (2, 3), (1, 2)], q.1 ∈ [1, 2, 3] ∧ q.2 ∈ [1, 2, 3]) →
      CheckInitConsistency (recordDeps [(1, 2), (2, 3), (1, 2)]) [1, 2, 3] =
        .ok (recordDeps [(1, 2), (2, 3), (1, 2)], [1, 2, 3])) :=
  CheckInitConsistency_aborts_iff [(1, 2), (2, 3), (1, 2)] [1, 2, 3]

example : CheckInitConsistency (recordDeps [(1, 2), (2, 3), (1, 2)]) [1, 2]
    = .error (.depNotInToDo 2 3) := by decide

example : recordDeps [(1, 2), (2, 3), (1, 2), (1, 3)] = ⟨[], [(1, [2, 3]), (2, [3])]⟩ := by decide

theorem cohortOffset_zero {α : Type} (inits : List (List α)) : cohortOffset inits 0 = 0 := by
  simp [cohortOffset]

theorem cohortOffset_cons_succ {α : Type} (c : List α) (rest : List (List α)) (k : Nat) :
    cohortOffset (c :: rest) (k + 1) = c.length + cohortOffset rest k := by
  simp [cohortOffset]

theorem cohortOffsetsLoop_eq {α : Type} :
    ∀ (inits : List (List α)) (offs : List Nat) (n : Nat),
      cohortOffsetsLoop inits offs n =
        (offs ++ (List.range inits.length).map (fun k => n + cohortOffset inits k),
         n + (inits.map List.length).sum) := by
  intro inits
  induction inits with
  | nil => intro offs n; simp [cohortOffsetsLoop]
  | cons c rest ih =>
    intro offs n
    rw [cohortOffsetsLoop, ih]
    simp only [List.length_cons, List.range_succ_eq_map, List.map_cons, List.map_map,
      List.sum_cons, cohortOffset_zero, Nat.add_zero, List.append_assoc, List.singleton_append,
      Nat.add_assoc]
    congr 2

theorem cohortOffset_add_le {α : Type} :
    ∀ (inits : List (List α)) (k : Nat) (cohort : List α), inits[k]? = some cohort →
      cohortOffset inits k + cohort.length ≤ (inits.map List.length).sum := by
  intro inits
  induction inits with
  | nil => intro k cohort h; simp at h
  | cons c rest ih =>
    intro k cohort h
    cases k with
    | zero =>
      simp only [List.getElem?_cons_zero, Option.some.injEq] at h
      subst h
      simp [cohortOffset_zero]
    | succ k =>
      simp only [List.getElem?_cons_succ] at h
      have := ih k cohort h
      rw [cohortOffset_cons_succ]
      simp only [List.map_cons, List.sum_cons]
      omega

/-- Where element `j` of cohort `k` lies in the cohorts written one after the
other, and what lies before it. -/
theorem flatten_cohort_index {α : Type} :
    ∀ (inits : List (List α)) (k : Nat) (cohort : List α) (j : Nat) (i : α),
      inits[k]? = some cohort → cohort[j]? = some i →
      inits.flatten[cohortOffset inits k + j]? = some i ∧
      inits.flatten.take (cohortOffset inits k + j) = (inits.take k).flatten ++ cohort.take j := by
  intro inits
  induction inits with
  | nil => intro k cohort j i h; simp at h
  | cons c rest ih =>
    intro k cohort j i h hj
    cases k with
    | zero =>
      simp only [List.getElem?_cons_zero, Option.some.injEq] at h
      subst h
      have hlt : j < c.length := (List.getElem?_eq_some_iff.mp hj).1
      simp only [cohortOffset_zero, Nat.zero_add, List.flatten_cons, List.take_zero,
        List.flatten_nil, List.nil_append]
      refine ⟨?_, ?_⟩
      · rw [List.getElem?_append_left hlt]; exact hj
      · exact List.take_append_of_le_length (Nat.le_of_lt hlt)
    | succ k =>
      simp only [List.getElem?_cons_succ] at h
      obtain ⟨h1, h2⟩ := ih k cohort j i h hj
      rw [cohortOffset_cons_succ]
      simp only [List.flatten_cons, List.take_succ_cons, Nat.add_assoc]
      refine ⟨?_, ?_⟩
      · rw [List.getElem?_append_right (Nat.le_add_right _ _)]
        simpa using h1
      · rw [List.take_append, h2, List.append_assoc]

theorem preInitCohort_append {σ V : Type} :
    ∀ (l1 l2 : List (CPP_Global σ V)) (v : List V) (off : Nat) (s : σ),
      preInitCohort (l1 ++ l2) v off s =
        (preInitCohort l1 v off s).bind (fun r => preInitCohort l2 r.1 r.2.1 r.2.2) := by
  intro l1
  induction l1 with
  | nil => intro l2 v off s; simp [preInitCohort]
  | cons i rest ih =>
    intro l2 v off s
    simp only [List.cons_append, preInitCohort]
    split
    · exact ih _ _ _ _
    · rfl

theorem preInitLoop_eq_flatten {σ V : Type} :
    ∀ (inits : List (List (CPP_Global σ V))) (v : List V) (off : Nat) (s : σ),
      preInitLoop inits v off s = preInitCohort inits.flatten v off s := by
  intro inits
  induction inits with
  | nil => intro v off s; simp [preInitLoop, preInitCohort]
  | cons c rest ih =>
    intro v off s
    rw [List.flatten_cons, preInitCohort_append, preInitLoop]
    cases h : preInitCohort c v off s with
    | none => rfl
    | some r =>
      obtain ⟨v2, off2, s2⟩ := r
      simp [ih]

theorem afterPreInits_cons {σ V : Type} (i : CPP_Global σ V) (l : List (CPP_Global σ V))
    (s : σ) : afterPreInits (i :: l) s = afterPreInits l (i.PreInit s).2 := rfl

/-- The pre-initialization of a list of initializers from slot `off` on: slot
`off + n` receives what `PreInit` of the `n`-th initializer returns, and the
slots outside the range keep their value. -/
theorem preInitCohort_spec {σ V : Type} :
    ∀ (l : List (CPP_Global σ V)) (v : List V) (off : Nat) (s : σ),
      off + l.length ≤ v.length →
      ∃ v2, preInitCohort l v off s = some (v2, off + l.length, afterPreInits l s) ∧
        v2.length = v.length ∧
        (∀ n i, l[n]? = some i →
          v2[off + n]? = some (i.PreInit (afterPreInits (l.take n) s)).1) ∧
        (∀ p, p < off ∨ off + l.length ≤ p → v2[p]? = v[p]?) := by
  intro l
  induction l with
  | nil =>
    intro v off s _
    exact ⟨v, by simp [preInitCohort, afterPreInits], rfl, by simp, fun _ _ => rfl⟩
  | cons i rest ih =>
    intro v off s hlen
    simp only [List.length_cons] at hlen
    have hoff : off < v.length := by omega
    obtain ⟨v2, h1, h2, h3, h4⟩ := ih (v.set off (i.PreInit s).1) (off + 1) (i.PreInit s).2
      (by rw [List.length_set]; omega)
    refine ⟨v2, ?_, ?_, ?_, ?_⟩
    · simp only [preInitCohort, hoff, if_true, h1, afterPreInits_cons, List.length_cons]
      congr 3
      omega
    · rw [h2, List.length_set]
    · intro n x hx
      cases n with
      | zero =>
        simp only [List.getElem?_cons_zero, Option.some.injEq] at hx
        subst hx
        rw [Nat.add_zero, h4 off (Or.inl (Nat.lt_succ_self _)), List.getElem?_set_self hoff]
        rfl
      | succ n =>
        simp only [List.getElem?_cons_succ] at hx
        have := h3 n x hx
        rw [show off + (n + 1) = off + 1 + n by omega, this]
        rfl
    · intro p hp
      rw [h4 p (by simp only [List.length_cons] at hp; omega)]
      exact List.getElem?_set_ne (by simp only [List.length_cons] at hp; omega)

theorem length_resize {V : Type} [Inhabited V] (v : List V) (n : Nat) :
    (resize v n).length = n := by
  simp only [resize, List.length_append, List.length_take, List.length_replicate]
  omega

/-- What the constructor of a pool builds. -/
theorem CPP_Globals_new_eq {σ V : Type} [Inhabited V] (_global_vec : List V)
    (_inits : List (List (CPP_Global σ V))) (s : σ) :
    ∃ g s2, CPP_Globals.new _global_vec _inits s = some (g, s2) ∧
      g.inits = _inits ∧ s2 = afterPreInits _inits.flatten s ∧
      g.global_vec.length = (_inits.map List.length).sum ∧
      g.cohort_offsets.length = _inits.length ∧
      ∀ k cohort, _inits[k]? = some cohort →
        g.cohort_offsets[k]? = some ((_inits.take k).map List.length).sum ∧
        ∀ j i, cohort[j]? = some i →
          g.global_vec[((_inits.take k).map List.length).sum + j]? =
            some (i.PreInit (afterPreInits ((_inits.take k).flatten ++ cohort.take j) s)).1 := by
  obtain ⟨v2, h1, h2, h3, -⟩ := preInitCohort_spec _inits.flatten
    (resize _global_vec (_inits.map List.length).sum) 0 s
    (by rw [length_resize]; simp [List.length_flatten])
  refine ⟨{ global_vec := v2, inits := _inits,
            cohort_offsets := (List.range _inits.length).map (cohortOffset _inits) },
    afterPreInits _inits.flatten s, ?_, rfl, rfl, ?_, by simp, ?_⟩
  · simp only [CPP_Globals.new, CPP_Globals.DoPreInits, cohortOffsetsLoop_eq,
      preInitLoop_eq_flatten, h1, Nat.zero_add, List.nil_append]
  · rw [h2, length_resize]
  · intro k cohort hk
    have hklt : k < _inits.length := (List.getElem?_eq_some_iff.mp hk).1
    refine ⟨?_, ?_⟩
    · simp [List.getElem?_map, List.getElem?_range hklt, cohortOffset]
    · intro j i hj
      obtain ⟨e1, e2⟩ := flatten_cohort_index _inits k cohort j i hk hj
      have := h3 (cohortOffset _inits k + j) i e1
      rw [e2, Nat.zero_add] at this
      exact this

/-- C6: for every list of cohorts (and whatever the vector held before), the
constructor of a pool returns a pool whose vector has as many slots as there
are initializers in all cohorts, whose offset for cohort `k` is the sum of the
sizes of the cohorts before `k`, and whose slot `offset(k) + j` holds what
`PreInit` of element `j` of cohort `k` returned, the `PreInit` calls being made
cohort by cohort and element by element. -/
theorem CPP_Globals_new_layout {σ V : Type} [Inhabited V] (_global_vec : List V)
    (_inits : List (List (CPP_Global σ V))) (s : σ) :
    ∃ g s2, CPP_Globals.new _global_vec _inits s = some (g, s2) ∧
      g.inits = _inits ∧ s2 = afterPreInits _inits.flatten s ∧
      g.global_vec.length = (_inits.map List.length).sum ∧
      g.cohort_offsets.length = _inits.length ∧
      ∀ k cohort, _inits[k]? = some cohort →
        g.cohort_offsets[k]? = some ((_inits.take k).map List.length).sum ∧
        ∀ j i, cohort[j]? = some i →
          g.global_vec[((_inits.take k).map List.length).sum + j]? =
            some (i.PreInit (afterPreInits ((_inits.take k).flatten ++ cohort.take j) s)).1 :=
  CPP_Globals_new_eq _global_vec _inits s

theorem CPP_Globals_new_layout_witness :
    ∃ g s2, CPP_Globals.new [some 7] portInits () = some (g, s2) ∧
      g.inits = portInits ∧ s2 = afterPreInits portInits.flatten () ∧
      g.global_vec.length = (portInits.map List.length).sum ∧
      g.cohort_offsets.length = portInits.length ∧
      ∀ k cohort, portInits[k]? = some cohort →
        g.cohort_offsets[k]? = some ((portInits.take k).map List.length).sum ∧
        ∀ j i, cohort[j]? = some i →
          g.global_vec[((portInits.take k).map List.length).sum + j]? =
            some (i.PreInit (afterPreInits ((portInits.take k).flatten ++ cohort.take j) ())).1 :=
  CPP_Globals_new_layout [some 7] portInits ()

/-- The loop of `InitializeCohort` from slot `off` on: element `n` is generated
on the vector in which the slots of the elements before it hold their generated
values and all other slots their former values; the result lands in slot
`off + n`; the slots outside the range keep their value. -/
theorem generateLoop_spec {σ V : Type} :
    ∀ (l : List (CPP_Global σ V)) (v : List V) (off : Nat) (s : σ),
      off + l.length ≤ v.length →
      ∃ v2 s2, generateLoop l v off s = some (v2, s2) ∧
        v2.length = v.length ∧
        (∀ p, p < off ∨ off + l.length ≤ p → v2[p]? = v[p]?) ∧
        (∀ n i, l[n]? = some i →
          ∃ vn sn, generateLoop (l.take n) v off s = some (vn, sn) ∧
            v2[off + n]? = some (i.Generate vn (off + n) sn).1 ∧
            (∀ m, m < n → vn[off + m]? = v2[off + m]?) ∧
            (∀ p, p < off ∨ off + n ≤ p → vn[p]? = v[p]?)) := by
  intro l
  induction l with
  | nil =>
    intro v off s _
    exact ⟨v, s, by simp [generateLoop], rfl, fun _ _ => rfl, by simp⟩
  | cons i rest ih =>
    intro v off s hlen
    simp only [List.length_cons] at hlen
    have hoff : off < v.length := by omega
    obtain ⟨v2, s2, h1, h2, h3, h4⟩ := ih (v.set off (i.Generate v off s).1) (off + 1)
      (i.Generate v off s).2 (by rw [List.length_set]; omega)
    have hv2off : v2[off]? = some (i.Generate v off s).1 := by
      rw [h3 off (Or.inl (Nat.lt_succ_self _)), List.getElem?_set_self hoff]
    refine ⟨v2, s2, ?_, ?_, ?_, ?_⟩
    · simp only [generateLoop, hoff, if_true, h1]
    · rw [h2, List.length_set]
    · intro p hp
      simp only [List.length_cons] at hp
      rw [h3 p (by omega)]
      exact List.getElem?_set_ne (by omega)
    · intro n x hx
      cases n with
      | zero =>
        simp only [List.getElem?_cons_zero, Option.some.injEq] at hx
        subst hx
        refine ⟨v, s, by simp [generateLoop], ?_, ?_, fun _ _ => rfl⟩
        · rw [Nat.add_zero]; exact hv2off
        · intro m hm; omega
      | succ n =>
        simp only [List.getElem?_cons_succ] at hx
        obtain ⟨vn, sn, e1, e2, e3, e4⟩ := h4 n x hx
        refine ⟨vn, sn, ?_, ?_, ?_, ?_⟩
        · simp only [List.take_succ_cons, generateLoop, hoff, if_true, e1]
        · rw [show off + (n + 1) = off + 1 + n by omega]; exact e2
        · intro m hm
          cases m with
          | zero =>
            rw [Nat.add_zero, hv2off, e4 off (Or.inl (Nat.lt_succ_self _)),
              List.getElem?_set_self hoff]
          | succ m =>
            rw [show off + (m + 1) = off + 1 + m by omega]
            exact e3 m (by omega)
        · intro p hp
          rw [e4 p (by omega)]
          exact List.getElem?_set_ne (by omega)

/-- C7: on a pool laid out as the constructor leaves it, `InitializeCohort(k)`
returns, and it calls the generator of element `j` of cohort `k` with
`offset(k) + j` on the vector in which the slots of the elements `0..j-1` of
the cohort hold their generated values and every other slot its former value,
stores what the generator returns in slot `offset(k) + j`, and leaves every slot
outside `[offset(k), offset(k) + size(k))` as it was. -/
theorem InitializeCohort_spec {σ V : Type} (g : CPP_Globals σ V) (k : Nat) (s : σ)
    (cohort : List (CPP_Global σ V)) (hwf : g.WF) (hk : g.inits[k]? = some cohort) :
    ∃ g2 s2, g.InitializeCohort k s = some (g2, s2) ∧
      g2.inits = g.inits ∧ g2.cohort_offsets = g.cohort_offsets ∧ g2.WF ∧
      (∀ p, p < cohortOffset g.inits k ∨ cohortOffset g.inits k + cohort.length ≤ p →
        g2.global_vec[p]? = g.global_vec[p]?) ∧
      (∀ j i, cohort[j]? = some i →
        ∃ vj sj,
          generateLoop (cohort.take j) g.global_vec (cohortOffset g.inits k) s = some (vj, sj) ∧
          g2.global_vec[cohortOffset g.inits k + j]? =
            some (i.Generate vj (cohortOffset g.inits k + j) sj).1 ∧
          (∀ m, m < j → vj[cohortOffset g.inits k + m]? =
            g2.global_vec[cohortOffset g.inits k + m]?) ∧
          (∀ p, p < cohortOffset g.inits k ∨ cohortOffset g.inits k + j ≤ p →
            vj[p]? = g.global_vec[p]?)) := by
  obtain ⟨hoffs, hvlen⟩ := hwf
  have hklt : k < g.inits.length := (List.getElem?_eq_some_iff.mp hk).1
  have hoffk : g.cohort_offsets[k]? = some (cohortOffset g.inits k) := by
    rw [hoffs]; simp [List.getElem?_map, List.getElem?_range hklt]
  have hle : cohortOffset g.inits k + cohort.length ≤ g.global_vec.length := by
    rw [hvlen]; exact cohortOffset_add_le g.inits k cohort hk
  obtain ⟨v2, s2, h1, h2, h3, h4⟩ :=
    generateLoop_spec cohort g.global_vec (cohortOffset g.inits k) s hle
  refine ⟨{ g with global_vec := v2 }, s2, ?_, rfl, rfl, ⟨hoffs, ?_⟩, h3, h4⟩
  · simp [CPP_Globals.InitializeCohort, hoffk, hk, h1]
  · show v2.length = _
    rw [h2, hvlen]

theorem InitializeCohort_spec_witness :
    chainPool.WF ∧ chainPool.inits[1]? = some chainCohort ∧
    (chainPool.InitializeCohort 1 0).map (fun r => (r.1.global_vec, r.2)) =
      some ([some 7, some 17, some 37, some 67, some 9], 3) ∧
    ∃ g2 s2, chainPool.InitializeCohort 1 0 = some (g2, s2) ∧
      g2.inits = chainPool.inits ∧ g2.cohort_offsets = chainPool.cohort_offsets ∧ g2.WF ∧
      (∀ p, p < cohortOffset chainPool.inits 1 ∨
          cohortOffset chainPool.inits 1 + chainCohort.length ≤ p →
        g2.global_vec[p]? = chainPool.global_vec[p]?) ∧
      (∀ j i, chainCohort[j]? = some i →
        ∃ vj sj,
          generateLoop (chainCohort.take j) chainPool.global_vec
            (cohortOffset chainPool.inits 1) 0 = some (vj, sj) ∧
          g2.global_vec[cohortOffset chainPool.inits 1 + j]? =
            some (i.Generate vj (cohortOffset chainPool.inits 1 + j) sj).1 ∧
          (∀ m, m < j → vj[cohortOffset chainPool.inits 1 + m]? =
            g2.global_vec[cohortOffset chainPool.inits 1 + m]?) ∧
          (∀ p, p < cohortOffset chainPool.inits 1 ∨ cohortOffset chainPool.inits 1 + j ≤ p →
            vj[p]? = chainPool.global_vec[p]?)) :=
  ⟨by decide, rfl, by decide, InitializeCohort_spec chainPool 1 0 chainCohort (by decide) rfl⟩

/-- C8 as stated fails: the slot of a port constant is null after the
pre-initialization pass, whether the pool calls the `PreInit` of the
`CPP_PortConst` (which is the inherited one) or that of its copy. -/
theorem preInit_leaves_port_slot_null :
    (CPP_Globals.new [] [[CPP_PortConst 80]] ()).map (fun r => r.1.global_vec) = some [none] ∧
    (CPP_Globals.new [] [[(CPP_PortConst 80).copy]] ()).map (fun r => r.1.global_vec)
      = some [none] := by
  decide

/-- C8, as the code has it: an element whose `PreInit` is the one of the base
class `CPP_Global` has a null slot after the pre-initialization pass. -/
theorem preInit_base_leaves_null {σ V : Type} [Inhabited V] (_global_vec : List V)
    (_inits : List (List (CPP_Global σ V))) (s : σ) (k j : Nat)
    (cohort : List (CPP_Global σ V)) (i : CPP_Global σ V)
    (hk : _inits[k]? = some cohort) (hj : cohort[j]? = some i)
    (hpre : i.PreInit = (CPP_Global.base : CPP_Global σ V).PreInit) :
    ∃ g s2, CPP_Globals.new _global_vec _inits s = some (g, s2) ∧
      g.global_vec[cohortOffset _inits k + j]? = some default := by
  obtain ⟨g, s2, h1, -, -, -, -, h2⟩ := CPP_Globals_new_eq _global_vec _inits s
  refine ⟨g, s2, h1, ?_⟩
  have := (h2 k cohort hk).2 j i hj
  rw [hpre] at this
  exact this

theorem preInit_base_leaves_null_witness :
    portInits[2]? = some portCohort ∧ portCohort[0]? = some (CPP_PortConst 3).copy ∧
    ((CPP_PortConst 3).copy : CPP_Global Unit PortValPtr).PreInit
      = (CPP_Global.base : CPP_Global Unit PortValPtr).PreInit ∧
    ∃ g s2, CPP_Globals.new [some 7] portInits () = some (g, s2) ∧
      g.global_vec[cohortOffset portInits 2 + 0]? = some default :=
  ⟨rfl, rfl, rfl,
    preInit_base_leaves_null [some 7] portInits () 2 0 portCohort (CPP_PortConst 3).copy
      rfl rfl rfl⟩

/-- C9 on the code: a pool of one cohort with the type list whose only member
offset is its own slot 0. Were the functions of the `CPP_TypeList` called, slot
0 would hold after `InitializeCohort(0)` the list allocated by `PreInit`, with
itself as only member. The pool holds a copy of class `CPP_Global<TypePtr>`:
slot 0 is null after the constructor and after `InitializeCohort(0)`, and no
list is allocated. -/
theorem CPP_TypeList_in_pool_is_null :
    ((CPP_Globals.new [] [[CPP_TypeList [0]]] (some [])).bind
        (fun r => (r.1.InitializeCohort 0 r.2).map (fun r2 => (r2.1.global_vec, r2.2))))
      = some ([some 0], some [TypeObj.TypeList [some 0]]) ∧
    (CPP_Globals.new [] [[(CPP_TypeList [0]).copy]] (some [])).map (fun r => r.1.global_vec)
      = some [none] ∧
    ((CPP_Globals.new [] [[(CPP_TypeList [0]).copy]] (some [])).bind
        (fun r => (r.1.InitializeCohort 0 r.2).map (fun r2 => (r2.1.global_vec, r2.2))))
      = some ([none], some []) := by
  decide

theorem toInt32_of_small (x : Int) (h0 : 0 ≤ x) (h1 : x < 2147483648) : toInt32 x = x := by
  unfold toInt32
  omega

/-- For targets of less than `2^31 - 1` bytes the tag of an append is the size
plus one, so that two appends that find sizes `s1 < s2` get tags that are
positive and different; a build from scratch has the tag 0. -/
theorem unit_tag_of_small_size (env1 env2 : FileEnv) (s1 s2 : Nat)
    (ho1 : env1.target_opens = true) (ho2 : env2.target_opens = true)
    (hs1 : env1.st_size = some s1) (hs2 : env2.st_size = some s2) (hlt : s1 < s2)
    (hsmall : s2 < 2147483647) :
    (env1.addl_opens = true → CPPCompile_ctor false env1 = .ok 0) ∧
    CPPCompile_ctor true env1 = .ok ((s1 : Int) + 1) ∧
    CPPCompile_ctor true env2 = .ok ((s2 : Int) + 1) ∧
    (0 : Int) < (s1 : Int) + 1 ∧ (0 : Int) < (s2 : Int) + 1 ∧
    ((s1 : Int) + 1 ≠ (s2 : Int) + 1) := by
  refine ⟨?_, ?_, ?_, by omega, by omega, by omega⟩
  · intro ha
    simp [CPPCompile_ctor, ho1, ha, addl_tag_initial]
  · simp only [CPPCompile_ctor, ho1, hs1, if_true]
    rw [toInt32_of_small _ (by omega) (by omega)]
  · simp only [CPPCompile_ctor, ho2, hs2, if_true]
    rw [toInt32_of_small _ (by omega) (by omega)]

/-- C10 fails on the code: the size plus one is stored in an `int`. An append
to a target of `2^31 - 1` bytes gets a negative tag; an append to a target of
`2^32 - 1` bytes gets the tag 0, the tag of a build from scratch; and appends
to targets of 100 and of `2^32 + 100` bytes get the same tag, 101. -/
theorem unit_tag_wraps_in_int :
    CPPCompile_ctor true ⟨true, some 2147483647, true⟩ = .ok (-2147483648) ∧
    CPPCompile_ctor true ⟨true, some 4294967295, true⟩ = .ok 0 ∧
    CPPCompile_ctor false ⟨true, none, true⟩ = .ok 0 ∧
    CPPCompile_ctor true ⟨true, some 100, true⟩ = .ok 101 ∧
    CPPCompile_ctor true ⟨true, some 4294967396, true⟩ = .ok 101 := by
  decide

theorem mem_strSetInsert (x y : String) (s : List String) :
    y ∈ strSetInsert x s ↔ y = x ∨ y ∈ s := by
  unfold strSetInsert
  split
  · constructor
    · exact Or.inr
    · rintro (h | h)
      · subst h; assumption
      · exact h
  · simp [or_comm]

theorem strMapFind_strMapSet_self (m : List (String × String)) (k v : String) :
    strMapFind (strMapSet m k v) k = some v := by
  induction m with
  | nil => simp [strMapSet, strMapFind]
  | cons p rest ih =>
    obtain ⟨k2, v2⟩ := p
    by_cases hk : k2 = k
    · simp [strMapSet, strMapFind, hk]
    · simp [strMapSet, strMapFind, hk, ih]

theorem strMapFind_strMapSet_ne (m : List (String × String)) (k k3 v : String) (h : k3 ≠ k) :
    strMapFind (strMapSet m k v) k3 = strMapFind m k3 := by
  induction m with
  | nil => simp [strMapSet, strMapFind, Ne.symm h]
  | cons p rest ih =>
    obtain ⟨k2, v2⟩ := p
    have h2 : ¬ k = k3 := fun e => h e.symm
    by_cases hk : k2 = k
    · subst hk
      simp [strMapSet, strMapFind, h2]
    · by_cases hk3 : k2 = k3
      · subst hk3
        simp [strMapSet, strMapFind, hk]
      · simp [strMapSet, strMapFind, hk, hk3, ih]

/-- The value `IsCompilable` returns, and `reason` after the call. -/
theorem IsCompilable_eq (chk : FeatureCheck) (hm : CPPHashManager) (func : FuncInfo)
    (reason : Option (Option String)) :
    ((IsCompilable chk hm func reason).1 = true ↔
      chk.passes func.Profile = true ∧ func.ShouldSkip = false ∧
        hm.HasHash func.HashVal = false) ∧
    (chk.passes func.Profile = true →
      (IsCompilable chk hm func reason).2 = reason.map (fun _ => none)) := by
  unfold IsCompilable
  cases h1 : chk.passes func.Profile <;> cases h2 : func.ShouldSkip <;>
    cases h3 : hm.HasHash func.HashVal <;> simp

theorem triageStep_of_not_plain (ft : FuncTable) (chk : FeatureCheck) (hm : CPPHashManager)
    (rep : Bool) (uninit : Option String) (t : Triage) (func : FuncInfo)
    (h : ft.Flavor func.Func ≠ FunctionFlavor.FUNC_FLAVOR_FUNCTION) :
    triageStep ft chk hm rep uninit t func = t := by
  simp [triageStep, h]

theorem triageStep_compilable_funcs (ft : FuncTable) (chk : FeatureCheck) (hm : CPPHashManager)
    (rep : Bool) (uninit : Option String) (t : Triage) (func : FuncInfo) :
    (triageStep ft chk hm rep uninit t func).compilable_funcs =
      if ft.Flavor func.Func = FunctionFlavor.FUNC_FLAVOR_FUNCTION ∧
          (IsCompilable chk hm func (some uninit)).1 = true
      then strSetInsert func.BodyName t.compilable_funcs else t.compilable_funcs := by
  unfold triageStep
  by_cases hf : ft.Flavor func.Func = FunctionFlavor.FUNC_FLAVOR_FUNCTION
  · cases hc : (IsCompilable chk hm func (some uninit)).1 <;>
      cases hh : hm.HasHash func.HashVal <;> simp [hf, hc, hh]
  · simp [hf]

theorem triageStep_not_fully_compilable (ft : FuncTable) (chk : FeatureCheck)
    (hm : CPPHashManager) (rep : Bool) (uninit : Option String) (t : Triage) (func : FuncInfo) :
    (triageStep ft chk hm rep uninit t func).not_fully_compilable =
      if ft.Flavor func.Func = FunctionFlavor.FUNC_FLAVOR_FUNCTION ∧
          (IsCompilable chk hm func (some uninit)).1 = false
      then strSetInsert (ft.Name func.Func) t.not_fully_compilable
      else t.not_fully_compilable := by
  unfold triageStep
  by_cases hf : ft.Flavor func.Func = FunctionFlavor.FUNC_FLAVOR_FUNCTION
  · cases hc : (IsCompilable chk hm func (some uninit)).1 <;>
      cases hh : hm.HasHash func.HashVal <;> simp [hf, hc, hh]
  · simp [hf]

theorem triageStep_hashed_funcs (ft : FuncTable) (chk : FeatureCheck) (hm : CPPHashManager)
    (rep : Bool) (uninit : Option String) (t : Triage) (func : FuncInfo) :
    (triageStep ft chk hm rep uninit t func).hashed_funcs =
      if ft.Flavor func.Func = FunctionFlavor.FUNC_FLAVOR_FUNCTION ∧
          hm.HasHash func.HashVal = true
      then strMapSet t.hashed_funcs (ft.Name func.Func) (hm.FuncBodyName func.HashVal)
      else t.hashed_funcs := by
  unfold triageStep
  by_cases hf : ft.Flavor func.Func = FunctionFlavor.FUNC_FLAVOR_FUNCTION
  · cases hc : (IsCompilable chk hm func (some uninit)).1 <;>
      cases hh : hm.HasHash func.HashVal <;> simp [hf, hc, hh]
  · simp [hf]

theorem triageStep_diagnostics_of_passes (ft : FuncTable) (chk : FeatureCheck)
    (hm : CPPHashManager) (rep : Bool) (uninit : Option String) (t : Triage) (func : FuncInfo)
    (h : chk.passes func.Profile = true) :
    (triageStep ft chk hm rep uninit t func).diagnostics = t.diagnostics := by
  have h2 := (IsCompilable_eq chk hm func (some uninit)).2 h
  unfold triageStep
  by_cases hf : ft.Flavor func.Func = FunctionFlavor.FUNC_FLAVOR_FUNCTION
  · cases hc : (IsCompilable chk hm func (some uninit)).1 <;>
      cases hh : hm.HasHash func.HashVal <;> simp [hf, hc, hh, h2]
  · simp [hf]

/-- C11: `IsCompilable` returns true exactly when the profile passes
`is_CPP_compilable`, the function is not marked to be skipped and its hash is
not in the ledger; when the profile passes `is_CPP_compilable`, a non-null
`reason` points to a null string after the call, and the triage loop of
`Compile` writes no diagnostic for the function. -/
theorem IsCompilable_iff (ft : FuncTable) (chk : FeatureCheck) (hm : CPPHashManager)
    (func : FuncInfo) (reason : Option (Option String)) :
    ((IsCompilable chk hm func reason).1 = true ↔
      chk.passes func.Profile = true ∧ func.ShouldSkip = false ∧
        hm.HasHash func.HashVal = false) ∧
    (chk.passes func.Profile = true →
      (IsCompilable chk hm func reason).2 = reason.map (fun _ => none)) ∧
    (chk.passes func.Profile = true → ∀ (rep : Bool) (uninit : Option String) (t : Triage),
      (triageStep ft chk hm rep uninit t func).diagnostics = t.diagnostics) :=
  ⟨(IsCompilable_eq chk hm func reason).1, (IsCompilable_eq chk hm func reason).2,
    fun h rep uninit t => triageStep_diagnostics_of_passes ft chk hm rep uninit t func h⟩

theorem IsCompilable_iff_witness :
    ((IsCompilable fourCheck fourLedger ⟨2, 2, 20, false, "fn2"⟩ (some (some "junk"))).1 = true ↔
      fourCheck.passes 2 = true ∧ false = false ∧ fourLedger.HasHash 20 = false) ∧
    (fourCheck.passes 2 = true →
      (IsCompilable fourCheck fourLedger ⟨2, 2, 20, false, "fn2"⟩ (some (some "junk"))).2 =
        (some (some "junk")).map (fun _ => none)) ∧
    (fourCheck.passes 2 = true → ∀ (rep : Bool) (uninit : Option String) (t : Triage),
      (triageStep fourFuncTable fourCheck fourLedger rep uninit t
        ⟨2, 2, 20, false, "fn2"⟩).diagnostics = t.diagnostics) :=
  IsCompilable_iff fourFuncTable fourCheck fourLedger ⟨2, 2, 20, false, "fn2"⟩
    (some (some "junk"))

theorem triage_cons (ft : FuncTable) (chk : FeatureCheck) (hm : CPPHashManager)
    (rep : Bool) (uninit : Option String) (t : Triage) (func : FuncInfo)
    (rest : List FuncInfo) :
    triage ft chk hm rep uninit t (func :: rest) =
      triage ft chk hm rep uninit (triageStep ft chk hm rep uninit t func) rest := rfl

theorem mem_plainFuncs (ft : FuncTable) (funcs : List FuncInfo) (func : FuncInfo) :
    func ∈ plainFuncs ft funcs ↔
      func ∈ funcs ∧ ft.Flavor func.Func = FunctionFlavor.FUNC_FLAVOR_FUNCTION := by
  simp [plainFuncs]

/-- The names in `compilable_funcs` after the triage loop. -/
theorem triage_compilable_funcs (ft : FuncTable) (chk : FeatureCheck) (hm : CPPHashManager)
    (rep : Bool) (uninit : Option String) :
    ∀ (funcs : List FuncInfo) (t : Triage) (s : String),
      s ∈ (triage ft chk hm rep uninit t funcs).compilable_funcs ↔
        s ∈ t.compilable_funcs ∨ ∃ func ∈ plainFuncs ft funcs,
          (IsCompilable chk hm func (some uninit)).1 = true ∧ func.BodyName = s := by
  intro funcs
  induction funcs with
  | nil => intro t s; simp [triage, plainFuncs]
  | cons f rest ih =>
    intro t s
    rw [triage_cons, ih, triageStep_compilable_funcs]
    simp only [mem_plainFuncs, List.mem_cons]
    split
    next h =>
      rw [mem_strSetInsert]
      constructor
      · rintro ((h1 | h1) | ⟨g, hg, h2⟩)
        · exact Or.inr ⟨f, ⟨Or.inl rfl, h.1⟩, h.2, h1.symm⟩
        · exact Or.inl h1
        · exact Or.inr ⟨g, ⟨Or.inr hg.1, hg.2⟩, h2⟩
      · rintro (h1 | ⟨g, ⟨hg | hg, hgf⟩, h2⟩)
        · exact Or.inl (Or.inr h1)
        · subst hg; exact Or.inl (Or.inl h2.2.symm)
        · exact Or.inr ⟨g, ⟨hg, hgf⟩, h2⟩
    next h =>
      constructor
      · rintro (h1 | ⟨g, hg, h2⟩)
        · exact Or.inl h1
        · exact Or.inr ⟨g, ⟨Or.inr hg.1, hg.2⟩, h2⟩
      · rintro (h1 | ⟨g, ⟨hg | hg, hgf⟩, h2⟩)
        · exact Or.inl h1
        · subst hg; exact absurd ⟨hgf, h2.1⟩ h
        · exact Or.inr ⟨g, ⟨hg, hgf⟩, h2⟩

/-- The names in `not_fully_compilable` after the triage loop. -/
theorem triage_not_fully_compilable (ft : FuncTable) (chk : FeatureCheck)
    (hm : CPPHashManager) (rep : Bool) (uninit : Option String) :
    ∀ (funcs : List FuncInfo) (t : Triage) (s : String),
      s ∈ (triage ft chk hm rep uninit t funcs).not_fully_compilable ↔
        s ∈ t.not_fully_compilable ∨ ∃ func ∈ plainFuncs ft funcs,
          (IsCompilable chk hm func (some uninit)).1 = false ∧ ft.Name func.Func = s := by
  intro funcs
  induction funcs with
  | nil => intro t s; simp [triage, plainFuncs]
  | cons f rest ih =>
    intro t s
    rw [triage_cons, ih, triageStep_not_fully_compilable]
    simp only [mem_plainFuncs, List.mem_cons]
    split
    next h =>
      rw [mem_strSetInsert]
      constructor
      · rintro ((h1 | h1) | ⟨g, hg, h2⟩)
        · exact Or.inr ⟨f, ⟨Or.inl rfl, h.1⟩, h.2, h1.symm⟩
        · exact Or.inl h1
        · exact Or.inr ⟨g, ⟨Or.inr hg.1, hg.2⟩, h2⟩
      · rintro (h1 | ⟨g, ⟨hg | hg, hgf⟩, h2⟩)
        · exact Or.inl (Or.inr h1)
        · subst hg; exact Or.inl (Or.inl h2.2.symm)
        · exact Or.inr ⟨g, ⟨hg, hgf⟩, h2⟩
    next h =>
      constructor
      · rintro (h1 | ⟨g, hg, h2⟩)
        · exact Or.inl h1
        · exact Or.inr ⟨g, ⟨Or.inr hg.1, hg.2⟩, h2⟩
      · rintro (h1 | ⟨g, ⟨hg | hg, hgf⟩, h2⟩)
        · exact Or.inl h1
        · subst hg; exact absurd ⟨hgf, h2.1⟩ h
        · exact Or.inr ⟨g, ⟨hg, hgf⟩, h2⟩

/-- What `hashed_funcs` holds after the triage loop. -/
theorem triage_hashed_funcs (ft : FuncTable) (chk : FeatureCheck) (hm : CPPHashManager)
    (rep : Bool) (uninit : Option String) :
    ∀ (funcs : List FuncInfo) (t : Triage) (n b : String),
      strMapFind (triage ft chk hm rep uninit t funcs).hashed_funcs n = some b →
        strMapFind t.hashed_funcs n = some b ∨ ∃ func ∈ plainFuncs ft funcs,
          hm.HasHash func.HashVal = true ∧ ft.Name func.Func = n ∧
            b = hm.FuncBodyName func.HashVal := by
  intro funcs
  induction funcs with
  | nil => intro t n b h; exact Or.inl h
  | cons f rest ih =>
    intro t n b h
    rw [triage_cons] at h
    rcases ih _ n b h with h1 | ⟨g, hg, h2⟩
    · rw [triageStep_hashed_funcs] at h1
      split at h1
      next hc =>
        by_cases hn : n = ft.Name f.Func
        · subst hn
          rw [strMapFind_strMapSet_self] at h1
          refine Or.inr ⟨f, (mem_plainFuncs ft _ f).mpr ⟨List.mem_cons_self _ _, hc.1⟩,
            hc.2, rfl, ?_⟩
          exact (Option.some.inj h1).symm
        · rw [strMapFind_strMapSet_ne _ _ _ _ hn] at h1
          exact Or.inl h1
      next hc => exact Or.inl h1
    · have hg2 := (mem_plainFuncs ft rest g).mp hg
      exact Or.inr ⟨g, (mem_plainFuncs ft _ g).mpr ⟨List.mem_cons_of_mem _ hg2.1, hg2.2⟩, h2⟩

/-- The names that have an entry in `hashed_funcs` after the triage loop. -/
theorem triage_hashed_funcs_keys (ft : FuncTable) (chk : FeatureCheck) (hm : CPPHashManager)
    (rep : Bool) (uninit : Option String) :
    ∀ (funcs : List FuncInfo) (t : Triage) (n : String),
      (strMapFind (triage ft chk hm rep uninit t funcs).hashed_funcs n).isSome = true ↔
        (strMapFind t.hashed_funcs n).isSome = true ∨ ∃ func ∈ plainFuncs ft funcs,
          hm.HasHash func.HashVal = true ∧ ft.Name func.Func = n := by
  intro funcs
  induction funcs with
  | nil => intro t n; simp [triage, plainFuncs]
  | cons f rest ih =>
    intro t n
    rw [triage_cons, ih, triageStep_hashed_funcs]
    simp only [mem_plainFuncs, List.mem_cons]
    have key : (strMapFind (if ft.Flavor f.Func = FunctionFlavor.FUNC_FLAVOR_FUNCTION ∧
          hm.HasHash f.HashVal = true
        then strMapSet t.hashed_funcs (ft.Name f.Func) (hm.FuncBodyName f.HashVal)
        else t.hashed_funcs) n).isSome = true ↔
        (strMapFind t.hashed_funcs n).isSome = true ∨
          (ft.Flavor f.Func = FunctionFlavor.FUNC_FLAVOR_FUNCTION ∧
            hm.HasHash f.HashVal = true ∧ ft.Name f.Func = n) := by
      split
      next hc =>
        by_cases hn : n = ft.Name f.Func
        · subst hn
          simp [strMapFind_strMapSet_self, hc.1, hc.2]
        · rw [strMapFind_strMapSet_ne _ _ _ _ hn]
          constructor
          · exact Or.inl
          · rintro (h | h)
            · exact h
            · exact absurd h.2.2.symm hn
      next hc =>
        constructor
        · exact Or.inl
        · rintro (h | h)
          · exact h
          · exact absurd ⟨h.1, h.2.1⟩ hc
    rw [key]
    constructor
    · rintro ((h1 | h1) | ⟨g, hg, h2⟩)
      · exact Or.inl h1
      · exact Or.inr ⟨f, ⟨Or.inl rfl, h1.1⟩, h1.2⟩
      · exact Or.inr ⟨g, ⟨Or.inr hg.1, hg.2⟩, h2⟩
    · rintro (h1 | ⟨g, ⟨hg | hg, hgf⟩, h2⟩)
      · exact Or.inl (Or.inl h1)
      · subst hg; exact Or.inl (Or.inr ⟨hgf, h2⟩)
      · exact Or.inr ⟨g, ⟨hg, hgf⟩, h2⟩

/-- C12: in the triage loop of `Compile`, a plain function is put in exactly one
of `compilable_funcs` (its body name, when `IsCompilable` holds) and
`not_fully_compilable` (its name, otherwise); it gets an entry in
`hashed_funcs` exactly when its hash is in the ledger, the entry being the body
name the ledger holds for the hash, and it is then not added to
`compilable_funcs`; a function of another flavor changes nothing. After the
loop the three sets hold what they held before and what the plain functions
added, and nothing else. -/
theorem triage_sorts_plain_funcs (ft : FuncTable) (chk : FeatureCheck) (hm : CPPHashManager)
    (rep : Bool) (uninit : Option String) (funcs : List FuncInfo) (t0 : Triage) :
    (∀ (t : Triage) (func : FuncInfo),
      ft.Flavor func.Func = FunctionFlavor.FUNC_FLAVOR_FUNCTION →
      ((IsCompilable chk hm func (some uninit)).1 = true →
        (triageStep ft chk hm rep uninit t func).compilable_funcs =
          strSetInsert func.BodyName t.compilable_funcs ∧
        (triageStep ft chk hm rep uninit t func).not_fully_compilable =
          t.not_fully_compilable) ∧
      ((IsCompilable chk hm func (some uninit)).1 = false →
        (triageStep ft chk hm rep uninit t func).compilable_funcs = t.compilable_funcs ∧
        (triageStep ft chk hm rep uninit t func).not_fully_compilable =
          strSetInsert (ft.Name func.Func) t.not_fully_compilable) ∧
      (hm.HasHash func.HashVal = true →
        (triageStep ft chk hm rep uninit t func).hashed_funcs =
          strMapSet t.hashed_funcs (ft.Name func.Func) (hm.FuncBodyName func.HashVal) ∧
        (triageStep ft chk hm rep uninit t func).compilable_funcs = t.compilable_funcs) ∧
      (hm.HasHash func.HashVal = false →
        (triageStep ft chk hm rep uninit t func).hashed_funcs = t.hashed_funcs)) ∧
    (∀ (t : Triage) (func : FuncInfo),
      ft.Flavor func.Func ≠ FunctionFlavor.FUNC_FLAVOR_FUNCTION →
      triageStep ft chk hm rep uninit t func = t) ∧
    (∀ s, s ∈ (triage ft chk hm rep uninit t0 funcs).compilable_funcs ↔
      s ∈ t0.compilable_funcs ∨ ∃ func ∈ plainFuncs ft funcs,
        (IsCompilable chk hm func (some uninit)).1 = true ∧ func.BodyName = s) ∧
    (∀ s, s ∈ (triage ft chk hm rep uninit t0 funcs).not_fully_compilable ↔
      s ∈ t0.not_fully_compilable ∨ ∃ func ∈ plainFuncs ft funcs,
        (IsCompilable chk hm func (some uninit)).1 = false ∧ ft.Name func.Func = s) ∧
    (∀ n, (strMapFind (triage ft chk hm rep uninit t0 funcs).hashed_funcs n).isSome = true ↔
      (strMapFind t0.hashed_funcs n).isSome = true ∨ ∃ func ∈ plainFuncs ft funcs,
        hm.HasHash func.HashVal = true ∧ ft.Name func.Func = n) ∧
    (∀ n b, strMapFind (triage ft chk hm rep uninit t0 funcs).hashed_funcs n = some b →
      strMapFind t0.hashed_funcs n = some b ∨ ∃ func ∈ plainFuncs ft funcs,
        hm.HasHash func.HashVal = true ∧ ft.Name func.Func = n ∧
          b = hm.FuncBodyName func.HashVal) := by
  refine ⟨?_, fun t func h => triageStep_of_not_plain ft chk hm rep uninit t func h,
    triage_compilable_funcs ft chk hm rep uninit funcs t0,
    triage_not_fully_compilable ft chk hm rep uninit funcs t0,
    triage_hashed_funcs_keys ft chk hm rep uninit funcs t0,
    triage_hashed_funcs ft chk hm rep uninit funcs t0⟩
  intro t func hf
  refine ⟨?_, ?_, ?_, ?_⟩
  · intro hc
    rw [triageStep_compilable_funcs, triageStep_not_fully_compilable]
    simp [hf, hc]
  · intro hc
    rw [triageStep_compilable_funcs, triageStep_not_fully_compilable]
    simp [hf, hc]
  · intro hh
    have hc : (IsCompilable chk hm func (some uninit)).1 = false := by
      cases h : (IsCompilable chk hm func (some uninit)).1
      · rfl
      · have := ((IsCompilable_eq chk hm func (some uninit)).1.mp h).2.2
        rw [hh] at this
        cases this
    rw [triageStep_compilable_funcs, triageStep_hashed_funcs]
    simp [hf, hc, hh]
  · intro hh
    rw [triageStep_hashed_funcs]
    simp [hh]

theorem triage_sorts_plain_funcs_witness :
    (∀ (t : Triage) (func : FuncInfo),
      fourFuncTable.Flavor func.Func = FunctionFlavor.FUNC_FLAVOR_FUNCTION →
      ((IsCompilable fourCheck fourLedger func (some none)).1 = true →
        (triageStep fourFuncTable fourCheck fourLedger true none t func).compilable_funcs =
          strSetInsert func.BodyName t.compilable_funcs ∧
        (triageStep fourFuncTable fourCheck fourLedger true none t func).not_fully_compilable =
          t.not_fully_compilable) ∧
      ((IsCompilable fourCheck fourLedger func (some none)).1 = false →
        (triageStep fourFuncTable fourCheck fourLedger true none t func).compilable_funcs =
          t.compilable_funcs ∧
        (triageStep fourFuncTable fourCheck fourLedger true none t func).not_fully_compilable =
          strSetInsert (fourFuncTable.Name func.Func) t.not_fully_compilable) ∧
      (fourLedger.HasHash func.HashVal = true →
        (triageStep fourFuncTable fourCheck fourLedger true none t func).hashed_funcs =
          strMapSet t.hashed_funcs (fourFuncTable.Name func.Func)
            (fourLedger.FuncBodyName func.HashVal) ∧
        (triageStep fourFuncTable fourCheck fourLedger true none t func).compilable_funcs =
          t.compilable_funcs) ∧
      (fourLedger.HasHash func.HashVal = false →
        (triageStep fourFuncTable fourCheck fourLedger true none t func).hashed_funcs =
          t.hashed_funcs)) ∧
    (∀ (t : Triage) (func : FuncInfo),
      fourFuncTable.Flavor func.Func ≠ FunctionFlavor.FUNC_FLAVOR_FUNCTION →
      triageStep fourFuncTable fourCheck fourLedger true none t func = t) ∧
    (∀ s, s ∈ (triage fourFuncTable fourCheck fourLedger true none Triage.empty
        fourFuncs).compilable_funcs ↔
      s ∈ Triage.empty.compilable_funcs ∨ ∃ func ∈ plainFuncs fourFuncTable fourFuncs,
        (IsCompilable fourCheck fourLedger func (some none)).1 = true ∧ func.BodyName = s) ∧
    (∀ s, s ∈ (triage fourFuncTable fourCheck fourLedger true none Triage.empty
        fourFuncs).not_fully_compilable ↔
      s ∈ Triage.empty.not_fully_compilable ∨ ∃ func ∈ plainFuncs fourFuncTable fourFuncs,
        (IsCompilable fourCheck fourLedger func (some none)).1 = false ∧
          fourFuncTable.Name func.Func = s) ∧
    (∀ n, (strMapFind (triage fourFuncTable fourCheck fourLedger true none Triage.empty
        fourFuncs).hashed_funcs n).isSome = true ↔
      (strMapFind Triage.empty.hashed_funcs n).isSome = true ∨
        ∃ func ∈ plainFuncs fourFuncTable fourFuncs,
          fourLedger.HasHash func.HashVal = true ∧ fourFuncTable.Name func.Func = n) ∧
    (∀ n b, strMapFind (triage fourFuncTable fourCheck fourLedger true none Triage.empty
        fourFuncs).hashed_funcs n = some b →
      strMapFind Triage.empty.hashed_funcs n = some b ∨
        ∃ func ∈ plainFuncs fourFuncTable fourFuncs,
          fourLedger.HasHash func.HashVal = true ∧ fourFuncTable.Name func.Func = n ∧
            b = fourLedger.FuncBodyName func.HashVal) :=
  triage_sorts_plain_funcs fourFuncTable fourCheck fourLedger true none fourFuncs Triage.empty

example : triage fourFuncTable fourCheck fourLedger true none Triage.empty fourFuncs =
    ⟨["fn1"], ["fn2", "fn4"], [("fn2", "old_fn2")], [("fn4", "use of when")]⟩ := by
  decide

/-- C13 as stated fails: three compiled bodies with the hashes 1, 1 and 2 and
the events a, a and b get three records, two of them with the hash 1. -/
theorem registerCompiledBodies_three_records :
    (registerCompiledBodies threeBodies (fun _ => 0) (fun h _ => h) (fun _ => "") 0 false
      ["b1", "b2", "b3"]).1 =
      [⟨"b1_cl", "b1", 0, 1, ["a"]⟩, ⟨"b2_cl", "b2", 0, 1, ["a"]⟩, ⟨"b3_cl", "b3", 0, 2, ["b"]⟩] ∧
    (registerCompiledBodies threeBodies (fun _ => 0) (fun h _ => h) (fun _ => "") 0 false
      ["b1", "b2", "b3"]).1.length = 3 := by
  decide

theorem registerCompiledBodies_names (tb : BodyTables) (p_hash : String → Nat)
    (merge_p_hashes : Nat → Nat → Nat) ( scope_prefix : Int → String) (addl_tag : Int)
    (update : Bool) :
    ∀ compiled_funcs : List String,
      (registerCompiledBodies tb p_hash merge_p_hashes scope_prefix addl_tag update
        compiled_funcs).1.map RegisterRecord.name = compiled_funcs := by
  intro l
  induction l with
  | nil => rfl
  | cons f rest ih =>
    simp only [registerCompiledBodies, List.map_cons, ih]
    rfl

theorem registerCompiledBodies_mem (tb : BodyTables) (p_hash : String → Nat)
    (merge_p_hashes : Nat → Nat → Nat) ( scope_prefix : Int → String) (addl_tag : Int)
    (update : Bool) :
    ∀ (compiled_funcs : List String) (r : RegisterRecord),
      r ∈ (registerCompiledBodies tb p_hash merge_p_hashes scope_prefix addl_tag update
        compiled_funcs).1 →
      r = (RegisterCompiledBody tb p_hash merge_p_hashes scope_prefix addl_tag update
        r.name).1 := by
  intro l
  induction l with
  | nil => intro r h; simp [registerCompiledBodies] at h
  | cons f rest ih =>
    intro r h
    simp only [registerCompiledBodies, List.mem_cons] at h
    rcases h with h | h
    · rw [h]; rfl
    · exact ih r h

/-- C13, as the code has it: the registration loop emits one record per
compiled body, in the order in which `compiled_funcs` is gone through, under
the name of the body and with the hash and the events of that body; bodies with
the same hash and different names get a record each. -/
theorem registerCompiledBodies_one_per_body (tb : BodyTables) (p_hash : String → Nat)
    (merge_p_hashes : Nat → Nat → Nat) ( scope_prefix : Int → String) (addl_tag : Int)
    (update : Bool) (compiled_funcs : List String) :
    (registerCompiledBodies tb p_hash merge_p_hashes scope_prefix addl_tag update
      compiled_funcs).1.map RegisterRecord.name = compiled_funcs ∧
    (registerCompiledBodies tb p_hash merge_p_hashes scope_prefix addl_tag update
      compiled_funcs).1.length = compiled_funcs.length ∧
    ∀ r ∈ (registerCompiledBodies tb p_hash merge_p_hashes scope_prefix addl_tag update
        compiled_funcs).1,
      r.name ∈ compiled_funcs ∧
      r.hash = (if addl_tag > 0
        then merge_p_hashes ((tb.body_hashes r.name).getD 0) (p_hash (tb.cf_locs r.name))
        else (tb.body_hashes r.name).getD 0) ∧
      r.events = (tb.body_events r.name).getD [] ∧
      r.priority = tb.body_priorities r.name := by
  have hn := registerCompiledBodies_names tb p_hash merge_p_hashes scope_prefix addl_tag update
    compiled_funcs
  refine ⟨hn, ?_, ?_⟩
  · have := congrArg List.length hn
    simpa using this
  · intro r hr
    have hmem : r.name ∈ compiled_funcs := by
      rw [← hn]; exact List.mem_map_of_mem _ hr
    have heq := registerCompiledBodies_mem tb p_hash merge_p_hashes scope_prefix addl_tag
      update compiled_funcs r hr
    refine ⟨hmem, ?_, ?_, ?_⟩
    · rw [heq]; simp only [RegisterCompiledBody]
    · rw [heq]; simp only [RegisterCompiledBody]
      cases tb.body_events r.name <;> rfl
    · rw [heq]; simp only [RegisterCompiledBody]

theorem registerCompiledBodies_one_per_body_witness :
    (registerCompiledBodies threeBodies (fun _ => 7) (fun h l => h + l) (fun _ => "CPP_1::") 1
      true ["b1", "b2", "b3"]).1.map RegisterRecord.name = ["b1", "b2", "b3"] ∧
    (registerCompiledBodies threeBodies (fun _ => 7) (fun h l => h + l) (fun _ => "CPP_1::") 1
      true ["b1", "b2", "b3"]).1.length = ["b1", "b2", "b3"].length ∧
    ∀ r ∈ (registerCompiledBodies threeBodies (fun _ => 7) (fun h l => h + l)
        (fun _ => "CPP_1::") 1 true ["b1", "b2", "b3"]).1,
      r.name ∈ ["b1", "b2", "b3"] ∧
      r.hash = (if (1 : Int) > 0
        then (fun h l => h + l) ((threeBodies.body_hashes r.name).getD 0)
          ((fun _ => 7) (threeBodies.cf_locs r.name))
        else (threeBodies.body_hashes r.name).getD 0) ∧
      r.events = (threeBodies.body_events r.name).getD [] ∧
      r.priority = threeBodies.body_priorities r.name :=
  registerCompiledBodies_one_per_body threeBodies (fun _ => 7) (fun h l => h + l)
    (fun _ => "CPP_1::") 1 true ["b1", "b2", "b3"]

/-- C14: the hash of the record `RegisterCompiledBody` emits for `f` is
`body_hashes[f]` when the unit tag is 0 and
`merge_p_hashes(body_hashes[f], p_hash(cf_locs[f]))` when the tag is positive;
with `update` set, one record is written to the hash file, of kind "func", with
that hash and the name `scope_prefix(addl_tag)` followed by `f`, and without
`update` nothing is written. -/
theorem RegisterCompiledBody_hash (tb : BodyTables) (p_hash : String → Nat)
    (merge_p_hashes : Nat → Nat → Nat) ( scope_prefix : Int → String) (addl_tag : Int)
    (update : Bool) (f : String) :
    (addl_tag = 0 →
      (RegisterCompiledBody tb p_hash merge_p_hashes scope_prefix addl_tag update f).1.hash =
        (tb.body_hashes f).getD 0) ∧
    (0 < addl_tag →
      (RegisterCompiledBody tb p_hash merge_p_hashes scope_prefix addl_tag update f).1.hash =
        merge_p_hashes ((tb.body_hashes f).getD 0) (p_hash (tb.cf_locs f))) ∧
    (RegisterCompiledBody tb p_hash merge_p_hashes scope_prefix addl_tag update f).1.name = f ∧
    (update = true →
      (RegisterCompiledBody tb p_hash merge_p_hashes scope_prefix addl_tag update f).2 =
        [⟨"func", ( scope_prefix addl_tag) ++ f,
          (RegisterCompiledBody tb p_hash merge_p_hashes scope_prefix addl_tag update f).1.hash⟩]) ∧
    (update = false →
      (RegisterCompiledBody tb p_hash merge_p_hashes scope_prefix addl_tag update f).2 = []) := by
  refine ⟨?_, ?_, rfl, ?_, ?_⟩
  · intro h; simp [RegisterCompiledBody, h]
  · intro h; simp [RegisterCompiledBody, h]
  · intro h; simp [RegisterCompiledBody, h]
  · intro h; simp [RegisterCompiledBody, h]

theorem RegisterCompiledBody_hash_witness :
    ((1 : Int) = 0 →
      (RegisterCompiledBody threeBodies (fun _ => 7) (fun h l => h + l) (fun _ => "CPP_1::") 1
        true "b3").1.hash = (threeBodies.body_hashes "b3").getD 0) ∧
    (0 < (1 : Int) →
      (RegisterCompiledBody threeBodies (fun _ => 7) (fun h l => h + l) (fun _ => "CPP_1::") 1
        true "b3").1.hash =
        (fun h l => h + l) ((threeBodies.body_hashes "b3").getD 0)
          ((fun _ => 7) (threeBodies.cf_locs "b3"))) ∧
    (RegisterCompiledBody threeBodies (fun _ => 7) (fun h l => h + l) (fun _ => "CPP_1::") 1
      true "b3").1.name = "b3" ∧
    (true = true →
      (RegisterCompiledBody threeBodies (fun _ => 7) (fun h l => h + l) (fun _ => "CPP_1::") 1
        true "b3").2 =
        [⟨"func", ((fun _ => "CPP_1::") (1 : Int)) ++ "b3",
          (RegisterCompiledBody threeBodies (fun _ => 7) (fun h l => h + l)
            (fun _ => "CPP_1::") 1 true "b3").1.hash⟩]) ∧
    (true = false →
      (RegisterCompiledBody threeBodies (fun _ => 7) (fun h l => h + l) (fun _ => "CPP_1::") 1
        true "b3").2 = []) :=
  RegisterCompiledBody_hash threeBodies (fun _ => 7) (fun h l => h + l) (fun _ => "CPP_1::") 1
    true "b3"

example : RegisterCompiledBody threeBodies (fun _ => 7) (fun h l => h + l) (fun _ => "CPP_1::") 1
    true "b3" = (⟨"b3_cl", "b3", 0, 9, ["b"]⟩, [⟨"func", "CPP_1::b3", 9⟩]) := by
  decide

theorem FieldOffset_ge (rt : RecordType) (field : String) : -1 ≤ FieldOffset rt field := by
  induction rt with
  | nil => simp [FieldOffset]
  | cons d rest ih =>
    unfold FieldOffset
    split
    · omega
    · split <;> omega

theorem FieldOffset_lt_length (rt : RecordType) (field : String) :
    FieldOffset rt field < (rt.length : Int) := by
  induction rt with
  | nil => simp [FieldOffset]
  | cons d rest ih =>
    unfold FieldOffset
    simp only [List.length_cons, Nat.cast_add, Nat.cast_one]
    split
    · omega
    · split <;> omega

theorem FieldOffset_neg_iff (rt : RecordType) (field : String) :
    FieldOffset rt field < 0 ↔ ∀ d ∈ rt, d.id ≠ field := by
  induction rt with
  | nil => simp [FieldOffset]
  | cons d rest ih =>
    unfold FieldOffset
    by_cases hd : d.id = field
    · simp [hd]
    · simp only [hd, if_false, List.mem_cons, forall_eq_or_imp, ne_eq, not_false_eq_true,
        true_and]
      rw [← ih]
      have := FieldOffset_ge rest field
      split <;> omega

/-- Fields appended to a record type do not move a field that is found. -/
theorem FieldOffset_append (rt tl : RecordType) (field : String)
    (h : 0 ≤ FieldOffset rt field) : FieldOffset (rt ++ tl) field = FieldOffset rt field := by
  induction rt with
  | nil => simp [FieldOffset] at h
  | cons d rest ih =>
    simp only [List.cons_append]
    by_cases hd : d.id = field
    · simp [FieldOffset, hd]
    · simp only [FieldOffset, hd, if_false] at h ⊢
      by_cases hr : FieldOffset rest field < 0
      · simp [hr] at h
      · have hr2 : 0 ≤ FieldOffset rest field := by omega
        rw [ih hr2]

/-- A field appended to a record type that lacks it is found at the former
number of fields. -/
theorem FieldOffset_append_new (rt : RecordType) (td : TypeDecl)
    (h : FieldOffset rt td.id < 0) : FieldOffset (rt ++ [td]) td.id = (rt.length : Int) := by
  induction rt with
  | nil => simp [FieldOffset]
  | cons d rest ih =>
    have hall := (FieldOffset_neg_iff (d :: rest) td.id).mp h
    have hd : d.id ≠ td.id := hall d (List.mem_cons_self _ _)
    have hrest : FieldOffset rest td.id < 0 :=
      (FieldOffset_neg_iff rest td.id).mpr (fun x hx => hall x (List.mem_cons_of_mem _ hx))
    simp only [List.cons_append]
    unfold FieldOffset
    rw [ih hrest]
    simp only [hd, if_false, List.length_cons, Nat.cast_add, Nat.cast_one]
    split <;> omega

/-- The field found at an offset has the name that was looked up. -/
theorem FieldOffset_getElem (rt : RecordType) (field : String) (h : 0 ≤ FieldOffset rt field) :
    ∃ d, rt[(FieldOffset rt field).toNat]? = some d ∧ d.id = field := by
  induction rt with
  | nil => simp [FieldOffset] at h
  | cons d rest ih =>
    unfold FieldOffset at h ⊢
    by_cases hd : d.id = field
    · exact ⟨d, by simp [hd], hd⟩
    · simp only [hd, if_false] at h ⊢
      by_cases hr : FieldOffset rest field < 0
      · simp [hr] at h
      · have hr2 : 0 ≤ FieldOffset rest field := by omega
        obtain ⟨x, hx, hxid⟩ := ih hr2
        refine ⟨x, ?_, hxid⟩
        simp only [hr, if_false]
        have : (FieldOffset rest field + 1).toNat = (FieldOffset rest field).toNat + 1 := by
          omega
        rw [this, List.getElem?_cons_succ]
        exact hx

/-- What the resolution of a field returns and leaves, and that the offset it
returns is where the field is then found. -/
theorem resolveField_eq (rt : RecordType) (td : TypeDecl) :
    (0 ≤ FieldOffset rt td.id → resolveField rt td = (FieldOffset rt td.id, rt)) ∧
    (FieldOffset rt td.id < 0 → resolveField rt td = ((rt.length : Int), rt ++ [td])) ∧
    FieldOffset (resolveField rt td).2 td.id = (resolveField rt td).1 ∧
    0 ≤ (resolveField rt td).1 ∧
    (∃ tl, (resolveField rt td).2 = rt ++ tl) := by
  by_cases h : FieldOffset rt td.id < 0
  · have hr : resolveField rt td = ((rt.length : Int), rt ++ [td]) := by
      simp [resolveField, h, NumFields, AddFieldsDirectly]
    refine ⟨fun h2 => by omega, fun _ => hr, ?_, ?_, ⟨[td], by rw [hr]⟩⟩
    · rw [hr]; exact FieldOffset_append_new rt td h
    · rw [hr]; simp
  · have h2 : 0 ≤ FieldOffset rt td.id := by omega
    have hr : resolveField rt td = (FieldOffset rt td.id, rt) := by
      simp [resolveField, h]
    refine ⟨fun _ => hr, fun h3 => by omega, ?_, ?_, ⟨[], by rw [hr]; simp⟩⟩
    · rw [hr]
    · rw [hr]; exact h2

/-- C15: the resolution of a pair (record type, field name) returns the offset
of the field when the record type has it, and leaves the record type as it is;
otherwise it appends the field and returns the former number of fields; in both
cases the field of that name is at the returned offset afterwards, and a second
resolution of the same pair returns the same offset and leaves the field list
as the first resolution left it. -/
theorem resolveField_idempotent (rt : RecordType) (td : TypeDecl) :
    (0 ≤ FieldOffset rt td.id → resolveField rt td = (FieldOffset rt td.id, rt)) ∧
    (FieldOffset rt td.id < 0 → resolveField rt td = ((rt.length : Int), rt ++ [td])) ∧
    (∃ d, (resolveField rt td).2[(resolveField rt td).1.toNat]? = some d ∧ d.id = td.id) ∧
    resolveField (resolveField rt td).2 td = ((resolveField rt td).1, (resolveField rt td).2) := by
  obtain ⟨h1, h2, h3, h4, -⟩ := resolveField_eq rt td
  refine ⟨h1, h2, ?_, ?_⟩
  · have := FieldOffset_getElem (resolveField rt td).2 td.id (by rw [h3]; exact h4)
    rw [h3] at this
    exact this
  · have := (resolveField_eq (resolveField rt td).2 td).1 (by rw [h3]; exact h4)
    rw [this, h3]

theorem resolveField_idempotent_witness :
    (0 ≤ FieldOffset [⟨"a", 0⟩, ⟨"b", 0⟩] "c" →
      resolveField [⟨"a", 0⟩, ⟨"b", 0⟩] ⟨"c", 0⟩ =
        (FieldOffset [⟨"a", 0⟩, ⟨"b", 0⟩] "c", [⟨"a", 0⟩, ⟨"b", 0⟩])) ∧
    (FieldOffset [⟨"a", 0⟩, ⟨"b", 0⟩] "c" < 0 →
      resolveField [⟨"a", 0⟩, ⟨"b", 0⟩] ⟨"c", 0⟩ =
        ((([⟨"a", 0⟩, ⟨"b", 0⟩] : RecordType).length : Int),
          [⟨"a", 0⟩, ⟨"b", 0⟩] ++ [⟨"c", 0⟩])) ∧
    (∃ d, (resolveField [⟨"a", 0⟩, ⟨"b", 0⟩] ⟨"c", 0⟩).2[
        (resolveField [⟨"a", 0⟩, ⟨"b", 0⟩] ⟨"c", 0⟩).1.toNat]? = some d ∧ d.id = "c") ∧
    resolveField (resolveField [⟨"a", 0⟩, ⟨"b", 0⟩] ⟨"c", 0⟩).2 ⟨"c", 0⟩ =
      ((resolveField [⟨"a", 0⟩, ⟨"b", 0⟩] ⟨"c", 0⟩).1,
        (resolveField [⟨"a", 0⟩, ⟨"b", 0⟩] ⟨"c", 0⟩).2) :=
  resolveField_idempotent [⟨"a", 0⟩, ⟨"b", 0⟩] ⟨"c", 0⟩

theorem runFieldMappings_cons (m : Obj × TypeDecl) (rest : List (Obj × TypeDecl))
    (st : FieldState) :
    runFieldMappings (m :: rest) st = runFieldMappings rest (runFieldMapping st m) :=
  rfl

/-- The run of the emitted statements: the offsets pushed, one per mapping and
in order, each being where the field is found in the record type at the end;
the record types only grow at their end. -/
theorem runFieldMappings_eq :
    ∀ (field_decls : List (Obj × TypeDecl)) (st : FieldState),
      ∃ pushed : List Int,
        (runFieldMappings field_decls st).field_mapping = st.field_mapping ++ pushed ∧
        pushed.length = field_decls.length ∧
        (∀ rt, ∃ tl, (runFieldMappings field_decls st).types rt = st.types rt ++ tl) ∧
        ∀ (i : Nat) (m : Obj × TypeDecl), field_decls[i]? = some m →
          pushed[i]? = some
            (FieldOffset ((runFieldMappings field_decls st).types m.1) m.2.id) ∧
          0 ≤ FieldOffset ((runFieldMappings field_decls st).types m.1) m.2.id := by
  intro field_decls
  induction field_decls with
  | nil =>
    intro st
    exact ⟨[], by simp [runFieldMappings], rfl, fun rt => ⟨[], by simp [runFieldMappings]⟩,
      by simp⟩
  | cons m rest ih =>
    intro st
    obtain ⟨pushed, h1, h2, h3, h4⟩ := ih (runFieldMapping st m)
    obtain ⟨-, -, e3, e4, ⟨tl0, e5⟩⟩ := resolveField_eq (st.types m.1) m.2
    have hstep : ∀ rt, ∃ tl, (runFieldMapping st m).types rt = st.types rt ++ tl := by
      intro rt
      by_cases hrt : rt = m.1
      · subst hrt
        exact ⟨tl0, by simp [runFieldMapping, e5]⟩
      · exact ⟨[], by simp [runFieldMapping, Function.update_noteq hrt]⟩
    refine ⟨(resolveField (st.types m.1) m.2).1 :: pushed, ?_, ?_, ?_, ?_⟩
    · rw [runFieldMappings_cons, h1]
      simp [runFieldMapping]
    · simp [h2]
    · intro rt
      obtain ⟨tl1, ht1⟩ := hstep rt
      obtain ⟨tl2, ht2⟩ := h3 rt
      exact ⟨tl1 ++ tl2, by rw [runFieldMappings_cons, ht2, ht1, List.append_assoc]⟩
    · intro i x hx
      rw [runFieldMappings_cons]
      cases i with
      | zero =>
        simp only [List.getElem?_cons_zero, Option.some.injEq] at hx
        subst hx
        obtain ⟨tl2, ht2⟩ := h3 m.1
        have hm : (runFieldMapping st m).types m.1 = (resolveField (st.types m.1) m.2).2 := by
          simp [runFieldMapping]
        rw [ht2, hm, FieldOffset_append _ _ _ (by rw [e3]; exact e4), e3]
        exact ⟨by simp, e4⟩
      | succ i =>
        simp only [List.getElem?_cons_succ] at hx ⊢
        exact h4 i x hx

/-- What the statements emitted for the recorded field references say: had
they run in order, starting with an empty `field_mapping`, the table would have
one entry per reference, in the order of the references, its `i`-th entry the
offset at which the field name of the `i`-th reference is found in the record
type as it is at the end. -/
theorem runFieldMappings_table (field_decls : List (Obj × TypeDecl))
    (types : Obj → RecordType) :
    (runFieldMappings field_decls ⟨types, []⟩).field_mapping.length = field_decls.length ∧
    ∀ (i : Nat) (m : Obj × TypeDecl), field_decls[i]? = some m →
      (runFieldMappings field_decls ⟨types, []⟩).field_mapping[i]? = some
        (FieldOffset ((runFieldMappings field_decls ⟨types, []⟩).types m.1) m.2.id) ∧
      0 ≤ FieldOffset ((runFieldMappings field_decls ⟨types, []⟩).types m.1) m.2.id ∧
      ∃ d, ((runFieldMappings field_decls ⟨types, []⟩).types m.1)[
        (FieldOffset ((runFieldMappings field_decls ⟨types, []⟩).types m.1)
          m.2.id).toNat]? = some d ∧ d.id = m.2.id := by
  obtain ⟨pushed, h1, h2, -, h4⟩ := runFieldMappings_eq field_decls ⟨types, []⟩
  simp only [List.nil_append] at h1
  refine ⟨by rw [h1, h2], ?_⟩
  intro i m hm
  obtain ⟨e1, e2⟩ := h4 i m hm
  exact ⟨by rw [h1]; exact e1, e2, FieldOffset_getElem _ _ e2⟩

/-- C16 fails on the code: for one recorded field reference, the unit that
`GenEpilog` emits has the statements that resolve the reference, the push of
`fm_offset` to `field_mapping` among them, before `init__CPP` is opened and
outside every function, and `init__CPP` itself pushes to `field_mapping` once
for every element of `CPP__field_mappings__`, a table that none of the lines
declares or fills. -/
theorem GenEpilog_field_mapping_writers :
    GenEpilog oneFieldParts eventFuncTable id [] [] (fun _ => none) [] false 0 "CPP_0"
        "addl.cc" 0 =
      .ok ([Line.nl, Line.nl, Line.nl, Line.nl,
        Line.text "int fm_offset;",
        Line.text "fm_offset = rt0->AsRecordType()->FieldOffset(\"c\");",
        Line.text "if ( fm_offset < 0 )",
        Line.startBlock,
        Line.text "// field does not exist, create it",
        Line.text "fm_offset = rt0->AsRecordType()->NumFields();",
        Line.text "type_decl_list tl;",
        Line.text "tl.append(c);",
        Line.text "rt0->AsRecordType()->AddFieldsDirectly(tl);",
        Line.endBlock false,
        Line.text "field_mapping.push_back(fm_offset);",
        Line.nl, Line.nl] ++
       [Line.text "void init__CPP()",
        Line.startBlock,
        Line.text "for ( auto& b : CPP__bodies_to_register )",
        Line.text "\tb->Register();",
        Line.nl, Line.nl,
        Line.text "for ( auto& b : CPP__BiF_lookups__ )",
        Line.text "\tb.ResolveBiF();",
        Line.nl,
        Line.text "for ( auto& em : CPP__enum_mappings__ )",
        Line.text "\tenum_mapping.push_back(em.ComputeOffset());",
        Line.nl,
        Line.text "for ( auto& fm : CPP__field_mappings__ )",
        Line.text "\tfield_mapping.push_back(fm.ComputeOffset());",
        Line.endBlock true] ++
       [Line.nl,
        Line.text "int hook_in_init()",
        Line.startBlock,
        Line.text "CPP_init_funcs.push_back(init__CPP);",
        Line.text "return 0;",
        Line.endBlock false,
        Line.nl,
        Line.text "static int dummy = hook_in_init();\n",
        Line.closeNamespace "CPP_0",
        Line.includeAddl "addl.cc",
        Line.text "\x7d // zeek::detail"]) := by
  decide

theorem EnumLookup_neg_iff (et : EnumType) (name : String) :
    EnumLookup et name < 0 ↔ enumFind et name = none := by
  unfold EnumLookup
  cases h : enumFind et name with
  | none => simp
  | some v => simp

theorem EnumLookupValue_isSome_iff (et : EnumType) (value : Nat) :
    (EnumLookupValue et (value : Int)).isSome = true ↔ ∃ n, (n, value) ∈ et := by
  induction et with
  | nil => simp [EnumLookupValue]
  | cons p rest ih =>
    obtain ⟨n, v⟩ := p
    unfold EnumLookupValue
    by_cases hv : (v : Int) = (value : Int)
    · have hv2 : v = value := by exact_mod_cast hv
      subst hv2
      simp
    · have hv2 : v ≠ value := fun e => hv (by rw [e])
      simp only [hv, if_false, ih, List.mem_cons, Prod.mk.injEq]
      constructor
      · rintro ⟨m, hm⟩
        exact ⟨m, Or.inr hm⟩
      · rintro ⟨m, hm | hm⟩
        · exact absurd hm.2.symm hv2
        · exact ⟨m, hm⟩

theorem AddNameInternal_of_absent (et : EnumType) (name : String) (value : Int)
    (h : enumFind et name = none) :
    AddNameInternal et name value = et ++ [(name, value.toNat)] := by
  induction et with
  | nil => rfl
  | cons p rest ih =>
    obtain ⟨n, v⟩ := p
    unfold enumFind at h
    by_cases hn : n = name
    · simp [hn] at h
    · simp only [hn, if_false] at h
      simp [AddNameInternal, hn, ih h]

/-- C17: the resolution of a pair (enum type, member name) returns the value of
the name when the type has it, and leaves the type as it is; when the type does
not have the name, the candidate value is the number of names, the resolution
ends in the internal error exactly when some member has that value already, and
otherwise it adds the name with that value and returns it. -/
theorem resolveEnum_spec (et : EnumType) (e_name : String) :
    (∀ v, enumFind et e_name = some v → resolveEnum et e_name = .ok ((v : Int), et)) ∧
    (enumFind et e_name = none →
      ((∃ n, (n, et.length) ∈ et) ↔ resolveEnum et e_name = .error .internalError) ∧
      ((¬ ∃ n, (n, et.length) ∈ et) →
        resolveEnum et e_name = .ok ((et.length : Int), et ++ [(e_name, et.length)]))) := by
  constructor
  · intro v hv
    have hnot : ¬ EnumLookup et e_name < 0 := by
      rw [EnumLookup_neg_iff, hv]; simp
    have hval : EnumLookup et e_name = (v : Int) := by simp [EnumLookup, hv]
    simp [resolveEnum, hnot, hval]
  · intro hnone
    have hneg : EnumLookup et e_name < 0 := (EnumLookup_neg_iff et e_name).mpr hnone
    have hiff := EnumLookupValue_isSome_iff et et.length
    constructor
    · constructor
      · intro h
        simp [resolveEnum, hneg, hiff.mpr h]
      · intro h
        by_contra hcon
        have hno : (EnumLookupValue et (et.length : Int)).isSome = false := by
          cases hc : (EnumLookupValue et (et.length : Int)).isSome
          · rfl
          · exact absurd (hiff.mp hc) hcon
        simp [resolveEnum, hneg, hno] at h
    · intro hcon
      have hno : (EnumLookupValue et (et.length : Int)).isSome = false := by
        cases hc : (EnumLookupValue et (et.length : Int)).isSome
        · rfl
        · exact absurd (hiff.mp hc) hcon
      simp [resolveEnum, hneg, hno, AddNameInternal_of_absent et e_name _ hnone]

theorem resolveEnum_spec_witness :
    (∀ v, enumFind [("A", 0), ("B", 1)] "C" = some v →
      resolveEnum [("A", 0), ("B", 1)] "C" = .ok ((v : Int), [("A", 0), ("B", 1)])) ∧
    (enumFind [("A", 0), ("B", 1)] "C" = none →
      ((∃ n, (n, ([("A", 0), ("B", 1)] : EnumType).length) ∈ ([("A", 0), ("B", 1)] : EnumType)) ↔
        resolveEnum [("A", 0), ("B", 1)] "C" = .error .internalError) ∧
      ((¬ ∃ n, (n, ([("A", 0), ("B", 1)] : EnumType).length) ∈
          ([("A", 0), ("B", 1)] : EnumType)) →
        resolveEnum [("A", 0), ("B", 1)] "C" =
          .ok ((([("A", 0), ("B", 1)] : EnumType).length : Int),
            [("A", 0), ("B", 1)] ++ [("C", ([("A", 0), ("B", 1)] : EnumType).length)]))) :=
  resolveEnum_spec [("A", 0), ("B", 1)] "C"

theorem keys_mapModify {β : Type} (m : List (Obj × β)) (o : Obj) (dflt : β) (f : β → β) :
    (mapModify m o dflt f).map Prod.fst =
      if o ∈ m.map Prod.fst then m.map Prod.fst else m.map Prod.fst ++ [o] := by
  induction m with
  | nil => simp [mapModify]
  | cons p rest ih =>
    obtain ⟨k, v⟩ := p
    by_cases hk : k = o
    · subst hk
      simp [mapModify]
    · have hk2 : ¬ o = k := fun e => hk e.symm
      simp only [mapModify, if_neg hk, List.map_cons, ih, List.mem_cons, hk2, false_or]
      split <;> simp

theorem mapFind_of_mem_nodup {β : Type} (m : List (Obj × β)) (k : Obj) (v : β)
    (hnd : (m.map Prod.fst).Nodup) (h : (k, v) ∈ m) : mapFind m k = some v := by
  induction m with
  | nil => cases h
  | cons p rest ih =>
    obtain ⟨k2, v2⟩ := p
    simp only [List.map_cons, List.nodup_cons] at hnd
    rcases List.mem_cons.mp h with h | h
    · injection h with h1 h2
      subst h1; subst h2
      simp [mapFind]
    · have hne : k2 ≠ k := by
        intro e
        apply hnd.1
        rw [e]
        exact List.mem_map_of_mem Prod.fst h
      simp [mapFind, hne, ih hnd.2 h]

/-- The first loop of `GenStandaloneActivation` as a fold over the activated
bodies, when every compiled body has a hash. -/
theorem collectFuncBodies_eq (ft : FuncTable) (canonicalize : String → String)
    (compiled_funcs : List String) (body_hashes : String → Option Nat)
    (hknown : ∀ b ∈ compiled_funcs, (body_hashes b).isSome = true) :
    ∀ (funcs : List FuncInfo) (fb : List (Obj × List Nat)),
      collectFuncBodies ft canonicalize compiled_funcs body_hashes funcs fb =
        .ok ((funcs.filter (isActivated ft canonicalize compiled_funcs)).foldl
          (addFuncBody canonicalize body_hashes) fb) := by
  intro funcs
  induction funcs with
  | nil => intro fb; rfl
  | cons func rest ih =>
    intro fb
    unfold collectFuncBodies
    by_cases hf : ft.Flavor func.Func = FunctionFlavor.FUNC_FLAVOR_FUNCTION
    · simp [hf, ih, isActivated, List.filter_cons]
    · by_cases hc : bodyZfName canonicalize func ∈ compiled_funcs
      · simp [hf, hc, ASSERT, hknown _ hc, ih, isActivated, List.filter_cons, addFuncBody]
      · simp [hf, hc, ih, isActivated, List.filter_cons]

theorem foldl_addFuncBody_keys (canonicalize : String → String)
    (body_hashes : String → Option Nat) :
    ∀ (xs : List FuncInfo) (fb : List (Obj × List Nat)), (fb.map Prod.fst).Nodup →
      ((xs.foldl (addFuncBody canonicalize body_hashes) fb).map Prod.fst).Nodup ∧
      ∀ f, f ∈ (xs.foldl (addFuncBody canonicalize body_hashes) fb).map Prod.fst ↔
        f ∈ fb.map Prod.fst ∨ ∃ x ∈ xs, x.Func = f := by
  intro xs
  induction xs with
  | nil => intro fb hnd; simpa using hnd
  | cons x rest ih =>
    intro fb hnd
    have hkeys := keys_mapModify fb x.Func []
      (fun v => v ++ [(body_hashes (bodyZfName canonicalize x)).getD 0])
    have hnd2 : ((addFuncBody canonicalize body_hashes fb x).map Prod.fst).Nodup := by
      unfold addFuncBody
      rw [hkeys]
      split
      · exact hnd
      next hx =>
        exact List.Nodup.append hnd (List.nodup_singleton _)
          (by simpa [List.disjoint_singleton] using hx)
    obtain ⟨h1, h2⟩ := ih (addFuncBody canonicalize body_hashes fb x) hnd2
    refine ⟨h1, fun f => ?_⟩
    rw [List.foldl_cons, h2]
    have hmem : f ∈ (addFuncBody canonicalize body_hashes fb x).map Prod.fst ↔
        f ∈ fb.map Prod.fst ∨ x.Func = f := by
      unfold addFuncBody
      rw [hkeys]
      split
      next hx =>
        constructor
        · exact Or.inl
        · rintro (h | h)
          · exact h
          · rw [← h]; exact hx
      next hx =>
        simp only [List.mem_append, List.mem_singleton]
        constructor
        · rintro (h | h)
          · exact Or.inl h
          · exact Or.inr h.symm
        · rintro (h | h)
          · exact Or.inl h
          · exact Or.inr h.symm
    rw [hmem]
    simp only [List.mem_cons, exists_eq_or_imp]
    tauto

theorem foldl_addFuncBody_find (canonicalize : String → String)
    (body_hashes : String → Option Nat) (f : Obj) :
    ∀ (xs : List FuncInfo) (fb : List (Obj × List Nat)),
      mapFind (xs.foldl (addFuncBody canonicalize body_hashes) fb) f =
        match mapFind fb f with
        | some v => some (v ++ (xs.filter (fun x => decide (x.Func = f))).map
            (fun x => (body_hashes (bodyZfName canonicalize x)).getD 0))
        | none =>
          if xs.any (fun x => decide (x.Func = f)) then
            some ((xs.filter (fun x => decide (x.Func = f))).map
              (fun x => (body_hashes (bodyZfName canonicalize x)).getD 0))
          else none := by
  intro xs
  induction xs with
  | nil =>
    intro fb
    show mapFind fb f = _
    cases h : mapFind fb f <;> simp
  | cons x rest ih =>
    intro fb
    rw [List.foldl_cons, ih]
    by_cases hx : x.Func = f
    · subst hx
      simp only [addFuncBody, mapFind_mapModify_self]
      cases h : mapFind fb x.Func <;> simp [List.filter_cons]
    · have hne : f ≠ x.Func := fun e => hx e.symm
      simp only [addFuncBody, mapFind_mapModify_ne _ _ _ _ _ hne]
      cases h : mapFind fb f <;> simp [List.filter_cons, hx]

/-- C18: when every compiled body has a hash, `GenStandaloneActivation` emits,
between the opening of `standalone_init__CPP` and its end, one activation call
per function, for the functions that are events or hooks and have a compiled
body and for no other; the call of a function lists the hashes of its compiled
bodies, one per body, in the order of the bodies in `funcs`. -/
theorem GenStandaloneActivation_calls (ft : FuncTable) (canonicalize : String → String)
    (funcs : List FuncInfo) (compiled_funcs : List String) (body_hashes : String → Option Nat)
    (hknown : ∀ b ∈ compiled_funcs, (body_hashes b).isSome = true) :
    ∃ func_bodies : List (Obj × List Nat),
      GenStandaloneActivation ft canonicalize funcs compiled_funcs body_hashes =
        .ok ([standaloneInitDef, Line.startBlock] ++
          func_bodies.map (fun fb => Line.activate (ft.Name fb.1) (ft.TypeName fb.1) fb.2) ++
          [Line.endBlock false, Line.nl]) ∧
      (func_bodies.map Prod.fst).Nodup ∧
      (∀ f, f ∈ func_bodies.map Prod.fst ↔
        ∃ func ∈ funcs, func.Func = f ∧
          ft.Flavor f ≠ FunctionFlavor.FUNC_FLAVOR_FUNCTION ∧
          bodyZfName canonicalize func ∈ compiled_funcs) ∧
      (∀ fb ∈ func_bodies,
        fb.2 = activatedHashes ft canonicalize compiled_funcs body_hashes fb.1 funcs) := by
  have hcol := collectFuncBodies_eq ft canonicalize compiled_funcs body_hashes hknown funcs []
  obtain ⟨hnd, hmem⟩ := foldl_addFuncBody_keys canonicalize body_hashes
    (funcs.filter (isActivated ft canonicalize compiled_funcs)) [] (by simp)
  refine ⟨_, ?_, hnd, ?_, ?_⟩
  · simp only [GenStandaloneActivation, hcol]
  · intro f
    rw [hmem]
    simp only [List.map_nil, List.not_mem_nil, false_or, List.mem_filter, isActivated,
      Bool.and_eq_true, decide_eq_true_eq]
    constructor
    · rintro ⟨x, ⟨hx, hfl, hc⟩, rfl⟩
      exact ⟨x, hx, rfl, hfl, hc⟩
    · rintro ⟨x, hx, rfl, hfl, hc⟩
      exact ⟨x, ⟨hx, hfl, hc⟩, rfl⟩
  · rintro ⟨f, hs⟩ hfb
    have h1 := mapFind_of_mem_nodup _ f hs hnd hfb
    rw [foldl_addFuncBody_find] at h1
    simp only [mapFind] at h1
    split at h1
    · simp only [Option.some.injEq] at h1
      rw [← h1, List.filter_filter]
      rfl
    · cases h1

theorem GenStandaloneActivation_calls_witness :
    (∀ b ∈ ["ev3_a_zf", "fn1_zf", "ev3_b_zf"], (eventHashes b).isSome = true) ∧
    ∃ func_bodies : List (Obj × List Nat),
      GenStandaloneActivation eventFuncTable id eventFuncs ["ev3_a_zf", "fn1_zf", "ev3_b_zf"]
          eventHashes =
        .ok ([standaloneInitDef, Line.startBlock] ++
          func_bodies.map (fun fb =>
            Line.activate (eventFuncTable.Name fb.1) (eventFuncTable.TypeName fb.1) fb.2) ++
          [Line.endBlock false, Line.nl]) ∧
      (func_bodies.map Prod.fst).Nodup ∧
      (∀ f, f ∈ func_bodies.map Prod.fst ↔
        ∃ func ∈ eventFuncs, func.Func = f ∧
          eventFuncTable.Flavor f ≠ FunctionFlavor.FUNC_FLAVOR_FUNCTION ∧
          bodyZfName id func ∈ ["ev3_a_zf", "fn1_zf", "ev3_b_zf"]) ∧
      (∀ fb ∈ func_bodies,
        fb.2 = activatedHashes eventFuncTable id ["ev3_a_zf", "fn1_zf", "ev3_b_zf"] eventHashes
          fb.1 eventFuncs) :=
  ⟨by decide,
    GenStandaloneActivation_calls eventFuncTable id eventFuncs ["ev3_a_zf", "fn1_zf", "ev3_b_zf"]
      eventHashes (by decide)⟩

theorem foldl_max_cohort :
    ∀ (l : List CPP_GlobalsInfo) (init : Int),
      init ≤ l.foldl (fun max_cohort gi => max max_cohort gi.MaxCohort) init ∧
      ∀ gi ∈ l, gi.MaxCohort ≤ l.foldl (fun max_cohort gi => max max_cohort gi.MaxCohort) init := by
  intro l
  induction l with
  | nil => intro init; simp
  | cons g rest ih =>
    intro init
    obtain ⟨h1, h2⟩ := ih (max init g.MaxCohort)
    simp only [List.foldl_cons, List.mem_cons, forall_eq_or_imp]
    exact ⟨le_trans (le_max_left _ _) h1, le_trans (le_max_right _ _) h1, h2⟩

theorem mem_cohortCallsOf (infos : List CPP_GlobalsInfo) (c : Nat) (l : Line) :
    l ∈ cohortCallsOf infos c ↔
      ∃ gi ∈ infos, 0 < gi.CohortSize c ∧ l = Line.cohortCall gi.InitializersName c := by
  simp only [cohortCallsOf, List.mem_map, List.mem_filter, decide_eq_true_eq, gt_iff_lt]
  constructor
  · rintro ⟨gi, ⟨h1, h2⟩, rfl⟩
    exact ⟨gi, h1, h2, rfl⟩
  · rintro ⟨gi, h1, h2, rfl⟩
    exact ⟨gi, ⟨h1, h2⟩, rfl⟩

theorem cohort_of_mem_cohortCallsOf (infos : List CPP_GlobalsInfo) (c : Nat) (l : Line)
    (h : l ∈ cohortCallsOf infos c) : l.cohort = some c := by
  obtain ⟨gi, -, -, rfl⟩ := (mem_cohortCallsOf infos c l).mp h
  rfl

theorem nodup_cohortCallsOf (infos : List CPP_GlobalsInfo) (c : Nat)
    (hnames : (infos.map CPP_GlobalsInfo.InitializersName).Nodup) :
    (cohortCallsOf infos c).Nodup := by
  have hsub : ((infos.filter (fun gi => decide (gi.CohortSize c > 0))).map
      CPP_GlobalsInfo.InitializersName).Nodup :=
    List.Nodup.sublist ((List.filter_sublist infos).map _) hnames
  have heq : cohortCallsOf infos c =
      ((infos.filter (fun gi => decide (gi.CohortSize c > 0))).map
        CPP_GlobalsInfo.InitializersName).map (fun n => Line.cohortCall n c) := by
    simp [cohortCallsOf, List.map_map, Function.comp_def]
  rw [heq]
  apply List.Nodup.map _ hsub
  intro a b hab
  injection hab

theorem nodup_cohortCalls (infos : List CPP_GlobalsInfo)
    (hnames : (infos.map CPP_GlobalsInfo.InitializersName).Nodup) :
    (cohortCalls infos).Nodup := by
  unfold cohortCalls
  rw [List.nodup_flatMap]
  refine ⟨fun c _ => nodup_cohortCallsOf infos c hnames, ?_⟩
  apply (List.pairwise_lt_range _).imp
  intro c1 c2 hlt
  show List.Disjoint (cohortCallsOf infos c1) (cohortCallsOf infos c2)
  intro l h1 h2
  have e1 := cohort_of_mem_cohortCallsOf infos c1 l h1
  have e2 := cohort_of_mem_cohortCallsOf infos c2 l h2
  rw [e1] at e2
  have : c1 = c2 := Option.some.inj e2
  omega

theorem pairwise_cohortCalls (infos : List CPP_GlobalsInfo) :
    (cohortCalls infos).Pairwise
      (fun a b => ∀ k1 k2, a.cohort = some k1 → b.cohort = some k2 → k1 ≤ k2) := by
  unfold cohortCalls
  rw [List.pairwise_flatMap]
  constructor
  · intro c _
    apply List.pairwise_of_forall_mem_list
    intro a ha b hb k1 k2 h1 h2
    rw [cohort_of_mem_cohortCallsOf infos c a ha] at h1
    rw [cohort_of_mem_cohortCallsOf infos c b hb] at h2
    have e1 : c = k1 := Option.some.inj h1
    have e2 : c = k2 := Option.some.inj h2
    omega
  · apply (List.pairwise_lt_range _).imp
    intro c1 c2 hlt a ha b hb k1 k2 h1 h2
    rw [cohort_of_mem_cohortCallsOf infos c1 a ha] at h1
    rw [cohort_of_mem_cohortCallsOf infos c2 b hb] at h2
    have e1 : c1 = k1 := Option.some.inj h1
    have e2 : c2 = k2 := Option.some.inj h2
    omega

theorem mem_cohortCalls (infos : List CPP_GlobalsInfo) (l : Line) :
    l ∈ cohortCalls infos ↔
      ∃ c, c ≤ (maxCohort infos).toNat ∧ l ∈ cohortCallsOf infos c := by
  simp only [cohortCalls, List.mem_flatMap, List.mem_range, Nat.lt_succ_iff]

/-- When every compiled body has a hash (which only the standalone mode looks
at), `GenEpilog` returns, and what it has emitted holds the block of
`init__CPP`: the opening, the registration loop, the calls of `cohortCalls`,
then lines that are neither a call of `InitializeCohort` nor the start or the
end of a block, then the end of the block. -/
theorem GenEpilog_hook (parts : EpilogParts) (ft : FuncTable)
    (canonicalize : String → String) (funcs : List FuncInfo) (compiled_funcs : List String)
    (body_hashes : String → Option Nat) (infos : List CPP_GlobalsInfo) (standalone : Bool)
    (addl_tag : Int) (scope addl_name : String) (total_hash : Nat)
    (hknown : standalone = true → ∀ b ∈ compiled_funcs, (body_hashes b).isSome = true) :
    ∃ pre rest post,
      GenEpilog parts ft canonicalize funcs compiled_funcs body_hashes infos standalone
        addl_tag scope addl_name total_hash =
        .ok (pre ++ [Line.text "void init__CPP()", Line.startBlock,
          Line.text "for ( auto& b : CPP__bodies_to_register )", Line.text "\tb->Register();",
          Line.nl] ++ cohortCalls infos ++ rest ++ [Line.endBlock true] ++ post) ∧
      ∀ l ∈ rest, l.cohort = none ∧ l ≠ Line.startBlock ∧ ∀ b, l ≠ Line.endBlock b := by
  have hact : ∃ activation, (if standalone
      then GenStandaloneActivation ft canonicalize funcs compiled_funcs body_hashes
      else .ok []) = .ok activation := by
    cases standalone with
    | false => exact ⟨[], rfl⟩
    | true =>
      have hcol := collectFuncBodies_eq ft canonicalize compiled_funcs body_hashes
        (hknown rfl) funcs []
      refine ⟨[standaloneInitDef, Line.startBlock] ++
        ((funcs.filter (isActivated ft canonicalize compiled_funcs)).foldl
          (addFuncBody canonicalize body_hashes) []).map
          (fun fb => Line.activate (ft.Name fb.1) (ft.TypeName fb.1) fb.2) ++
        [Line.endBlock false, Line.nl], ?_⟩
      simp only [GenStandaloneActivation, hcol, if_true]
  obtain ⟨activation, hact⟩ := hact
  refine ⟨epilogBeforeInit parts standalone activation,
    [Line.nl, Line.text "for ( auto& b : CPP__BiF_lookups__ )", Line.text "\tb.ResolveBiF();",
     Line.nl, Line.text "for ( auto& em : CPP__enum_mappings__ )",
     Line.text "\tenum_mapping.push_back(em.ComputeOffset());",
     Line.nl, Line.text "for ( auto& fm : CPP__field_mappings__ )",
     Line.text "\tfield_mapping.push_back(fm.ComputeOffset());"] ++
    (if standalone then [Line.text "standalone_init__CPP();"] else []),
    GenInitHook standalone activation total_hash ++ [Line.closeNamespace scope] ++
    (if addl_tag > 0 then []
      else [Line.includeAddl addl_name, Line.text "\x7d // zeek::detail"]), ?_, ?_⟩
  · unfold GenEpilog
    rw [hact]
    simp only [epilogAfterCohorts, List.append_assoc]
  · cases standalone <;> decide

/-- C19: when the pools have different names, no pool has a non-empty cohort
above its `MaxCohort()`, and every compiled body has a hash (which only the
standalone mode looks at), `GenEpilog` returns and the unit it has emitted holds
the block of `init__CPP`, in which the calls of `InitializeCohort` are those of
the loop over the cohorts: exactly one call for every pool and every non-empty
cohort of the pool, and no other; and of two calls the one with the smaller
cohort comes first, whatever the pools. -/
theorem cohortCalls_once_in_order (parts : EpilogParts) (ft : FuncTable)
    (canonicalize : String → String) (funcs : List FuncInfo) (compiled_funcs : List String)
    (body_hashes : String → Option Nat) (infos : List CPP_GlobalsInfo) (standalone : Bool)
    (addl_tag : Int) (scope addl_name : String) (total_hash : Nat)
    (hnames : (infos.map CPP_GlobalsInfo.InitializersName).Nodup)
    (hmax : ∀ gi ∈ infos, ∀ c, 0 < gi.CohortSize c → (c : Int) ≤ gi.MaxCohort)
    (hknown : standalone = true → ∀ b ∈ compiled_funcs, (body_hashes b).isSome = true) :
    (∃ pre rest post,
      GenEpilog parts ft canonicalize funcs compiled_funcs body_hashes infos standalone
        addl_tag scope addl_name total_hash =
        .ok (pre ++ [Line.text "void init__CPP()", Line.startBlock,
          Line.text "for ( auto& b : CPP__bodies_to_register )", Line.text "\tb->Register();",
          Line.nl] ++ cohortCalls infos ++ rest ++ [Line.endBlock true] ++ post) ∧
      ∀ l ∈ rest, l.cohort = none ∧ l ≠ Line.startBlock ∧ ∀ b, l ≠ Line.endBlock b) ∧
    (∀ gi ∈ infos, ∀ c, 0 < gi.CohortSize c →
      (cohortCalls infos).count (Line.cohortCall gi.InitializersName c) = 1) ∧
    (∀ l ∈ cohortCalls infos, ∃ gi ∈ infos, ∃ c,
      l = Line.cohortCall gi.InitializersName c ∧ 0 < gi.CohortSize c) ∧
    (∀ (i j : Nat) (n1 n2 : String) (c1 c2 : Nat),
      (cohortCalls infos)[i]? = some (Line.cohortCall n1 c1) →
      (cohortCalls infos)[j]? = some (Line.cohortCall n2 c2) → c1 < c2 → i < j) := by
  refine ⟨GenEpilog_hook parts ft canonicalize funcs compiled_funcs
    body_hashes infos standalone addl_tag scope addl_name total_hash hknown, ?_, ?_, ?_⟩
  · intro gi hgi c hc
    apply List.count_eq_one_of_mem (nodup_cohortCalls infos hnames)
    rw [mem_cohortCalls]
    refine ⟨c, ?_, (mem_cohortCallsOf infos c _).mpr ⟨gi, hgi, hc, rfl⟩⟩
    have h1 := hmax gi hgi c hc
    have h2 := (foldl_max_cohort infos 0).2 gi hgi
    have h3 : (c : Int) ≤ maxCohort infos := le_trans h1 h2
    omega
  · intro l hl
    obtain ⟨c, -, hc⟩ := (mem_cohortCalls infos l).mp hl
    obtain ⟨gi, hgi, hsz, rfl⟩ := (mem_cohortCallsOf infos c l).mp hc
    exact ⟨gi, hgi, c, rfl, hsz⟩
  · intro i j n1 n2 c1 c2 hi hj hlt
    have hpw := pairwise_cohortCalls infos
    obtain ⟨hi1, hi2⟩ := List.getElem?_eq_some_iff.mp hi
    obtain ⟨hj1, hj2⟩ := List.getElem?_eq_some_iff.mp hj
    by_contra hcon
    rcases Nat.lt_or_eq_of_le (Nat.le_of_not_lt hcon) with hji | hji
    · have := List.pairwise_iff_getElem.mp hpw j i hj1 hi1 hji c2 c1
        (by rw [hj2]; rfl) (by rw [hi2]; rfl)
      omega
    · subst hji
      rw [hi] at hj
      injection hj with hj
      injection hj with _ hc
      omega

theorem twoPools_maxCohort :
    ∀ gi ∈ twoPools, ∀ c, 0 < gi.CohortSize c → (c : Int) ≤ gi.MaxCohort := by
  intro gi hgi c hc
  simp only [twoPools, List.mem_cons, List.mem_singleton, List.not_mem_nil, or_false] at hgi
  rcases hgi with rfl | rfl
  · simp only at hc ⊢
    split at hc
    next h => subst h; decide
    next h =>
      split at hc
      next h2 => subst h2; decide
      next h2 => omega
  · simp only at hc ⊢
    split at hc
    next h => subst h; decide
    next h => omega

theorem cohortCalls_once_in_order_witness :
    (twoPools.map CPP_GlobalsInfo.InitializersName).Nodup ∧
    (∀ gi ∈ twoPools, ∀ c, 0 < gi.CohortSize c → (c : Int) ≤ gi.MaxCohort) ∧
    (true = true → ∀ b ∈ ["ev3_a_zf"], (eventHashes b).isSome = true) ∧
    cohortCalls twoPools =
      [Line.cohortCall "A" 0, Line.cohortCall "B" 1, Line.cohortCall "A" 2] ∧
    (∃ pre rest post,
      GenEpilog noParts eventFuncTable id eventFuncs ["ev3_a_zf"] eventHashes twoPools
        true 0 "CPP_0" "addl.cc" 0 =
        .ok (pre ++ [Line.text "void init__CPP()", Line.startBlock,
          Line.text "for ( auto& b : CPP__bodies_to_register )", Line.text "\tb->Register();",
          Line.nl] ++ cohortCalls twoPools ++ rest ++ [Line.endBlock true] ++ post) ∧
      ∀ l ∈ rest, l.cohort = none ∧ l ≠ Line.startBlock ∧ ∀ b, l ≠ Line.endBlock b) ∧
    (∀ gi ∈ twoPools, ∀ c, 0 < gi.CohortSize c →
      (cohortCalls twoPools).count (Line.cohortCall gi.InitializersName c) = 1) ∧
    (∀ l ∈ cohortCalls twoPools, ∃ gi ∈ twoPools, ∃ c,
      l = Line.cohortCall gi.InitializersName c ∧ 0 < gi.CohortSize c) ∧
    (∀ (i j : Nat) (n1 n2 : String) (c1 c2 : Nat),
      (cohortCalls twoPools)[i]? = some (Line.cohortCall n1 c1) →
      (cohortCalls twoPools)[j]? = some (Line.cohortCall n2 c2) → c1 < c2 → i < j) :=
  ⟨by decide, twoPools_maxCohort, by decide, by decide,
    cohortCalls_once_in_order noParts eventFuncTable id eventFuncs ["ev3_a_zf"] eventHashes
      twoPools true 0 "CPP_0" "addl.cc" 0 (by decide) twoPools_maxCohort (by decide)⟩

theorem standaloneInitDef_mem_activation (ft : FuncTable) (canonicalize : String → String)
    (funcs : List FuncInfo) (compiled_funcs : List String) (body_hashes : String → Option Nat)
    (activation : List Line)
    (h : GenStandaloneActivation ft canonicalize funcs compiled_funcs body_hashes =
      .ok activation) : 1 ≤ activation.count standaloneInitDef := by
  unfold GenStandaloneActivation at h
  split at h
  · cases h
  · injection h with h
    rw [← h]
    simp [List.count_cons]

/-- In standalone mode the unit `GenEpilog` emits defines
`standalone_init__CPP` at least twice, whatever the emitters that are not
modelled write: once where `GenEpilog` calls `GenStandaloneActivation`, and once
where `GenInitHook` does. -/
theorem GenEpilog_standalone_defs (parts : EpilogParts) (ft : FuncTable)
    (canonicalize : String → String) (funcs : List FuncInfo) (compiled_funcs : List String)
    (body_hashes : String → Option Nat) (infos : List CPP_GlobalsInfo)
    (addl_tag : Int) (scope addl_name : String) (total_hash : Nat) (lines : List Line)
    (h : GenEpilog parts ft canonicalize funcs compiled_funcs body_hashes infos true
      addl_tag scope addl_name total_hash = .ok lines) :
    2 ≤ lines.count standaloneInitDef := by
  unfold GenEpilog at h
  split at h
  · cases h
  next activation hact =>
    simp only [if_true] at hact
    have h1 := standaloneInitDef_mem_activation ft canonicalize funcs compiled_funcs
      body_hashes activation hact
    injection h with h
    rw [← h]
    simp only [epilogBeforeInit, epilogAfterCohorts, GenInitHook, if_true, List.count_append]
    omega

/-- C20 on the code: for a standalone compilation of two events and a plain
function the unit that `GenEpilog` emits holds two definitions of
`standalone_init__CPP`; for the same compilation without the standalone mode it
holds none. -/
theorem GenEpilog_defines_standalone_init_twice :
    (GenEpilog noParts eventFuncTable id eventFuncs ["ev3_a_zf", "fn1_zf", "ev3_b_zf"]
        eventHashes twoPools true 0 "CPP_0" "addl.cc" 0).toOption.map
      (fun lines => lines.count standaloneInitDef) = some 2 ∧
    (GenEpilog noParts eventFuncTable id eventFuncs ["ev3_a_zf", "fn1_zf", "ev3_b_zf"]
        eventHashes twoPools false 0 "CPP_0" "addl.cc" 0).toOption.map
      (fun lines => lines.count standaloneInitDef) = some 0 := by
  decide

example : GenStandaloneActivation eventFuncTable id eventFuncs ["ev3_a_zf", "fn1_zf", "ev3_b_zf"]
    eventHashes =
    .ok [standaloneInitDef, .startBlock, .activate "ev3" "event_type" [11, 14],
      .endBlock false, .nl] := by
  decide

example : cohortCalls twoPools = [.cohortCall "A" 0, .cohortCall "B" 1, .cohortCall "A" 2] := by
  decide

example : (runFieldMappings fourFieldDecls twoRecordTypes).field_mapping = [1, 2, 0, 2] := by
  decide

example : (runFieldMappings fourFieldDecls twoRecordTypes).types 0 =
    [⟨"a", 0⟩, ⟨"b", 0⟩, ⟨"c", 0⟩] := by
  decide

example : resolveEnum [("A", 0), ("B", 1)] "C" = .ok (2, [("A", 0), ("B", 1), ("C", 2)]) := by
  decide

example : resolveEnum [("A", 0), ("B", 2)] "C" = .error .internalError := by
  decide

example : ((CPP_Globals.new [some 7] portInits ()).map
    (fun r => (r.1.global_vec, r.1.cohort_offsets))) = some ([none, none, none], [0, 2, 2]) := by
  decide

example : ((CPP_Globals.new [] [[CPP_TypeList [0]]] (some [])).map
    (fun r => (r.1.global_vec, r.2))) = some ([some 0], some [TypeObj.TypeList []]) := by
  decide

/-! ### The lambdas of the unit -/

theorem declaredLambdas_declareLambdas (lambda_names : List String) (ls : List LambdaExpr) :
    declaredLambdas (declareLambdas lambda_names ls) = keptLambdas lambda_names ls := by
  induction ls generalizing lambda_names with
  | nil => rfl
  | cons l rest ih =>
    unfold declareLambdas keptLambdas
    split
    · exact ih lambda_names
    · simp only [declaredLambdas, List.filterMap_cons]
      exact congrArg (List.cons l) (ih _)

theorem compiledLambdas_compileLambdas (lambda_names : List String) (ls : List LambdaExpr) :
    compiledLambdas (compileLambdas lambda_names ls) = keptLambdas lambda_names ls := by
  induction ls generalizing lambda_names with
  | nil => rfl
  | cons l rest ih =>
    unfold compileLambdas keptLambdas
    split
    · exact ih lambda_names
    · simp only [compiledLambdas, List.filterMap_cons]
      exact congrArg (List.cons l) (ih _)

theorem compiledLambdas_declareLambdas (lambda_names : List String) (ls : List LambdaExpr) :
    compiledLambdas (declareLambdas lambda_names ls) = [] := by
  induction ls generalizing lambda_names with
  | nil => rfl
  | cons l rest ih =>
    unfold declareLambdas
    split
    · exact ih lambda_names
    · simp only [compiledLambdas, List.filterMap_cons]
      exact ih _

theorem declaredLambdas_compileLambdas (lambda_names : List String) (ls : List LambdaExpr) :
    declaredLambdas (compileLambdas lambda_names ls) = [] := by
  induction ls generalizing lambda_names with
  | nil => rfl
  | cons l rest ih =>
    unfold compileLambdas
    split
    · exact ih lambda_names
    · simp only [declaredLambdas, List.filterMap_cons]
      exact ih _

theorem declaredLambdas_CompileFunc (funcs : List Obj) :
    declaredLambdas (funcs.map CompileCall.CompileFunc) = [] := by
  induction funcs with
  | nil => rfl
  | cons f rest ih =>
    simp only [declaredLambdas, List.map_cons, List.filterMap_cons]
    exact ih

theorem compiledLambdas_CompileFunc (funcs : List Obj) :
    compiledLambdas (funcs.map CompileCall.CompileFunc) = [] := by
  induction funcs with
  | nil => rfl
  | cons f rest ih =>
    simp only [compiledLambdas, List.map_cons, List.filterMap_cons]
    exact ih

theorem declaredLambdas_append (a b : List CompileCall) :
    declaredLambdas (a ++ b) = declaredLambdas a ++ declaredLambdas b := by
  simp only [declaredLambdas, List.filterMap_append]

theorem compiledLambdas_append (a b : List CompileCall) :
    compiledLambdas (a ++ b) = compiledLambdas a ++ compiledLambdas b := by
  simp only [compiledLambdas, List.filterMap_append]

/-- The lambdas declared by `Compile` are those its loop does not skip, started
on the empty set of names. -/
theorem declaredLambdas_passes (funcs : List Obj) (ls : List LambdaExpr) :
    declaredLambdas (compileLambdaPasses funcs ls) = keptLambdas [] ls := by
  unfold compileLambdaPasses
  rw [declaredLambdas_append, declaredLambdas_append, declaredLambdas_append,
    declaredLambdas_declareLambdas, declaredLambdas_compileLambdas,
    declaredLambdas_CompileFunc]
  simp [declaredLambdas]

/-- The lambdas compiled by `Compile` are those its loop does not skip, started
on the empty set of names. -/
theorem compiledLambdas_passes (funcs : List Obj) (ls : List LambdaExpr) :
    compiledLambdas (compileLambdaPasses funcs ls) = keptLambdas [] ls := by
  unfold compileLambdaPasses
  rw [compiledLambdas_append, compiledLambdas_append, compiledLambdas_append,
    compiledLambdas_declareLambdas, compiledLambdas_compileLambdas,
    compiledLambdas_CompileFunc]
  simp [compiledLambdas]

theorem keptLambdas_sublist (lambda_names : List String) (ls : List LambdaExpr) :
    (keptLambdas lambda_names ls).Sublist ls := by
  induction ls generalizing lambda_names with
  | nil => exact List.Sublist.refl _
  | cons l rest ih =>
    unfold keptLambdas
    split
    · exact List.Sublist.cons _ (ih _)
    · exact List.Sublist.cons₂ _ (ih _)

theorem mem_names_keptLambdas (lambda_names : List String) (ls : List LambdaExpr) (n : String) :
    n ∈ (keptLambdas lambda_names ls).map LambdaExpr.Name ↔
      n ∈ ls.map LambdaExpr.Name ∧ n ∉ lambda_names := by
  induction ls generalizing lambda_names with
  | nil => simp [keptLambdas]
  | cons l rest ih =>
    unfold keptLambdas
    split
    next h =>
      have hin : l.Name ∈ lambda_names := List.count_pos_iff.mp h
      rw [ih, List.map_cons, List.mem_cons]
      constructor
      · rintro ⟨h1, h2⟩
        exact ⟨Or.inr h1, h2⟩
      · rintro ⟨h1 | h1, h2⟩
        · exact absurd (h1 ▸ hin) h2
        · exact ⟨h1, h2⟩
    next h =>
      have hin : l.Name ∉ lambda_names := fun hm => h (List.count_pos_iff.mpr hm)
      rw [List.map_cons, List.mem_cons, ih, mem_strSetInsert, List.map_cons, List.mem_cons]
      constructor
      · rintro (h1 | ⟨h1, h2⟩)
        · exact ⟨Or.inl h1, h1 ▸ hin⟩
        · exact ⟨Or.inr h1, fun hm => h2 (Or.inr hm)⟩
      · rintro ⟨h1 | h1, h2⟩
        · exact Or.inl h1
        · by_cases hn : n = l.Name
          · exact Or.inl hn
          · exact Or.inr ⟨h1, fun hm => hm.elim hn h2⟩

theorem nodup_names_keptLambdas (lambda_names : List String) (ls : List LambdaExpr) :
    ((keptLambdas lambda_names ls).map LambdaExpr.Name).Nodup := by
  induction ls generalizing lambda_names with
  | nil => simp [keptLambdas]
  | cons l rest ih =>
    unfold keptLambdas
    split
    · exact ih _
    · rw [List.map_cons, List.nodup_cons]
      refine ⟨?_, ih _⟩
      intro hm
      have := (mem_names_keptLambdas _ _ _).mp hm
      exact this.2 ((mem_strSetInsert _ _ _).mpr (Or.inl rfl))

theorem keptLambdas_first (lambda_names : List String) (ls : List LambdaExpr) (x : LambdaExpr)
    (hx : x ∈ keptLambdas lambda_names ls) :
    ls.find? (fun y => decide (y.Name = x.Name)) = some x := by
  induction ls generalizing lambda_names with
  | nil => simp [keptLambdas] at hx
  | cons l rest ih =>
    unfold keptLambdas at hx
    split at hx
    next h =>
      have hin : l.Name ∈ lambda_names := List.count_pos_iff.mp h
      have hxn : x.Name ∉ lambda_names :=
        ((mem_names_keptLambdas _ _ _).mp (List.mem_map_of_mem _ hx)).2
      have hne : ¬ l.Name = x.Name := fun he => hxn (he ▸ hin)
      rw [List.find?_cons_of_neg _ (by simpa using hne)]
      exact ih _ hx
    next h =>
      rcases List.mem_cons.mp hx with hx | hx
      · subst hx
        simp
      · have hxn : x.Name ∉ strSetInsert l.Name lambda_names :=
          ((mem_names_keptLambdas _ _ _).mp (List.mem_map_of_mem _ hx)).2
        have hne : ¬ l.Name = x.Name :=
          fun he => hxn ((mem_strSetInsert _ _ _).mpr (Or.inl he.symm))
        rw [List.find?_cons_of_neg _ (by simpa using hne)]
        exact ih _ hx

theorem count_names_keptLambdas (ls : List LambdaExpr) (n : String) :
    ((keptLambdas [] ls).map LambdaExpr.Name).count n =
      if n ∈ ls.map LambdaExpr.Name then 1 else 0 := by
  split
  next h =>
    exact List.count_eq_one_of_mem (nodup_names_keptLambdas [] ls)
      ((mem_names_keptLambdas [] ls n).mpr ⟨h, List.not_mem_nil n⟩)
  next h =>
    exact List.count_eq_zero_of_not_mem
      (fun hm => h ((mem_names_keptLambdas [] ls n).mp hm).1)

/-- C21: for every list of lambdas (and of functions), the lambdas `Compile`
declares and the lambdas it compiles are the same list; every name of the list
is declared exactly once and compiled exactly once, and no other name is; the
lambda declared and compiled for a name is the first one of the list carrying
it, so every later lambda with that name is skipped; and the declared and the
compiled lambdas come in the order of the list. -/
theorem Compile_lambdas_once (funcs : List Obj) (lambdas : List LambdaExpr) :
    declaredLambdas (compileLambdaPasses funcs lambdas) =
      compiledLambdas (compileLambdaPasses funcs lambdas) ∧
    (∀ n, ((declaredLambdas (compileLambdaPasses funcs lambdas)).map LambdaExpr.Name).count n =
      if n ∈ lambdas.map LambdaExpr.Name then 1 else 0) ∧
    (∀ n, ((compiledLambdas (compileLambdaPasses funcs lambdas)).map LambdaExpr.Name).count n =
      if n ∈ lambdas.map LambdaExpr.Name then 1 else 0) ∧
    (∀ l ∈ declaredLambdas (compileLambdaPasses funcs lambdas),
      lambdas.find? (fun y => decide (y.Name = l.Name)) = some l) ∧
    (∀ l ∈ compiledLambdas (compileLambdaPasses funcs lambdas),
      lambdas.find? (fun y => decide (y.Name = l.Name)) = some l) ∧
    (declaredLambdas (compileLambdaPasses funcs lambdas)).Sublist lambdas ∧
    (compiledLambdas (compileLambdaPasses funcs lambdas)).Sublist lambdas ∧
    (∀ n, n ∈ (declaredLambdas (compileLambdaPasses funcs lambdas)).map LambdaExpr.Name ↔
      n ∈ (compiledLambdas (compileLambdaPasses funcs lambdas)).map LambdaExpr.Name) := by
  rw [declaredLambdas_passes, compiledLambdas_passes]
  exact ⟨rfl, count_names_keptLambdas lambdas, count_names_keptLambdas lambdas,
    fun l hl => keptLambdas_first [] lambdas l hl, fun l hl => keptLambdas_first [] lambdas l hl,
    keptLambdas_sublist [] lambdas, keptLambdas_sublist [] lambdas, fun _ => Iff.rfl⟩

theorem Compile_lambdas_once_witness :
    compileLambdaPasses [7] fourLambdas =
      [CompileCall.DeclareLambda ⟨10, "lambda_a"⟩, CompileCall.DeclareLambda ⟨12, "lambda_b"⟩,
        CompileCall.NL, CompileCall.CompileFunc 7,
        CompileCall.CompileLambda ⟨10, "lambda_a"⟩, CompileCall.CompileLambda ⟨12, "lambda_b"⟩] ∧
    (∀ l ∈ declaredLambdas (compileLambdaPasses [7] fourLambdas),
      fourLambdas.find? (fun y => decide (y.Name = l.Name)) = some l) ∧
    (∀ l ∈ compiledLambdas (compileLambdaPasses [7] fourLambdas),
      fourLambdas.find? (fun y => decide (y.Name = l.Name)) = some l) :=
  ⟨by decide, (Compile_lambdas_once [7] fourLambdas).2.2.2.1,
    (Compile_lambdas_once [7] fourLambdas).2.2.2.2.1⟩

/-! ### Confirmation of a packet analyzer -/

theorem mapSession_Frame : mapSession.Frame := by
  intro s t u v
  refine ⟨fun h => ?_, rfl⟩
  show (mapFind (mapModify s t _ _) u).getD _ = (mapFind s u).getD _
  rw [mapFind_mapModify_ne _ _ _ _ _ h]

theorem mapSession_ReadsBack : mapSession.ReadsBack := by
  intro s t v
  show (mapFind (mapModify s t _ _) t).getD _ = v
  rw [mapFind_mapModify_self]
  rfl

/-- A call whose guard does not hold and whose analyzer has a tag sets the
state of the own tag of the analyzer, and with a handler enqueues one event. -/
theorem AnalyzerConfirmation_not_confirmed {σ : Type} (ops : SessionOps σ) (tag arg_tag : Tag)
    (handler : Bool) (session : σ) (queue : List ConfirmationEvent)
    (htag : Tag.toBool tag = true)
    (hstate : ops.AnalyzerState session arg_tag ≠ AnalyzerConfirmationState.CONFIRMED) :
    AnalyzerConfirmation ops tag handler session queue arg_tag =
      .ok (ops.SetAnalyzerState session tag AnalyzerConfirmationState.CONFIRMED,
        if handler then
          queue ++ [⟨ops.GetVal
            (ops.SetAnalyzerState session tag AnalyzerConfirmationState.CONFIRMED),
            if Tag.toBool arg_tag then arg_tag else tag⟩]
        else queue) := by
  unfold AnalyzerConfirmation GetAnalyzerTag
  rw [if_neg hstate, if_pos htag]
  cases handler <;> rfl

/-- With the own tag of the analyzer as argument, and a session that reads back
the state it was given, a second call with the same arguments returns at the
guard: it changes neither the session nor the queue. -/
theorem AnalyzerConfirmation_own_tag_idempotent {σ : Type} (ops : SessionOps σ) (tag : Tag)
    (handler : Bool) (session s1 : σ) (queue q1 : List ConfirmationEvent)
    (hback : ops.ReadsBack)
    (h1 : AnalyzerConfirmation ops tag handler session queue tag = .ok (s1, q1)) :
    AnalyzerConfirmation ops tag handler s1 q1 tag = .ok (s1, q1) := by
  have hconf : ops.AnalyzerState s1 tag = AnalyzerConfirmationState.CONFIRMED := by
    unfold AnalyzerConfirmation GetAnalyzerTag at h1
    split at h1
    next h =>
      injection h1 with h1
      injection h1 with hs hq
      rw [← hs]
      exact h
    next h =>
      split at h1
      next e he => cases h1
      next own hown =>
        have hs : s1 = ops.SetAnalyzerState session own AnalyzerConfirmationState.CONFIRMED := by
          split at h1
          all_goals
            injection h1 with h1
            injection h1 with hs hq
            exact hs.symm
        have hot : own = tag := by
          split at hown
          · injection hown with hown
            exact hown.symm
          · cases hown
        rw [hs, hot]
        exact hback _ _ _
  unfold AnalyzerConfirmation
  rw [if_pos hconf]

/-- C22 fails on the code: for an analyzer with a tag, a handler for
`analyzer_confirmation`, and an argument tag other than the own tag of the
analyzer (the empty tag among them) whose state in the session is not
`CONFIRMED`, the first call enqueues one event and a second call with the same
arguments enqueues the same event once more, since the guard reads the state of
the argument tag and the call sets the state of the own tag. -/
theorem AnalyzerConfirmation_enqueues_again {σ : Type} (ops : SessionOps σ) (tag arg_tag : Tag)
    (session : σ) (queue : List ConfirmationEvent)
    (hframe : ops.Frame)
    (htag : Tag.toBool tag = true)
    (hne : arg_tag ≠ tag)
    (hstate : ops.AnalyzerState session arg_tag ≠ AnalyzerConfirmationState.CONFIRMED) :
    ∃ s1 s2 : σ,
      AnalyzerConfirmation ops tag true session queue arg_tag =
        .ok (s1, queue ++ [⟨ops.GetVal session, if Tag.toBool arg_tag then arg_tag else tag⟩]) ∧
      AnalyzerConfirmation ops tag true s1
          (queue ++ [⟨ops.GetVal session, if Tag.toBool arg_tag then arg_tag else tag⟩])
          arg_tag =
        .ok (s2, queue ++ [⟨ops.GetVal session, if Tag.toBool arg_tag then arg_tag else tag⟩,
          ⟨ops.GetVal session, if Tag.toBool arg_tag then arg_tag else tag⟩]) := by
  have hstate1 : ops.AnalyzerState
      (ops.SetAnalyzerState session tag AnalyzerConfirmationState.CONFIRMED) arg_tag ≠
      AnalyzerConfirmationState.CONFIRMED := by
    rw [(hframe session tag arg_tag _).1 hne]
    exact hstate
  refine ⟨ops.SetAnalyzerState session tag AnalyzerConfirmationState.CONFIRMED,
    ops.SetAnalyzerState (ops.SetAnalyzerState session tag AnalyzerConfirmationState.CONFIRMED)
      tag AnalyzerConfirmationState.CONFIRMED, ?_, ?_⟩
  · rw [AnalyzerConfirmation_not_confirmed ops tag arg_tag true session queue htag hstate,
      (hframe session tag arg_tag _).2]
    rfl
  · rw [AnalyzerConfirmation_not_confirmed ops tag arg_tag true _ _ htag hstate1,
      (hframe _ tag arg_tag _).2, (hframe session tag arg_tag _).2]
    simp

theorem AnalyzerConfirmation_enqueues_again_witness :
    mapSession.Frame ∧ Tag.toBool 5 = true ∧ (0 : Tag) ≠ 5 ∧
    mapSession.AnalyzerState [] 0 ≠ AnalyzerConfirmationState.CONFIRMED ∧
    AnalyzerConfirmation mapSession 5 true [] [] 0 =
      .ok ([(5, AnalyzerConfirmationState.CONFIRMED)], [⟨100, 5⟩]) ∧
    AnalyzerConfirmation mapSession 5 true [(5, AnalyzerConfirmationState.CONFIRMED)]
      [⟨100, 5⟩] 0 =
      .ok ([(5, AnalyzerConfirmationState.CONFIRMED)], [⟨100, 5⟩, ⟨100, 5⟩]) ∧
    ∃ s1 s2 : List (Obj × AnalyzerConfirmationState),
      AnalyzerConfirmation mapSession 5 true [] [] 0 =
        .ok (s1, [] ++ [⟨mapSession.GetVal [], if Tag.toBool 0 then 0 else 5⟩]) ∧
      AnalyzerConfirmation mapSession 5 true s1
          ([] ++ [⟨mapSession.GetVal [], if Tag.toBool 0 then 0 else 5⟩]) 0 =
        .ok (s2, [] ++ [⟨mapSession.GetVal [], if Tag.toBool 0 then 0 else 5⟩,
          ⟨mapSession.GetVal [], if Tag.toBool 0 then 0 else 5⟩]) :=
  ⟨mapSession_Frame, by decide, by decide, by decide, by decide, by decide,
    AnalyzerConfirmation_enqueues_again mapSession 5 0 [] [] mapSession_Frame (by decide)
      (by decide) (by decide)⟩

example : AnalyzerConfirmation mapSession 5 true [] [] 5 =
    .ok ([(5, AnalyzerConfirmationState.CONFIRMED)], [⟨100, 5⟩]) ∧
    AnalyzerConfirmation mapSession 5 true [(5, AnalyzerConfirmationState.CONFIRMED)]
      [⟨100, 5⟩] 5 = .ok ([(5, AnalyzerConfirmationState.CONFIRMED)], [⟨100, 5⟩]) := by
  decide

end Zeek
